import Mathlib

/-!
# libDSPAU stream engine (`libindi/libs/dsp/stream.c`)

A shallow embedding of the N-dimensional stream container of `stream.c`.

Modelling conventions.

* A C `int` is an `Int`.  The products and sums that `stream.c` computes on
  `int`s (the running `len`, the strides, the composed `index`) are reduced
  into the range of a 32-bit `int` by `wrap`, as the two's complement
  arithmetic of the compiled code does.  The loop counters and the walk
  indices, which a loop test bounds before each step, are stepped exactly;
  the theorems about them bound the values involved.
* A block of memory is a list of cells.  A cell is `some v` when it holds the
  value `v` and `none` when its content is indeterminate: storage obtained
  from `realloc` beyond the size the block had, whose content the C standard
  does not fix (an allocator may happen to leave old bytes there).  `calloc`
  gives cells holding zero.
* An operation that reads or writes memory returns an `Option`: `none` stands
  for an execution without defined behaviour (an access outside a block, an
  `int` read from an indeterminate cell, a division by zero, a call through a
  null function pointer) or, for the functions taking `fuel`, for a loop that
  did not finish within `fuel` iterations.
* Allocation is assumed to succeed when a non-negative amount is requested.
* The samples are C `double`s; they are kept abstract as a type `α` with a
  zero, an addition and a multiplication.
* Streams refer to one another (`parent`, `children`) by address; an address
  is a natural number.
-/

namespace Dsp

/-! ## Machine integers -/

/-- Largest value of an `int` (32 bits). -/
def int_max : Int := 2147483647

/-- Least value of an `int` (32 bits). -/
def int_min : Int := -2147483648

/-- Value that an `int` expression of mathematical value `x` takes: `x` reduced modulo
`2^32` into the range `int_min .. int_max` (two's complement). -/
def wrap (x : Int) : Int := (x + 2147483648) % 4294967296 - 2147483648

/-! ## Memory blocks -/

/-- Cell `i` of a block: `none` when `i` is outside the block, otherwise the cell
(which may itself be indeterminate). -/
def cell_at {β : Type} (buf : List (Option β)) (i : Int) : Option (Option β) :=
  if 0 ≤ i then buf.get? i.toNat else none

/-- Read of `buf[i]` used as a value the control flow depends on: undefined when
`i` is outside the block or the cell is indeterminate. -/
def rd {β : Type} (buf : List (Option β)) (i : Int) : Option β :=
  (cell_at buf i).join

/-- Write `buf[i] = v`: undefined when `i` is outside the block. -/
def wr {β : Type} (buf : List (Option β)) (i : Int) (v : Option β) : Option (List (Option β)) :=
  if 0 ≤ i ∧ i.toNat < buf.length then some (buf.set i.toNat v) else none

/-- Block of `n` zeroed cells: `calloc(sizeof(T), n)`. -/
def calloc {β : Type} (zero : β) (n : Nat) : List (Option β) :=
  List.replicate n (some zero)

/-- Block `realloc(buf, sizeof(T) * n)`: the cells up to the lesser of the old and new
sizes are kept, the cells beyond the old size are indeterminate.  A request
that is zero or negative (which, converted to `size_t`, cannot be satisfied)
leaves no accessible cell. -/
def realloc {β : Type} (buf : List (Option β)) (n : Int) : List (Option β) :=
  buf.take n.toNat ++ List.replicate (n.toNat - buf.length) none

/-- Copy `memcpy(dest, src, sizeof(T) * n)`: undefined unless both blocks have at
least `n` cells. -/
def memcpy {β : Type} (dest src : List (Option β)) (n : Int) : Option (List (Option β)) :=
  if 0 ≤ n ∧ n.toNat ≤ dest.length ∧ n.toNat ≤ src.length then
    some (src.take n.toNat ++ dest.drop n.toNat)
  else none

/-! ## Data model -/

/-- Modelled from the spec: the type `dsp_region` is declared in `dsp.h`, which is not
among the sources.  A region is a start and a length along one dimension;
`stream.c` reads them as `rect[dim].start` and `rect[dim].len`. -/
structure dsp_region where
  start : Int
  len : Int
deriving DecidableEq

/-- Modelled from the spec: `sizeof(dsp_region)` counted in `int`s.  The declaration is in
`dsp.h`; a region descriptor is `{start, length}`, two `int`s. -/
def region_ints : Int := 2

/-- Modelled from the spec: the record `dsp_stream` is declared in `dsp.h`; the fields are
those `stream.c` uses.  `in_` is the C field `in`.  `func` is a
function pointer (`none` is `NULL`), `arg` is a pointer to an `int` object,
recorded with the value the object held when the pointer was bound (`none`
is `NULL`), `parent` and the cells of
`children` are stream addresses (`none` is no address: null or
indeterminate). -/
structure dsp_stream (α : Type) where
  len : Int
  dims : Int
  sizes : List (Option Int)
  pos : List (Option Int)
  index : Int
  in_ : List (Option α)
  out : List (Option α)
  arg : Option Int
  parent : Option Nat
  children : List (Option Nat)
  child_count : Int
  location : List (Option α)
  target : List (Option α)
  starttimeutc : Int × Int
  lambda : α
  samplerate : α
  ROI : List (Option dsp_region)
  func : Option Nat
deriving DecidableEq

variable {α : Type}

/-- Modelled from the spec: the macro `Min` of `dsp.h`, the lesser of its two arguments. -/
def Min (a b : Int) : Int := if a < b then a else b

/-! ## Construction -/

/-- Stream returned by `dsp_stream_new` (lines 86-105): every block comes from `calloc`, the
record itself is zeroed. -/
def dsp_stream_new [Zero α] : dsp_stream α :=
  { out := calloc 0 1
    in_ := calloc 0 1
    location := calloc 0 3
    target := calloc 0 3
    sizes := calloc 0 1
    pos := calloc 0 1
    children := [none]
    ROI := calloc ⟨0, 0⟩ 1
    child_count := 0
    parent := none
    dims := 0
    len := 1
    index := 0
    lambda := 0
    samplerate := 0
    starttimeutc := (0, 0)
    arg := none
    func := none }

/-- The one region that a block of `int`s holds when it is read as a `dsp_region`
array of one entry; indeterminate unless both `int`s are determinate. -/
def region_view (block : List (Option Int)) : List (Option dsp_region) :=
  match block with
  | [some a, some b] => [some ⟨a, b⟩]
  | _ => [none]

/-- Function `dsp_stream_add_dim` (lines 123-133).

Line 127 passes the `sizes` block to `realloc` with the size of one
`dsp_region` and stores the result in `ROI`; line 128 then passes `sizes` to
`realloc` again.  The second call has defined behaviour only when the first
one returned the block in place, and then the block it receives has room for
`region_ints` cells: this is the execution modelled.  After line 127 the
block is one region long, so `ROI` is the view of its two `int`s as one
region (the storage is the one of `sizes`; the model keeps the view by
value).  Line 128 regrows the block to `dims + 1` cells: the C standard
fixes the content of the first `region_ints` of them only, the others are
indeterminate cells (an allocator that leaves the block in its place may
leave the old bytes there; only what every execution guarantees is
recorded).  Line 130 multiplies in `int`. -/
def dsp_stream_add_dim (stream : dsp_stream α) (size : Int) : Option (dsp_stream α) :=
  match wr stream.sizes stream.dims (some size) with
  | none => none
  | some sizes =>
    let dims := stream.dims + 1
    let block := realloc sizes region_ints
    let len := wrap (stream.len * size)
    some { stream with
      dims := dims
      ROI := region_view block
      sizes := realloc block (dims + 1)
      pos := realloc stream.pos (dims + 1)
      len := len
      in_ := realloc stream.in_ len
      out := realloc stream.out len }

/-- Successive `dsp_stream_add_dim` calls, one per extent, in order. -/
def add_dims (stream : dsp_stream α) (extents : List Int) : Option (dsp_stream α) :=
  extents.foldlM dsp_stream_add_dim stream

/-- Function `dsp_stream_copy` (lines 107-121): a fresh stream, one `dsp_stream_add_dim` per
source dimension, the metadata by value and the two buffers by `memcpy` of
`stream->len` samples. -/
def dsp_stream_copy [Zero α] (stream : dsp_stream α) : Option (dsp_stream α) := do
  let dest ← (List.range stream.dims.toNat).foldlM
    (fun dest (i : Nat) => do
      let size ← rd stream.sizes (i : Int)
      dsp_stream_add_dim dest size)
    (dsp_stream_new : dsp_stream α)
  let location ← memcpy dest.location stream.location 3
  let target ← memcpy dest.target stream.target 3
  let in_ ← memcpy dest.in_ stream.in_ stream.len
  let out ← memcpy dest.out stream.out stream.len
  pure { dest with
    lambda := stream.lambda
    samplerate := stream.samplerate
    starttimeutc := stream.starttimeutc
    location := location
    target := target
    in_ := in_
    out := out }

/-- Function `dsp_stream_add_child` (lines 135-141).  `saddr` and `caddr` are the addresses
of `stream` and `child`; the result is the pair of both records after the
call. -/
def dsp_stream_add_child (saddr : Nat) (stream : dsp_stream α) (caddr : Nat)
    (child : dsp_stream α) : Option (dsp_stream α × dsp_stream α) := do
  let children ← wr stream.children stream.child_count (some caddr)
  let child_count := stream.child_count + 1
  pure ({ stream with
          children := realloc children (child_count + 1)
          child_count := child_count },
        { child with parent := some saddr })

/-! ## Buffer management -/

/-- Function `dsp_stream_swap_buffers` (lines 21-26). -/
def dsp_stream_swap_buffers (stream : dsp_stream α) : dsp_stream α :=
  let in_ := stream.in_
  { stream with in_ := stream.out, out := in_ }

/-- Function `dsp_stream_set_input_buffer_len` (lines 28-37): the stream after the call and the
block returned. -/
def dsp_stream_set_input_buffer_len (stream : dsp_stream α) (len : Int) :
    dsp_stream α × List (Option α) :=
  let in_ := realloc stream.in_ len
  ({ stream with in_ := in_, len := len }, in_)

/-- Function `dsp_stream_set_output_buffer_len` (lines 39-48). -/
def dsp_stream_set_output_buffer_len (stream : dsp_stream α) (len : Int) :
    dsp_stream α × List (Option α) :=
  let out := realloc stream.out len
  ({ stream with out := out, len := len }, out)

/-- Function `dsp_stream_set_input_buffer` (lines 50-55). -/
def dsp_stream_set_input_buffer (stream : dsp_stream α) (buffer : List (Option α)) (len : Int) :
    dsp_stream α × List (Option α) :=
  ({ stream with in_ := buffer, len := len }, buffer)

/-- Function `dsp_stream_set_output_buffer` (lines 57-62). -/
def dsp_stream_set_output_buffer (stream : dsp_stream α) (buffer : List (Option α)) (len : Int) :
    dsp_stream α × List (Option α) :=
  ({ stream with out := buffer, len := len }, buffer)

/-- Function `dsp_stream_get_input_buffer` (lines 64-67). -/
def dsp_stream_get_input_buffer (stream : dsp_stream α) : List (Option α) := stream.in_

/-- Function `dsp_stream_get_output_buffer` (lines 69-72). -/
def dsp_stream_get_output_buffer (stream : dsp_stream α) : List (Option α) := stream.out

/-! ## Coordinate conversion -/

/-- One iteration of the loop of `dsp_stream_get_position` (lines 159-164); the state is
the running `m` and the stream.  C division truncates, hence `Int.tdiv` and
`Int.tmod`; the product of line 162 is an `int`. -/
def get_position_step (st : Int × dsp_stream α) (dim : Nat) : Option (Int × dsp_stream α) := do
  let size ← rd st.2.sizes (dim : Int)
  if st.1 = 0 ∨ size = 0 then none
  else
    let y := Int.tmod (Int.tdiv st.2.index st.1) size
    let pos ← wr st.2.pos (dim : Int) (some y)
    pure (wrap (st.1 * size), { st.2 with pos := pos })

/-- Function `dsp_stream_get_position` (lines 155-166); the stream returned is the argument
after the call. -/
def dsp_stream_get_position (stream : dsp_stream α) : Option (dsp_stream α) :=
  ((List.range stream.dims.toNat).foldlM get_position_step (1, stream)).map Prod.snd

/-- One iteration of the loop of `dsp_stream_set_position` (lines 172-175); the product and
the sum of line 173 and the product of line 174 are `int`s. -/
def set_position_step (st : Int × dsp_stream α) (dim : Nat) : Option (Int × dsp_stream α) := do
  let p ← rd st.2.pos (dim : Int)
  let size ← rd st.2.sizes (dim : Int)
  pure (wrap (st.1 * size), { st.2 with index := wrap (st.2.index + wrap (st.1 * p)) })

/-- Function `dsp_stream_set_position` (lines 168-177). -/
def dsp_stream_set_position (stream : dsp_stream α) : Option (dsp_stream α) :=
  ((List.range stream.dims.toNat).foldlM set_position_step
    (1, { stream with index := 0 })).map Prod.snd

/-! ## Execution -/

/-- What a call of `dsp_stream_exec_multidim` leaves behind: whether the pointer returned is
the stream (`false` is `NULL`), the stream after the call, and the stream as
each invocation of `func` received it, in order. -/
structure multidim_outcome (α : Type) where
  returned : Bool
  stream : dsp_stream α
  calls : List (dsp_stream α)

/-- Loop of `dsp_stream_exec_multidim` (lines 186-189).  Line 187 binds `arg` to the address
of the loop variable `dim`, so the function called holds the stream and,
through `arg`, that variable.  `code f t` is what the function at address
`f` leaves when it receives the stream `t` (`arg` bound to `dim`, whose
value at the call is the one recorded): the stream, and the value of `dim`.
The increment of line 186 applies to the value the call left, and the next
test reads `dims` of the stream the call left. -/
def exec_multidim_loop (code : Nat → dsp_stream α → dsp_stream α × Int) :
    Nat → Int → dsp_stream α → List (dsp_stream α) → Option (dsp_stream α × List (dsp_stream α))
  | 0, _, _, _ => none
  | fuel + 1, dim, stream, calls =>
    if dim < stream.dims then
      let stream := { stream with arg := some dim }
      match stream.func with
      | none => none
      | some f =>
        exec_multidim_loop code fuel ((code f stream).2 + 1) (code f stream).1
          (calls ++ [stream])
    else some (stream, calls)

/-- Function `dsp_stream_exec_multidim` (lines 183-191). -/
def dsp_stream_exec_multidim (code : Nat → dsp_stream α → dsp_stream α × Int) (fuel : Nat)
    (stream : dsp_stream α) : Option (multidim_outcome α) :=
  if stream.dims = 0 then some ⟨false, stream, []⟩
  else (exec_multidim_loop code fuel 0 stream []).map (fun r => ⟨true, r.1, r.2⟩)

/-! ## Index walks -/

/-- Index pairs visited by `for (x = x0, y = y0; cond(x, y); x += sx, y += sy)`, in
order; `none` when the loop is still running after `fuel` tests. -/
def walk (cond : Int → Int → Bool) (sx sy : Int) : Nat → Int → Int → Option (List (Int × Int))
  | 0, _, _ => none
  | fuel + 1, x, y =>
    if cond x y then (walk cond sx sy fuel (x + sx) (y + sy)).map (fun l => (x, y) :: l)
    else some []

/-- Value of `a op b` on two cells: indeterminate as soon as one operand is. -/
def cell_op (op : α → α → α) (a b : Option α) : Option α :=
  match a, b with
  | some u, some v => some (op u v)
  | _, _ => none

/-- Body of the inner loop of `dsp_stream_mul` and `dsp_stream_sum` (lines 202-204 and
220-222) at the index pair `(x, y)`. -/
def combine_at (op : α → α → α) (st : dsp_stream α × dsp_stream α) (xy : Int × Int) :
    Option (dsp_stream α × dsp_stream α) := do
  let a ← cell_at st.1.in_ xy.1
  let b ← cell_at st.2.in_ xy.2
  let i := cell_op op a b
  let out1 ← wr st.1.out xy.1 i
  let out2 ← wr st.2.out xy.2 i
  pure ({ st.1 with out := out1 }, { st.2 with out := out2 })

/-! ## Elementwise combination -/

/-- One iteration of the outer loop of `dsp_stream_mul` (lines 200-208); the state is
`len1`, `len2` and the two streams.  The products of lines 206-207 are
`int`s. -/
def mul_step [Mul α] (fuel : Nat) (st : Int × Int × dsp_stream α × dsp_stream α) (dim : Nat) :
    Option (Int × Int × dsp_stream α × dsp_stream α) := do
  let pairs ← walk (fun x y => decide (x < st.2.2.1.len ∧ y < st.2.2.2.len)) st.1 st.2.1 fuel 0 0
  let r ← pairs.foldlM (combine_at (fun u v => u * v)) (st.2.2.1, st.2.2.2)
  let s1 ← rd r.1.sizes (dim : Int)
  let s2 ← rd r.2.sizes (dim : Int)
  pure (wrap (st.1 * s1), wrap (st.2.1 * s2), r.1, r.2)

/-- Function `dsp_stream_mul` (lines 193-209): both streams after the call. -/
def dsp_stream_mul [Mul α] (fuel : Nat) (in1 in2 : dsp_stream α) :
    Option (dsp_stream α × dsp_stream α) :=
  let dims := Min in1.dims in2.dims
  if dims = 0 then some (in1, in2)
  else ((List.range dims.toNat).foldlM (mul_step fuel) (1, 1, in1, in2)).map
    (fun r => (r.2.2.1, r.2.2.2))

/-- One iteration of the outer loop of `dsp_stream_sum` (lines 218-226). -/
def sum_step [Add α] (fuel : Nat) (st : Int × Int × dsp_stream α × dsp_stream α) (dim : Nat) :
    Option (Int × Int × dsp_stream α × dsp_stream α) := do
  let s1 ← rd st.2.2.1.sizes (dim : Int)
  let s2 ← rd st.2.2.2.sizes (dim : Int)
  let pairs ← walk (fun x y => decide (x < s1 ∧ y < s2)) st.1 st.2.1 fuel 0 0
  let r ← pairs.foldlM (combine_at (fun u v => u + v)) (st.2.2.1, st.2.2.2)
  pure (s1, s2, r.1, r.2)

/-- Function `dsp_stream_sum` (lines 211-227). -/
def dsp_stream_sum [Add α] (fuel : Nat) (in1 in2 : dsp_stream α) :
    Option (dsp_stream α × dsp_stream α) :=
  let dims := Min in1.dims in2.dims
  if dims = 0 then some (in1, in2)
  else ((List.range dims.toNat).foldlM (sum_step fuel) (1, 1, in1, in2)).map
    (fun r => (r.2.2.1, r.2.2.2))

/-! ## Cropping -/

/-- Body of the inner loop of `dsp_stream_crop` (lines 240-241) at the index pair
`(x, y)`: `x` indexes the source, `y` the result. -/
def crop_at (src : dsp_stream α) (ret : dsp_stream α) (xy : Int × Int) :
    Option (dsp_stream α) := do
  let a ← cell_at src.in_ xy.1
  let in_ ← wr ret.in_ xy.2 a
  let b ← cell_at src.out xy.1
  let out ← wr ret.out xy.2 b
  pure { ret with in_ := in_, out := out }

/-- Index pairs of the inner loop of `dsp_stream_crop` (line 239) for one dimension:
`rect` is `rect[dim]`, `size` is `in->sizes[dim]`, `len` the current stride
of the source index. -/
def crop_walk (fuel : Nat) (rect : dsp_region) (size len : Int) : Option (List (Int × Int)) :=
  walk (fun x _ => decide (x < rect.len ∧ x < size)) len rect.len fuel rect.start 0

/-- One iteration of the outer loop of `dsp_stream_crop` (lines 237-244); the state is
`len` and the stream under construction. -/
def crop_step (fuel : Nat) (src : dsp_stream α) (st : Int × dsp_stream α) (dim : Nat) :
    Option (Int × dsp_stream α) := do
  let rect ← rd src.ROI (dim : Int)
  let ret ← dsp_stream_add_dim st.2 rect.len
  let size ← rd src.sizes (dim : Int)
  let pairs ← crop_walk fuel rect size st.1
  let ret ← pairs.foldlM (crop_at src) ret
  pure (size, ret)

/-- Function `dsp_stream_crop` (lines 229-246): `some none` is the `NULL` result, `some (some r)`
the new stream `r`.  The source is only read. -/
def dsp_stream_crop [Zero α] (fuel : Nat) (src : dsp_stream α) :
    Option (Option (dsp_stream α)) :=
  if src.dims = 0 then some none
  else ((List.range src.dims.toNat).foldlM (crop_step fuel src)
    (1, (dsp_stream_new : dsp_stream α))).map (fun r => some r.2)

/-- Function `dsp_stream_exec` (lines 179-181): the stream after the one invocation of `func`
(the value `func` returns is not modelled). -/
def dsp_stream_exec (code : Nat → dsp_stream α → dsp_stream α × Int) (stream : dsp_stream α) :
    Option (dsp_stream α) :=
  match stream.func with
  | none => none
  | some f => some (code f stream).1

/-! ## Accesses of the crop -/

/-- The accesses of the loops of `dsp_stream_crop` (lines 237-244) over the dimensions `dims`,
in order, without the copies themselves: for each turn of the inner loop the
index `x` read in the source, the index `y` written in the result, and the
`len` of the result at that moment (the `ret->len` that `dsp_stream_add_dim` of line
238 has just produced).  `len` is the stride of `x`, `rlen` the `len` of the
result before the dimension is appended. -/
def crop_accesses_from (fuel : Nat) (src : dsp_stream α) :
    List Nat → Int → Int → Option (List (Int × Int × Int))
  | [], _, _ => some []
  | dim :: rest, len, rlen => do
    let rect ← rd src.ROI (dim : Int)
    let size ← rd src.sizes (dim : Int)
    let pairs ← crop_walk fuel rect size len
    let tail ← crop_accesses_from fuel src rest size (wrap (rlen * rect.len))
    pure (pairs.map (fun p => (p.1, p.2, wrap (rlen * rect.len))) ++ tail)

/-- The accesses of one call of `dsp_stream_crop`: none when `dims = 0`, otherwise those of
the loop over all the dimensions, started with `len = 1` on a fresh result. -/
def crop_accesses (fuel : Nat) (src : dsp_stream α) : Option (List (Int × Int × Int)) :=
  if src.dims = 0 then some []
  else crop_accesses_from fuel src (List.range src.dims.toNat) 1 1

/-- The access `(x, y, rlen)` is inside the blocks: `x` inside both buffers of the
source, `y` inside a result of `rlen` samples. -/
def access_in_bounds (src : dsp_stream α) (a : Int × Int × Int) : Prop :=
  0 ≤ a.1 ∧ a.1.toNat < src.in_.length ∧ a.1.toNat < src.out.length
    ∧ 0 ≤ a.2.1 ∧ a.2.1 < a.2.2

instance (src : dsp_stream α) (a : Int × Int × Int) : Decidable (access_in_bounds src a) := by
  unfold access_in_bounds
  infer_instance

/-! ## Cropping, on both records -/

/-- Body of the inner loop of `dsp_stream_crop` (lines 240-241) on the two records the call
works on, the source `in` and the result `ret`, in this order: each of the
two statements loads a cell of the source and stores it in the result. -/
def crop_store (st : dsp_stream α × dsp_stream α) (xy : Int × Int) :
    Option (dsp_stream α × dsp_stream α) := do
  let a ← cell_at st.1.in_ xy.1
  let in_ ← wr st.2.in_ xy.2 a
  let st := (st.1, { st.2 with in_ := in_ })
  let b ← cell_at st.1.out xy.1
  let out ← wr st.2.out xy.2 b
  pure (st.1, { st.2 with out := out })

/-- One iteration of the outer loop of `dsp_stream_crop` (lines 237-244) on both records; the
state is `len`, the source and the result.  Line 238 appends to the result;
the region, the extent and the samples are read in the source as it is at
that moment. -/
def crop_pass (fuel : Nat) (st : Int × dsp_stream α × dsp_stream α) (dim : Nat) :
    Option (Int × dsp_stream α × dsp_stream α) := do
  let rect ← rd st.2.1.ROI (dim : Int)
  let ret ← dsp_stream_add_dim st.2.2 rect.len
  let size ← rd st.2.1.sizes (dim : Int)
  let pairs ← crop_walk fuel rect size st.1
  let r ← pairs.foldlM crop_store (st.2.1, ret)
  pure (size, r.1, r.2)

/-- The two records a call of `dsp_stream_crop` (lines 229-246) works on, as the call leaves
them: the source, and the result (`none` is `NULL`). -/
def dsp_stream_crop_effect [Zero α] (fuel : Nat) (src : dsp_stream α) :
    Option (dsp_stream α × Option (dsp_stream α)) :=
  if src.dims = 0 then some (src, none)
  else ((List.range src.dims.toNat).foldlM (crop_pass fuel)
    (1, src, (dsp_stream_new : dsp_stream α))).map (fun r => (r.2.1, some r.2.2))

/-! ## Accesses of the combine -/

/-- The index pairs `(x, y)` of the inner loop of `dsp_stream_mul` (line 201), pass after
pass over the dimensions `dims`, without the stores; `len1` and `len2` are
the strides of the pass, multiplied in `int` by the extents afterwards
(lines 206-207). -/
def mul_accesses_from (fuel : Nat) (in1 in2 : dsp_stream α) :
    List Nat → Int → Int → Option (List (Int × Int))
  | [], _, _ => some []
  | dim :: rest, len1, len2 => do
    let pairs ← walk (fun x y => decide (x < in1.len ∧ y < in2.len)) len1 len2 fuel 0 0
    let s1 ← rd in1.sizes (dim : Int)
    let s2 ← rd in2.sizes (dim : Int)
    let tail ← mul_accesses_from fuel in1 in2 rest (wrap (len1 * s1)) (wrap (len2 * s2))
    pure (pairs ++ tail)

/-- The index pairs of one call of `dsp_stream_mul`, in the order they are visited. -/
def mul_accesses (fuel : Nat) (in1 in2 : dsp_stream α) : Option (List (Int × Int)) :=
  let dims := Min in1.dims in2.dims
  if dims = 0 then some []
  else mul_accesses_from fuel in1 in2 (List.range dims.toNat) 1 1

/-- The index pairs `(x, y)` of the inner loop of `dsp_stream_sum` (line 219), pass after
pass over the dimensions `dims`, without the stores; `len1` and `len2` are
the strides of the pass, replaced by the extents afterwards (lines
224-225). -/
def sum_accesses_from (fuel : Nat) (in1 in2 : dsp_stream α) :
    List Nat → Int → Int → Option (List (Int × Int))
  | [], _, _ => some []
  | dim :: rest, len1, len2 => do
    let s1 ← rd in1.sizes (dim : Int)
    let s2 ← rd in2.sizes (dim : Int)
    let pairs ← walk (fun x y => decide (x < s1 ∧ y < s2)) len1 len2 fuel 0 0
    let tail ← sum_accesses_from fuel in1 in2 rest s1 s2
    pure (pairs ++ tail)

/-- The index pairs of one call of `dsp_stream_sum`, in the order they are visited. -/
def sum_accesses (fuel : Nat) (in1 in2 : dsp_stream α) : Option (List (Int × Int)) :=
  let dims := Min in1.dims in2.dims
  if dims = 0 then some []
  else sum_accesses_from fuel in1 in2 (List.range dims.toNat) 1 1

/-- The index pair `(x, y)` is inside the blocks: `x` inside both buffers of the
first stream, `y` inside both buffers of the second. -/
def pair_in_bounds (a b : dsp_stream α) (p : Int × Int) : Prop :=
  0 ≤ p.1 ∧ p.1.toNat < a.in_.length ∧ p.1.toNat < a.out.length
    ∧ 0 ≤ p.2 ∧ p.2.toNat < b.in_.length ∧ p.2.toNat < b.out.length

/-! ## Specification vocabulary -/

/-- Stride of dimension `d`: the product of the extents before it (`stride es 0 = 1`). -/
def stride (es : List Int) (d : Nat) : Int := (es.take d).prod

/-- The stream has `es.length` dimensions and the first `dims` cells of `sizes` hold the
extents `es`. -/
def has_shape (s : dsp_stream α) (es : List Int) : Prop :=
  s.dims = (es.length : Int) ∧ s.sizes.take es.length = es.map some

instance (s : dsp_stream α) (es : List Int) : Decidable (has_shape s es) := by
  unfold has_shape
  infer_instance

/-- Coordinates of the linear index `index` along the first `k` dimensions, as cells. -/
def coords (es : List Int) (index : Int) (k : Nat) : List (Option Int) :=
  (List.range k).map (fun d => some ((index / stride es d) % es.getD d 1))

/-- Linear index of the coordinates `ps` over the first `k` dimensions. -/
def compose (es ps : List Int) (k : Nat) : Int :=
  ((List.range k).map (fun d => ps.getD d 0 * stride es d)).sum

/-- The stream after the first `k` invocations of the function at address `f` by
`dsp_stream_exec_multidim`, the `j`-th of which receives the stream with `arg` bound
to the loop variable at value `j`. -/
def after_calls (code : Nat → dsp_stream α → dsp_stream α × Int) (f : Nat) (s : dsp_stream α) :
    Nat → dsp_stream α
  | 0 => s
  | k + 1 => (code f { after_calls code f s k with arg := some (k : Int) }).1

/-- The index pairs `(x, x), (x + 1, x + 1), ...`, `c` of them. -/
def diag (x : Int) (c : Nat) : List (Int × Int) :=
  (List.range c).map (fun (j : Nat) => (x + (j : Int), x + (j : Int)))

/-- The length invariant of a stream of extents `es`: the first `dims` cells of `sizes`
hold `es`, every extent is at least 1, `len` is their product, `in` and
`out` hold exactly `len` samples, and `len`, a field of type `int`, is
within the range of an `int`. -/
def well_formed (s : dsp_stream α) (es : List Int) : Prop :=
  has_shape s es ∧ (∀ e ∈ es, 1 ≤ e) ∧ s.len = es.prod
    ∧ s.in_.length = s.len.toNat ∧ s.out.length = s.len.toNat ∧ s.len ≤ int_max

instance (s : dsp_stream α) (es : List Int) : Decidable (well_formed s es) := by
  unfold well_formed
  infer_instance

/-- The second stream is the first one up to the content of `out`, whose size is the
same. -/
def same_but_out (s s' : dsp_stream α) : Prop :=
  s' = { s with out := s'.out } ∧ s'.out.length = s.out.length

/-- The states reachable from `dsp_stream_new` by the operations that do not rebind a
buffer: `dsp_stream_add_dim` with an extent of at least 1 that keeps the product of
the extents within the range of an `int`, `dsp_stream_swap_buffers`,
`dsp_stream_add_child` (for the parent and for the child), `dsp_stream_get_position`,
`dsp_stream_set_position`, `dsp_stream_mul` and `dsp_stream_sum` (for either operand), each with the
list of the extents appended so far. -/
inductive reachable [Zero α] [Mul α] [Add α] : dsp_stream α → List Int → Prop
  | new : reachable dsp_stream_new []
  | add_dim (s s' : dsp_stream α) (es : List Int) (e : Int) :
      reachable s es → 1 ≤ e → s.len * e ≤ int_max → dsp_stream_add_dim s e = some s' →
      reachable s' (es ++ [e])
  | swap_buffers (s : dsp_stream α) (es : List Int) :
      reachable s es → reachable (dsp_stream_swap_buffers s) es
  | add_child_parent (p c p' c' : dsp_stream α) (ep ec : List Int) (pa ca : Nat) :
      reachable p ep → reachable c ec → dsp_stream_add_child pa p ca c = some (p', c') →
      reachable p' ep
  | add_child_child (p c p' c' : dsp_stream α) (ep ec : List Int) (pa ca : Nat) :
      reachable p ep → reachable c ec → dsp_stream_add_child pa p ca c = some (p', c') →
      reachable c' ec
  | get_position (s s' : dsp_stream α) (es : List Int) :
      reachable s es → dsp_stream_get_position s = some s' → reachable s' es
  | set_position (s s' : dsp_stream α) (es : List Int) :
      reachable s es → dsp_stream_set_position s = some s' → reachable s' es
  | mul_first (a b a' b' : dsp_stream α) (ea eb : List Int) (fuel : Nat) :
      reachable a ea → reachable b eb → dsp_stream_mul fuel a b = some (a', b') →
      reachable a' ea
  | mul_second (a b a' b' : dsp_stream α) (ea eb : List Int) (fuel : Nat) :
      reachable a ea → reachable b eb → dsp_stream_mul fuel a b = some (a', b') →
      reachable b' eb
  | sum_first (a b a' b' : dsp_stream α) (ea eb : List Int) (fuel : Nat) :
      reachable a ea → reachable b eb → dsp_stream_sum fuel a b = some (a', b') →
      reachable a' ea
  | sum_second (a b a' b' : dsp_stream α) (ea eb : List Int) (fuel : Nat) :
      reachable a ea → reachable b eb → dsp_stream_sum fuel a b = some (a', b') →
      reachable b' eb

/-! ## Sample streams -/

/-- A 2 x 3 stream at linear index 4. -/
def grid_2x3 : dsp_stream Int :=
  { (dsp_stream_new : dsp_stream Int) with
    dims := 2
    sizes := [some 2, some 3, none]
    pos := [some 0, none, none]
    len := 6
    index := 4
    in_ := [some 10, some 11, some 12, some 13, some 14, some 15]
    out := [some 20, some 21, some 22, some 23, some 24, some 25] }

/-- A 1-D stream of 4 samples. -/
def line_4 : dsp_stream Int :=
  { (dsp_stream_new : dsp_stream Int) with
    dims := 1
    sizes := [some 4, none]
    pos := [some 0, none]
    len := 4
    in_ := [some 1, some 2, some 3, some 4]
    out := [some 0, some 0, some 0, some 0] }

/-- A 1-D stream of 6 samples. -/
def line_6 : dsp_stream Int :=
  { (dsp_stream_new : dsp_stream Int) with
    dims := 1
    sizes := [some 6, none]
    pos := [some 0, none]
    len := 6
    in_ := [some 10, some 20, some 30, some 40, some 50, some 60]
    out := [some 7, some 7, some 7, some 7, some 7, some 7] }

/-- A 4 x 4 stream whose input holds 0..15 and whose output holds 100..115, with
the region `{start 1, length 2}` on both axes. -/
def grid_4x4 : dsp_stream Int :=
  { (dsp_stream_new : dsp_stream Int) with
    dims := 2
    sizes := [some 4, some 4, none]
    pos := [some 0, none, none]
    len := 16
    in_ := (List.range 16).map (fun i => some (i : Int))
    out := (List.range 16).map (fun i => some (100 + (i : Int)))
    ROI := [some ⟨1, 2⟩, some ⟨1, 2⟩] }

/-- A 3-D stream bound to the function at address 0. -/
def cube_bound : dsp_stream Int :=
  { (dsp_stream_new : dsp_stream Int) with
    dims := 3
    sizes := [some 2, some 2, some 2, none]
    pos := [some 0, none, none, none]
    len := 8
    in_ := List.replicate 8 (some 0)
    out := List.replicate 8 (some 0)
    func := some 0 }

/-- A stage that counts its invocations in `index` and touches nothing else: the `int`
that `arg` points to keeps the value it had at the call. -/
def count_stage (_ : Nat) (t : dsp_stream Int) : dsp_stream Int × Int :=
  ({ t with index := t.index + 1 }, t.arg.getD 0)

/-- A stage that counts its invocations in `index` and adds 1 to the `int` that `arg`
points to; it changes neither `dims` nor `func`. -/
def skip_stage (_ : Nat) (t : dsp_stream Int) : dsp_stream Int × Int :=
  ({ t with index := t.index + 1 }, t.arg.getD 0 + 1)

/-- The 1-D stream of 4 samples with the region `{start 0, length 2}`. -/
def line_4_roi : dsp_stream Int :=
  { line_4 with ROI := [some ⟨0, 2⟩] }

/-- A 1-D stream of 32768 samples with the region `{start 16381, length 16384}`, which
lies inside it. -/
def long_line : dsp_stream Int :=
  { (dsp_stream_new : dsp_stream Int) with
    dims := 1
    sizes := [some 32768, none]
    pos := [some 0, none]
    len := 32768
    in_ := List.replicate 32768 (some 1)
    out := List.replicate 32768 (some 2)
    ROI := [some ⟨16381, 16384⟩] }

/-- A stream at address 1 that already has the child at address 7. -/
def parent_stream : dsp_stream Int :=
  { (dsp_stream_new : dsp_stream Int) with
    children := [some 7, none]
    child_count := 1 }

/-- The 2 x 3 stream with metadata that are not zero. -/
def tagged_grid : dsp_stream Int :=
  { grid_2x3 with
    lambda := 5
    samplerate := 7
    starttimeutc := (11, 13)
    location := [some 1, some 2, some 3]
    target := [some 4, some 5, some 6] }

/-- A 2 x 2 stream whose input holds 1..4. -/
def square_a : dsp_stream Int :=
  { (dsp_stream_new : dsp_stream Int) with
    dims := 2
    sizes := [some 2, some 2, none]
    pos := [some 0, none, none]
    len := 4
    in_ := [some 1, some 2, some 3, some 4]
    out := [some 0, some 0, some 0, some 0] }

/-- A 2 x 2 stream whose input holds 10, 20, 30, 40. -/
def square_b : dsp_stream Int :=
  { (dsp_stream_new : dsp_stream Int) with
    dims := 2
    sizes := [some 2, some 2, none]
    pos := [some 0, none, none]
    len := 4
    in_ := [some 10, some 20, some 30, some 40]
    out := [some 7, some 7, some 7, some 7] }

/-- The 2 x 3 stream at linear index 17, outside `[0, len)`. -/
def grid_2x3_far : dsp_stream Int :=
  { grid_2x3 with index := 17 }

/-- A stream of two dimensions whose first extent is 0, with buffers of 5 samples and
the regions `{start 0, length 0}` and `{start 0, length 2}`. -/
def flat_0x5 : dsp_stream Int :=
  { (dsp_stream_new : dsp_stream Int) with
    dims := 2
    sizes := [some 0, some 5, none]
    pos := [some 0, none, none]
    len := 5
    in_ := List.replicate 5 (some 0)
    out := List.replicate 5 (some 0)
    ROI := [some ⟨0, 0⟩, some ⟨0, 2⟩] }

/-- Eleven extents, of product 24. -/
def eleven_extents : List Int := [2, 3, 4, 1, 1, 1, 1, 1, 1, 1, 1]

/-- A stream of eleven dimensions of extent 1 holding one sample, whose `sizes` holds
the eleven extents and whose `ROI` block (one the caller bound) holds the
region `{start 0, length 1}` for each axis. -/
def deep_roi : dsp_stream Int :=
  { (dsp_stream_new : dsp_stream Int) with
    dims := 11
    sizes := List.replicate 11 (some 1) ++ [none]
    pos := List.replicate 12 none
    len := 1
    in_ := [some 7]
    out := [some 9]
    ROI := List.replicate 11 (some ⟨0, 1⟩) }

/-- A stream of extents 65536, 65537 and 2 at linear index 65536; every field is
within the range of an `int`, the product of the extents is not. -/
def wide_cube : dsp_stream Int :=
  { (dsp_stream_new : dsp_stream Int) with
    dims := 3
    sizes := [some 65536, some 65537, some 2, none]
    pos := [some 0, none, none, none]
    index := 65536 }

/-- A stream of extents 65536 and 65536 at the coordinates (1, 65535). -/
def wide_grid : dsp_stream Int :=
  { (dsp_stream_new : dsp_stream Int) with
    dims := 2
    sizes := [some 65536, some 65536, none]
    pos := [some 1, some 65535, none] }

/-- A stream of extents 65536, 65536 and 2 with `len = 1` and buffers of one sample. -/
def wide_walk : dsp_stream Int :=
  { (dsp_stream_new : dsp_stream Int) with
    dims := 3
    sizes := [some 65536, some 65536, some 2, none]
    pos := [some 0, none, none, none] }

/-! ## Memory and arithmetic lemmas -/

theorem wrap_of_range (x : Int) (h0 : int_min ≤ x) (h1 : x ≤ int_max) : wrap x = x := by
  unfold wrap
  unfold int_min at h0
  unfold int_max at h1
  omega

theorem wrap_eq_add (x : Int) : ∃ k, wrap x = x + 4294967296 * k :=
  ⟨-((x + 2147483648) / 4294967296), by unfold wrap; omega⟩

theorem wrap_add_mul (x j : Int) : wrap (x + 4294967296 * j) = wrap x := by
  unfold wrap
  rw [show x + 4294967296 * j + 2147483648 = (x + 2147483648) + 4294967296 * j by ring,
    Int.add_mul_emod_self_left]

theorem wrap_mul_left (a b : Int) : wrap (wrap a * b) = wrap (a * b) := by
  obtain ⟨k, hk⟩ := wrap_eq_add a
  rw [hk, show (a + 4294967296 * k) * b = a * b + 4294967296 * (k * b) by ring, wrap_add_mul]

theorem wrap_add_wrap (a b : Int) : wrap (wrap a + wrap b) = wrap (a + b) := by
  obtain ⟨k, hk⟩ := wrap_eq_add a
  obtain ⟨j, hj⟩ := wrap_eq_add b
  rw [hk, hj, show a + 4294967296 * k + (b + 4294967296 * j) = a + b + 4294967296 * (k + j) by
    ring, wrap_add_mul]

theorem wrap_range (x : Int) : int_min ≤ wrap x ∧ wrap x ≤ int_max := by
  unfold wrap int_min int_max
  omega

theorem wrap_one : wrap 1 = 1 := by decide

theorem wrap_wrap (x : Int) : wrap (wrap x) = wrap x :=
  wrap_of_range _ (wrap_range x).1 (wrap_range x).2

theorem cell_at_natCast {β : Type} (buf : List (Option β)) (d : Nat) :
    cell_at buf (d : Int) = buf[d]? := by
  simp [cell_at]

theorem rd_natCast {β : Type} (buf : List (Option β)) (d : Nat) :
    rd buf (d : Int) = (buf[d]?).join := by
  simp [rd, cell_at_natCast]

theorem wr_natCast {β : Type} (buf : List (Option β)) (d : Nat) (v : Option β)
    (h : d < buf.length) : wr buf (d : Int) v = some (buf.set d v) := by
  simp [wr, h]

theorem rd_of_take {β : Type} (buf : List (Option β)) (vs : List β)
    (h : buf.take vs.length = vs.map some) (d : Nat) (hd : d < vs.length) :
    rd buf (d : Int) = some vs[d] := by
  have h1 : (buf.take vs.length)[d]? = buf[d]? := by rw [List.getElem?_take]; simp [hd]
  rw [rd_natCast, ← h1, h]
  simp [hd]

theorem stride_succ (es : List Int) (d : Nat) (hd : d < es.length) :
    stride es (d + 1) = stride es d * es[d] := by
  unfold stride
  rw [List.take_succ, List.prod_append]
  simp [hd]

theorem stride_pos (es : List Int) (hpos : ∀ e ∈ es, 1 ≤ e) (d : Nat) : 1 ≤ stride es d := by
  unfold stride
  have : ∀ l : List Int, (∀ e ∈ l, 1 ≤ e) → 1 ≤ l.prod := by
    intro l
    induction l with
    | nil => intro _; simp
    | cons a t ih =>
      intro h
      have ha : 1 ≤ a := h a (by simp)
      have ht : 1 ≤ t.prod := ih (fun e he => h e (by simp [he]))
      rw [List.prod_cons]
      nlinarith
  exact this _ (fun e he => hpos e (List.mem_of_mem_take he))

theorem stride_le_prod (es : List Int) (hpos : ∀ e ∈ es, 1 ≤ e) (d : Nat) :
    stride es d ≤ es.prod := by
  have h1 : 1 ≤ stride es d := stride_pos es hpos d
  have h2 : 1 ≤ (es.drop d).prod := by
    have := stride_pos (es.drop d) (fun e he => hpos e (List.mem_of_mem_drop he))
      (es.drop d).length
    unfold stride at this
    rw [List.take_length] at this
    exact this
  have h3 : (es.take d).prod * (es.drop d).prod = es.prod := List.prod_take_mul_prod_drop es d
  unfold stride at h1 ⊢
  nlinarith

theorem wrap_stride (es : List Int) (hpos : ∀ e ∈ es, 1 ≤ e) (hfit : es.prod ≤ int_max)
    (d : Nat) : wrap (stride es d) = stride es d := by
  have h1 := stride_pos es hpos d
  have h2 := stride_le_prod es hpos d
  exact wrap_of_range _ (by unfold int_min; omega) (by omega)

theorem one_le_prod (es : List Int) (hpos : ∀ e ∈ es, 1 ≤ e) : 1 ≤ es.prod := by
  have := stride_pos es hpos es.length
  simpa [stride] using this

theorem le_prod_of_mem (es : List Int) (hpos : ∀ e ∈ es, 1 ≤ e) :
    ∀ e ∈ es, e ≤ es.prod := by
  induction es with
  | nil =>
    intro e he
    simp at he
  | cons a t ih =>
    intro e he
    have ha : 1 ≤ a := hpos a (by simp)
    have ht : 1 ≤ t.prod := one_le_prod t (fun x hx => hpos x (by simp [hx]))
    rw [List.prod_cons]
    rcases List.mem_cons.1 he with rfl | he
    · nlinarith
    · have := ih (fun x hx => hpos x (by simp [hx])) e he
      nlinarith

theorem coords_length (es : List Int) (index : Int) (k : Nat) :
    (coords es index k).length = k := by
  simp [coords]

theorem coords_succ (es : List Int) (index : Int) (k : Nat) :
    coords es index (k + 1)
      = coords es index k ++ [some ((index / stride es k) % es.getD k 1)] := by
  simp [coords, List.range_succ]

theorem set_append_drop {β : Type} (l p : List β) (v : β) (k : Nat) (hk : l.length = k)
    (h : k < p.length) :
    (l ++ p.drop k).set k v = (l ++ [v]) ++ p.drop (k + 1) := by
  subst hk
  have hd : p.drop l.length = p[l.length] :: p.drop (l.length + 1) :=
    List.drop_eq_getElem_cons h
  rw [List.set_append_right _ _ (Nat.le_refl _), Nat.sub_self, hd]
  simp only [List.set_cons_zero, List.append_assoc, List.cons_append, List.nil_append]

theorem get_position_step_eq (s : dsp_stream α) (es : List Int)
    (hs : has_shape s es) (hpos : ∀ e ∈ es, 1 ≤ e) (hfit : es.prod ≤ int_max)
    (hi : 0 ≤ s.index) (k : Nat) (hk : k < es.length) (hp : k < s.pos.length) :
    get_position_step (stride es k, { s with pos := coords es s.index k ++ s.pos.drop k }) k
      = some (stride es (k + 1),
          { s with pos := coords es s.index (k + 1) ++ s.pos.drop (k + 1) }) := by
  have hsz : rd s.sizes (k : Int) = some es[k] := rd_of_take _ _ hs.2 k hk
  have h1 : 1 ≤ stride es k := stride_pos es hpos k
  have h2 : 1 ≤ es[k] := hpos _ (List.getElem_mem hk)
  have hne : ¬ (stride es k = 0 ∨ es[k] = 0) := by omega
  have hdiv : Int.tmod (Int.tdiv s.index (stride es k)) es[k]
      = (s.index / stride es k) % es[k] := by
    rw [Int.tdiv_eq_ediv hi (by omega), Int.tmod_eq_emod (Int.ediv_nonneg hi (by omega)) (by omega)]
  have hlen : k < (coords es s.index k ++ s.pos.drop k).length := by
    simp [coords_length]; omega
  have hset := set_append_drop (coords es s.index k) s.pos
    (some ((s.index / stride es k) % es[k])) k (coords_length _ _ _) hp
  have hw : wrap (stride es k * es[k]) = stride es (k + 1) := by
    rw [← stride_succ es k hk]
    exact wrap_stride es hpos hfit (k + 1)
  simp only [get_position_step, hsz, Option.bind_eq_bind, Option.some_bind, hne, if_false,
    wr_natCast _ _ _ hlen, hdiv, hset, hw, coords_succ, pure]
  simp [List.getD_eq_getElem?_getD, hk]

theorem get_position_fold (s : dsp_stream α) (es : List Int)
    (hs : has_shape s es) (hpos : ∀ e ∈ es, 1 ≤ e) (hfit : es.prod ≤ int_max)
    (hi : 0 ≤ s.index) (hp : es.length ≤ s.pos.length) (k : Nat) (hk : k ≤ es.length) :
    (List.range k).foldlM get_position_step (1, s)
      = some (stride es k, { s with pos := coords es s.index k ++ s.pos.drop k }) := by
  induction k with
  | zero => simp [stride, coords]
  | succ k ih =>
    rw [List.range_succ, List.foldlM_append, ih (by omega)]
    simp only [Option.bind_eq_bind, Option.some_bind, List.foldlM_cons, List.foldlM_nil]
    rw [get_position_step_eq s es hs hpos hfit hi k (by omega) (by omega)]
    rfl

theorem get_position_eq (s : dsp_stream α) (es : List Int)
    (hs : has_shape s es) (hpos : ∀ e ∈ es, 1 ≤ e) (hfit : es.prod ≤ int_max)
    (hi : 0 ≤ s.index) (hp : es.length ≤ s.pos.length) :
    dsp_stream_get_position s
      = some { s with pos := coords es s.index es.length ++ s.pos.drop es.length } := by
  have hd : s.dims.toNat = es.length := by rw [hs.1, Int.toNat_ofNat]
  unfold dsp_stream_get_position
  rw [hd, get_position_fold s es hs hpos hfit hi hp es.length (Nat.le_refl _)]
  rfl

theorem compose_succ (es ps : List Int) (k : Nat) :
    compose es ps (k + 1) = compose es ps k + ps.getD k 0 * stride es k := by
  simp [compose, List.range_succ]

theorem set_position_fold (s : dsp_stream α) (es ps : List Int)
    (hs : has_shape s es) (hps : s.pos.take ps.length = ps.map some)
    (k : Nat) (hk : k ≤ es.length) (hk2 : k ≤ ps.length) :
    (List.range k).foldlM set_position_step (1, { s with index := 0 })
      = some (wrap (stride es k), { s with index := wrap (compose es ps k) }) := by
  induction k with
  | zero =>
    have h1 : wrap 1 = 1 := by decide
    have h0 : wrap 0 = 0 := by decide
    simp [stride, compose, h1, h0]
  | succ k ih =>
    rw [List.range_succ, List.foldlM_append, ih (by omega) (by omega)]
    have hsz : rd s.sizes (k : Int) = some es[k] := rd_of_take _ _ hs.2 k (by omega)
    have hpk : rd s.pos (k : Int) = some ps[k] := rd_of_take _ _ hps k (by omega)
    have hg : ps.getD k 0 = ps[k] := by
      simp [List.getD_eq_getElem?_getD, (show k < ps.length by omega)]
    have hm : wrap (wrap (stride es k) * es[k]) = wrap (stride es (k + 1)) := by
      rw [wrap_mul_left, stride_succ es k (by omega)]
    have hx : wrap (wrap (compose es ps k) + wrap (wrap (stride es k) * ps[k]))
        = wrap (compose es ps (k + 1)) := by
      rw [wrap_mul_left, wrap_add_wrap, compose_succ, hg, Int.mul_comm (stride es k) ps[k]]
    simp only [Option.bind_eq_bind, Option.some_bind, List.foldlM_cons, List.foldlM_nil,
      set_position_step, hsz, hpk, pure, hm, hx]

theorem set_position_eq (s : dsp_stream α) (es ps : List Int)
    (hs : has_shape s es) (hps : s.pos.take ps.length = ps.map some)
    (hlen : es.length ≤ ps.length) :
    dsp_stream_set_position s
      = some { s with index := wrap (compose es ps es.length) } := by
  have hd : s.dims.toNat = es.length := by rw [hs.1, Int.toNat_ofNat]
  unfold dsp_stream_set_position
  rw [hd, set_position_fold s es ps hs hps es.length (Nat.le_refl _) hlen]
  rfl

theorem emod_mul_split (x a b : Int) (ha : 0 < a) (hb : 0 < b) :
    x % (a * b) = x % a + a * ((x / a) % b) := by
  have hab : 0 < a * b := Int.mul_pos ha hb
  have h := (Int.ediv_emod_unique (a := x) (r := x % a + a * ((x / a) % b))
    (q := (x / a) / b) hab).2
  refine (h ⟨?_, ?_, ?_⟩).2
  · have h1 := Int.emod_add_ediv x a
    have h2 := Int.emod_add_ediv (x / a) b
    calc x % a + a * (x / a % b) + a * b * (x / a / b)
        = x % a + a * (x / a % b + b * (x / a / b)) := by ring
      _ = x := by rw [h2, h1]
  · have h1 := Int.emod_nonneg x (ne_of_gt ha)
    have h2 := Int.emod_nonneg (x / a) (ne_of_gt hb)
    have := Int.mul_nonneg (le_of_lt ha) h2
    omega
  · have h1 := Int.emod_lt_of_pos x ha
    have h2 := Int.emod_lt_of_pos (x / a) hb
    nlinarith

theorem compose_coords (es : List Int) (hpos : ∀ e ∈ es, 1 ≤ e) (i : Int) (n k : Nat)
    (hk : k ≤ es.length) (hkn : k ≤ n) :
    compose es ((List.range n).map (fun d => (i / stride es d) % es.getD d 1)) k
      = i % stride es k := by
  induction k with
  | zero => simp [compose, stride]
  | succ k ih =>
    have hk1 : k < es.length := by omega
    have h1 : 0 < stride es k := by have := stride_pos es hpos k; omega
    have h2 : 0 < es[k] := by have := hpos _ (List.getElem_mem hk1); omega
    rw [compose_succ, ih (by omega) (by omega), stride_succ es k hk1, emod_mul_split _ _ _ h1 h2]
    have hg : ((List.range n).map (fun d => (i / stride es d) % es.getD d 1)).getD k 0
        = (i / stride es k) % es[k] := by
      simp [List.getD_eq_getElem?_getD, hk1, (show k < n by omega)]
    rw [hg]
    ring

/-! ## Walks -/

theorem diag_succ_left (x : Int) (c : Nat) : diag x (c + 1) = (x, x) :: diag (x + 1) c := by
  simp only [diag, List.range_succ_eq_map, List.map_cons, List.map_map]
  congr 1
  · simp
  · apply List.map_congr_left
    intro j _
    simp only [Function.comp, Nat.cast_succ]
    rw [Int.add_assoc, Int.add_comm 1]

theorem walk_diag (n m : Int) (c : Nat) :
    ∀ (fuel : Nat) (x : Int), x + (c : Int) = min n m → c < fuel →
      walk (fun x y => decide (x < n ∧ y < m)) 1 1 fuel x x = some (diag x c) := by
  induction c with
  | zero =>
    intro fuel x hx hf
    obtain ⟨f, rfl⟩ : ∃ f, fuel = f + 1 := ⟨fuel - 1, by omega⟩
    have hc : ¬ (x < n ∧ x < m) := by
      simp only [Nat.cast_zero, add_zero] at hx
      omega
    rw [walk, if_neg (by simpa using hc)]
    simp [diag]
  | succ c ih =>
    intro fuel x hx hf
    obtain ⟨f, rfl⟩ : ∃ f, fuel = f + 1 := ⟨fuel - 1, by omega⟩
    have hc : x < n ∧ x < m := by
      push_cast at hx
      omega
    have := ih f (x + 1) (by push_cast at hx ⊢; omega) (by omega)
    rw [walk, if_pos (by simpa using hc), this, diag_succ_left]
    rfl

theorem diag_succ_right (x : Int) (c : Nat) :
    diag x (c + 1) = diag x c ++ [(x + (c : Int), x + (c : Int))] := by
  simp [diag, List.range_succ]

theorem combine_fold (op : α → α → α) (a b : dsp_stream α) (k : Nat)
    (h1 : k ≤ a.in_.length) (h2 : k ≤ b.in_.length)
    (h3 : k ≤ a.out.length) (h4 : k ≤ b.out.length) (j : Nat) (hj : j ≤ k) :
    (diag 0 j).foldlM (combine_at op) (a, b)
      = some ({ a with out := (List.zipWith (cell_op op) a.in_ b.in_).take j ++ a.out.drop j },
              { b with out := (List.zipWith (cell_op op) a.in_ b.in_).take j ++ b.out.drop j }) := by
  induction j with
  | zero => simp [diag]
  | succ j ih =>
    rw [diag_succ_right, List.foldlM_append, ih (by omega)]
    have hz : j < (List.zipWith (cell_op op) a.in_ b.in_).length := by
      simp only [List.length_zipWith]; omega
    have hzl : ((List.zipWith (cell_op op) a.in_ b.in_).take j).length = j := by
      simp only [List.length_take, List.length_zipWith]; omega
    have ha : cell_at a.in_ (j : Int) = some a.in_[j] := by
      rw [cell_at_natCast]; simp
    have hb : cell_at b.in_ (j : Int) = some b.in_[j] := by
      rw [cell_at_natCast]; simp
    have hw1 := set_append_drop ((List.zipWith (cell_op op) a.in_ b.in_).take j) a.out
      (cell_op op a.in_[j] b.in_[j]) j hzl (by omega)
    have hw2 := set_append_drop ((List.zipWith (cell_op op) a.in_ b.in_).take j) b.out
      (cell_op op a.in_[j] b.in_[j]) j hzl (by omega)
    have hl1 : j < ((List.zipWith (cell_op op) a.in_ b.in_).take j ++ a.out.drop j).length := by
      simp only [List.length_append, hzl, List.length_drop]; omega
    have hl2 : j < ((List.zipWith (cell_op op) a.in_ b.in_).take j ++ b.out.drop j).length := by
      simp only [List.length_append, hzl, List.length_drop]; omega
    have ht : (List.zipWith (cell_op op) a.in_ b.in_).take (j + 1)
        = (List.zipWith (cell_op op) a.in_ b.in_).take j ++ [cell_op op a.in_[j] b.in_[j]] := by
      rw [List.take_succ, List.getElem?_eq_getElem hz]
      simp
    simp only [Option.bind_eq_bind, Option.some_bind, List.foldlM_cons, List.foldlM_nil,
      combine_at, Int.zero_add, ha, hb, wr_natCast _ _ _ hl1, wr_natCast _ _ _ hl2, hw1, hw2,
      ht, pure]

theorem mul_pass_line [Mul α] (a b : dsp_stream α) (n m : Nat)
    (ha : has_shape a [(n : Int)]) (hb : has_shape b [(m : Int)])
    (hal : a.len = n) (hbl : b.len = m)
    (hai : a.in_.length = n) (hao : a.out.length = n)
    (hbi : b.in_.length = m) (hbo : b.out.length = m)
    (fuel : Nat) (hfuel : min n m < fuel) :
    dsp_stream_mul fuel a b = some
      ({ a with out := List.zipWith (cell_op (fun u v => u * v)) a.in_ b.in_
                        ++ a.out.drop (min n m) },
       { b with out := List.zipWith (cell_op (fun u v => u * v)) a.in_ b.in_
                        ++ b.out.drop (min n m) }) := by
  have hmin : Min a.dims b.dims = 1 := by
    have hda : a.dims = 1 := by simpa using ha.1
    have hdb : b.dims = 1 := by simpa using hb.1
    rw [hda, hdb]
    rfl
  have hr : List.range 1 = [0] := rfl
  have hsa : rd a.sizes ((0 : Nat) : Int) = some (n : Int) :=
    rd_of_take a.sizes [(n : Int)] ha.2 0 (by simp)
  have hsb : rd b.sizes ((0 : Nat) : Int) = some (m : Int) :=
    rd_of_take b.sizes [(m : Int)] hb.2 0 (by simp)
  have hw := walk_diag a.len b.len (min n m) fuel 0
    (by rw [hal, hbl]; push_cast; simp) hfuel
  have hf := combine_fold (fun u v : α => u * v) a b (min n m)
    (by omega) (by omega) (by omega) (by omega) (min n m) (Nat.le_refl _)
  have hz : (List.zipWith (cell_op (fun u v : α => u * v)) a.in_ b.in_).take (min n m)
      = List.zipWith (cell_op (fun u v : α => u * v)) a.in_ b.in_ := by
    apply List.take_of_length_le
    simp only [List.length_zipWith, hai, hbi]
    exact Nat.le_refl _
  rw [hz] at hf
  unfold dsp_stream_mul
  simp only [hmin, one_ne_zero, if_false, Int.toNat_one, hr,
    List.foldlM_cons, List.foldlM_nil, mul_step, hw, hf, hsa, hsb, Option.bind_eq_bind,
    Option.some_bind, pure, Option.map_some']

theorem after_calls_keeps (code : Nat → dsp_stream α → dsp_stream α × Int) (f : Nat)
    (hcode : ∀ t, (code f t).1.dims = t.dims ∧ (code f t).1.func = t.func)
    (s : dsp_stream α) (k : Nat) :
    (after_calls code f s k).dims = s.dims ∧ (after_calls code f s k).func = s.func := by
  induction k with
  | zero => exact ⟨rfl, rfl⟩
  | succ k ih =>
    have h := hcode { after_calls code f s k with arg := some (k : Int) }
    exact ⟨h.1.trans ih.1, h.2.trans ih.2⟩

theorem exec_multidim_loop_step (code : Nat → dsp_stream α → dsp_stream α × Int) (f : Nat)
    (g : Nat) (dim : Int) (t : dsp_stream α) (calls : List (dsp_stream α))
    (hf : t.func = some f) (hlt : dim < t.dims) :
    exec_multidim_loop code (g + 1) dim t calls
      = exec_multidim_loop code g ((code f { t with arg := some dim }).2 + 1)
          (code f { t with arg := some dim }).1 (calls ++ [{ t with arg := some dim }]) := by
  rw [exec_multidim_loop, if_pos hlt]
  simp only [hf]

theorem exec_multidim_loop_spec (code : Nat → dsp_stream α → dsp_stream α × Int) (f : Nat)
    (n : Nat) (s : dsp_stream α)
    (hcode : ∀ t, (code f t).1.dims = t.dims ∧ (code f t).1.func = t.func)
    (hkeep : ∀ t d, t.arg = some d → (code f t).2 = d)
    (hd : s.dims = n) (hf : s.func = some f) (c : Nat) :
    ∀ (fuel j : Nat) (calls : List (dsp_stream α)), j + c = n → c < fuel →
      exec_multidim_loop code fuel (j : Int) (after_calls code f s j) calls
        = some (after_calls code f s n,
            calls ++ (List.range' j c).map
              (fun i => { after_calls code f s i with arg := some (i : Int) })) := by
  induction c with
  | zero =>
    intro fuel j calls hj hfuel
    obtain ⟨g, rfl⟩ : ∃ g, fuel = g + 1 := ⟨fuel - 1, by omega⟩
    have hjn : j = n := by omega
    subst hjn
    have hlt : ¬ ((j : Int) < (after_calls code f s j).dims) := by
      rw [(after_calls_keeps code f hcode s j).1, hd]
      omega
    rw [exec_multidim_loop, if_neg hlt]
    simp
  | succ c ih =>
    intro fuel j calls hj hfuel
    obtain ⟨g, rfl⟩ : ∃ g, fuel = g + 1 := ⟨fuel - 1, by omega⟩
    have hlt : (j : Int) < (after_calls code f s j).dims := by
      rw [(after_calls_keeps code f hcode s j).1, hd]
      omega
    have hfj : (after_calls code f s j).func = some f := by
      rw [(after_calls_keeps code f hcode s j).2, hf]
    have hk : (code f { after_calls code f s j with arg := some (j : Int) }).2 = (j : Int) :=
      hkeep _ _ rfl
    have hnext := ih g (j + 1)
      (calls ++ [{ after_calls code f s j with arg := some (j : Int) }]) (by omega) (by omega)
    have hstep : exec_multidim_loop code (g + 1) (j : Int) (after_calls code f s j) calls
        = exec_multidim_loop code g ((j + 1 : Nat) : Int) (after_calls code f s (j + 1))
            (calls ++ [{ after_calls code f s j with arg := some (j : Int) }]) := by
      rw [exec_multidim_loop_step code f g (j : Int) _ calls hfj hlt, hk]
      push_cast
      rfl
    rw [hstep, hnext, List.range'_succ]
    simp

theorem realloc_length {β : Type} (buf : List (Option β)) (n : Int) :
    (realloc buf n).length = n.toNat := by
  simp only [realloc, List.length_append, List.length_take, List.length_replicate]
  omega

theorem add_dim_fields (s : dsp_stream α) (e : Int) (h0 : 0 ≤ s.dims)
    (hroom : s.sizes.length = s.dims.toNat + 1) :
    ∃ s', dsp_stream_add_dim s e = some s'
      ∧ s'.dims = s.dims + 1 ∧ s'.len = wrap (s.len * e)
      ∧ s'.in_.length = s'.len.toNat ∧ s'.out.length = s'.len.toNat
      ∧ s'.sizes.length = s'.dims.toNat + 1 ∧ s'.pos.length = s'.dims.toNat + 1 := by
  have hw : wr s.sizes s.dims (some e) = some (s.sizes.set s.dims.toNat (some e)) := by
    simp [wr, h0, hroom]
  refine ⟨_, by rw [dsp_stream_add_dim, hw], rfl, rfl, ?_, ?_, ?_, ?_⟩
  · exact realloc_length _ _
  · exact realloc_length _ _
  · show (realloc _ _).length = (s.dims + 1).toNat + 1
    rw [realloc_length]
    omega
  · show (realloc _ _).length = (s.dims + 1).toNat + 1
    rw [realloc_length]
    omega

theorem add_dims_fields (es : List Int) :
    ∀ (s : dsp_stream α), 0 ≤ s.dims → s.sizes.length = s.dims.toNat + 1 →
      s.in_.length = s.len.toNat → s.out.length = s.len.toNat → wrap s.len = s.len →
      ∃ s', add_dims s es = some s'
        ∧ s'.dims = s.dims + (es.length : Int) ∧ s'.len = wrap (s.len * es.prod)
        ∧ s'.in_.length = s'.len.toNat ∧ s'.out.length = s'.len.toNat
        ∧ s'.sizes.length = s'.dims.toNat + 1 := by
  induction es with
  | nil =>
    intro s _ hroom hin hout hw
    exact ⟨s, rfl, by simp, by simp [hw], hin, hout, hroom⟩
  | cons e t ih =>
    intro s h0 hroom _ _ _
    obtain ⟨s1, h1, hd1, hl1, hi1, ho1, hs1, _⟩ := add_dim_fields s e h0 hroom
    obtain ⟨s2, h2, hd2, hl2, hi2, ho2, hs2⟩ := ih s1 (by omega) hs1 hi1 ho1
      (by rw [hl1]; exact wrap_wrap _)
    refine ⟨s2, ?_, ?_, ?_, hi2, ho2, hs2⟩
    · simp only [add_dims, List.foldlM_cons, h1, Option.bind_eq_bind, Option.some_bind]
      exact h2
    · rw [hd2, hd1, List.length_cons]
      push_cast
      omega
    · rw [hl2, hl1, wrap_mul_left, List.prod_cons, Int.mul_assoc]

/-- Appends to a fresh stream: after the first `j` of them `dims` is the number of
appends, `len` the product of the extents appended (as an `int`), and `in`
and `out` hold exactly `len` samples. -/
theorem add_dims_len (es : List Int) (j : Nat) :
    ∃ s, add_dims (dsp_stream_new : dsp_stream Int) (es.take j) = some s
      ∧ s.dims = ((es.take j).length : Int) ∧ s.len = wrap (es.take j).prod
      ∧ s.in_.length = s.len.toNat ∧ s.out.length = s.len.toNat := by
  obtain ⟨s, h, hd, hl, hi, ho, _⟩ :=
    add_dims_fields (es.take j) (dsp_stream_new : dsp_stream Int) (by decide) rfl rfl rfl
      (by decide)
  refine ⟨s, h, ?_, ?_, hi, ho⟩
  · rw [hd]; simp [dsp_stream_new]
  · rw [hl]; simp [dsp_stream_new]

/-- Two appends to a fresh stream leave both extents in `sizes`. -/
theorem add_dims_two_sizes (e1 e2 : Int) :
    (add_dims (dsp_stream_new : dsp_stream Int) [e1, e2]).map (fun s => s.sizes)
      = some [some e1, some e2, none] := by
  rfl

/-! ## Claims -/

/-- C1 (the code at the failing input).  Eleven appends (extents 2, 3, 4 and eight times 1) to
a fresh stream leave `dims = 11`, `len = 24`, buffers of 24 samples and a
`sizes` block of 12 cells, but the extent appended last is not what cell 10
of `sizes` is left with: on every append the block goes through the
one-region `realloc` of line 127 before line 128 regrows it, and only its
first two cells are kept by every execution. -/
theorem add_dims_extents_not_kept :
    ∃ s, add_dims (dsp_stream_new : dsp_stream Int) eleven_extents = some s
      ∧ s.dims = 11 ∧ s.len = 24 ∧ s.in_.length = 24 ∧ s.out.length = 24
      ∧ s.sizes.length = 12 ∧ s.sizes.take 2 = [some 2, some 3]
      ∧ cell_at s.sizes 10 = some none := by
  obtain ⟨s, hs, hd, hl, hi, ho, _⟩ :=
    add_dims_fields eleven_extents (dsp_stream_new : dsp_stream Int) (by decide) rfl rfl rfl
      (by decide)
  have hcells : (add_dims (dsp_stream_new : dsp_stream Int) eleven_extents).map
      (fun s => (s.sizes.length, s.sizes.take 2, cell_at s.sizes 10))
        = some (12, [some 2, some 3], some none) := by
    rfl
  rw [hs] at hcells
  simp only [Option.map_some', Option.some.injEq, Prod.mk.injEq] at hcells
  have hlen : s.len = 24 := by rw [hl]; decide
  refine ⟨s, hs, ?_, hlen, ?_, ?_, hcells.1, hcells.2.1, hcells.2.2⟩
  · rw [hd]; decide
  · rw [hi, hlen]; rfl
  · rw [ho, hlen]; rfl

/-- C2.  Round trip of the coordinate conversion: on a stream whose extents are all
at least 1 and whose `len` (an `int`) is their product, at an index in
`[0, len)`, `dsp_stream_get_position` followed by `dsp_stream_set_position` both return and
leave `index` as it was. -/
theorem position_round_trip (s : dsp_stream α) (es : List Int)
    (hs : has_shape s es) (hp : es.length ≤ s.pos.length)
    (hpos : ∀ e ∈ es, 1 ≤ e) (hlen : s.len = es.prod) (hfit : s.len ≤ int_max)
    (h0 : 0 ≤ s.index) (h1 : s.index < s.len) :
    ∃ s1 s2, dsp_stream_get_position s = some s1 ∧ dsp_stream_set_position s1 = some s2
      ∧ s2.index = s.index := by
  have hg := get_position_eq s es hs hpos (by rw [← hlen]; exact hfit) h0 hp
  have hset := set_position_eq
    { s with pos := coords es s.index es.length ++ s.pos.drop es.length } es
    ((List.range es.length).map (fun d => (s.index / stride es d) % es.getD d 1))
    ⟨hs.1, hs.2⟩
    (by
      simp only [List.length_map, List.length_range]
      rw [List.take_left']
      · simp [coords]
      · simp [coords])
    (by simp)
  refine ⟨_, _, hg, hset, ?_⟩
  show wrap (compose es _ es.length) = s.index
  rw [compose_coords es hpos s.index es.length es.length (Nat.le_refl _) (Nat.le_refl _)]
  have : stride es es.length = es.prod := by simp [stride]
  rw [this, Int.emod_eq_of_lt h0 (by omega)]
  exact wrap_of_range _ (by unfold int_min; omega) (by omega)

/-- The round trip on the 2 x 3 stream at index 4. -/
theorem position_round_trip_witness :
    has_shape grid_2x3 [2, 3] ∧
    (∃ s1 s2, dsp_stream_get_position grid_2x3 = some s1 ∧ dsp_stream_set_position s1 = some s2
      ∧ s2.index = grid_2x3.index) :=
  ⟨⟨rfl, rfl⟩,
   position_round_trip grid_2x3 [2, 3] ⟨rfl, rfl⟩ (by decide) (by decide) rfl (by decide)
     (by decide) (by decide)⟩

/-- C3 (counterexample).  On the stream of extents 65536, 65537 and 2 at index 65536,
`dsp_stream_get_position` leaves `pos[2] = 1`, while `(index / stride(2)) mod sizes[2]`
is 0: the running product of line 162 is an `int`, and `65536 * 65537`
does not fit in one. -/
theorem get_position_stride_wraps :
    (dsp_stream_get_position wide_cube).map (fun s => s.pos.take 3)
      = some [some 0, some 1, some 1]
    ∧ (wide_cube.index / stride [65536, 65537, 2] 2) % 2 = 0 := by
  constructor
  · rfl
  · decide

/-- C3 (amended).  Decomposition: on a stream whose extents are all at least 1, with a
product within the range of an `int`, and whose index is not negative,
`dsp_stream_get_position` returns, `pos[d]` holds `(index / stride(d)) mod sizes[d]` for
every dimension `d`, with `stride(0) = 1`, and `index`, `sizes`, `dims` and
`len` (indeed every field but `pos`) are unchanged. -/
theorem get_position_coordinates (s : dsp_stream α) (es : List Int)
    (hs : has_shape s es) (hp : es.length ≤ s.pos.length)
    (hpos : ∀ e ∈ es, 1 ≤ e) (hfit : es.prod ≤ int_max) (hi : 0 ≤ s.index) :
    ∃ s', dsp_stream_get_position s = some s'
      ∧ (∀ d (hd : d < es.length),
          rd s'.pos (d : Int) = some ((s.index / stride es d) % es[d]))
      ∧ stride es 0 = 1
      ∧ s'.index = s.index ∧ s'.sizes = s.sizes ∧ s'.dims = s.dims ∧ s'.len = s.len
      ∧ s' = { s with pos := s'.pos } := by
  refine ⟨_, get_position_eq s es hs hpos hfit hi hp, ?_, by simp [stride], rfl, rfl, rfl, rfl,
    rfl⟩
  intro d hd
  show rd (coords es s.index es.length ++ s.pos.drop es.length) (d : Int) = _
  rw [rd_natCast, List.getElem?_append_left (by simpa [coords_length] using hd)]
  simp [coords, hd, List.getD_eq_getElem?_getD]

/-- Decomposition of index 4 on the 2 x 3 stream. -/
theorem get_position_coordinates_witness :
    has_shape grid_2x3 [2, 3] ∧ 0 ≤ grid_2x3.index ∧
    (∃ s', dsp_stream_get_position grid_2x3 = some s'
      ∧ (∀ d (hd : d < [(2 : Int), 3].length),
          rd s'.pos (d : Int) = some ((grid_2x3.index / stride [2, 3] d) % [(2 : Int), 3][d]))
      ∧ stride [2, 3] 0 = 1
      ∧ s'.index = grid_2x3.index ∧ s'.sizes = grid_2x3.sizes ∧ s'.dims = grid_2x3.dims
      ∧ s'.len = grid_2x3.len ∧ s' = { grid_2x3 with pos := s'.pos }) :=
  ⟨⟨rfl, rfl⟩, by decide,
   get_position_coordinates grid_2x3 [2, 3] ⟨rfl, rfl⟩ (by decide) (by decide) (by decide)
     (by decide)⟩

/-- C4 (counterexample).  On the stream of extents 65536 and 65536 at the coordinates
(1, 65535), `dsp_stream_set_position` leaves `index = -65535`, while the sum of
`pos[d] * stride(d)` is `1 + 65535 * 65536 = 4294901761`: the sum of line 173
is an `int`. -/
theorem set_position_sum_wraps :
    (dsp_stream_set_position wide_grid).map (fun s => s.index) = some (-65535)
    ∧ ((List.range 2).map (fun d => [(1 : Int), 65535].getD d 0 * stride [65536, 65536] d)).sum
        = 4294901761 := by
  constructor
  · rfl
  · decide

/-- C4 (amended).  Composition: on a stream whose first `dims` extents are `es` and whose
first `dims` coordinates are `ps`, `dsp_stream_set_position` returns with `index` equal
to the sum over the dimensions `d` of `pos[d] * stride(d)`, where
`stride(0) = 1`, reduced modulo `2^32` into the range of an `int`: it is the
sum itself whenever the sum is within that range.  The value `index` had
before plays no part, and `pos`, `sizes` (indeed every field but `index`) are
unchanged. -/
theorem set_position_sum (s : dsp_stream α) (es ps : List Int)
    (hs : has_shape s es) (hps : s.pos.take ps.length = ps.map some)
    (hlen : ps.length = es.length) :
    ∃ s', dsp_stream_set_position s = some s'
      ∧ s'.index
          = wrap ((List.range es.length).map (fun d => ps.getD d 0 * stride es d)).sum
      ∧ (int_min ≤ ((List.range es.length).map (fun d => ps.getD d 0 * stride es d)).sum →
          ((List.range es.length).map (fun d => ps.getD d 0 * stride es d)).sum ≤ int_max →
          s'.index = ((List.range es.length).map (fun d => ps.getD d 0 * stride es d)).sum)
      ∧ stride es 0 = 1
      ∧ (∀ j, dsp_stream_set_position { s with index := j } = some s')
      ∧ s'.pos = s.pos ∧ s'.sizes = s.sizes
      ∧ s' = { s with index := s'.index } := by
  refine ⟨_, set_position_eq s es ps hs hps (by omega), rfl, ?_, by simp [stride], ?_, rfl, rfl,
    rfl⟩
  · intro h1 h2
    exact wrap_of_range _ h1 h2
  · intro j
    exact set_position_eq { s with index := j } es ps ⟨hs.1, hs.2⟩ hps (by omega)

/-- Composition of the coordinates (1, 2) on the 2 x 3 stream: index 5. -/
theorem set_position_sum_witness :
    has_shape grid_2x3 [2, 3] ∧
    (∃ s', dsp_stream_set_position { grid_2x3 with pos := [some 1, some 2, none] } = some s'
      ∧ s'.index = 5) := by
  obtain ⟨s', h1, h2, _⟩ := set_position_sum { grid_2x3 with pos := [some 1, some 2, none] }
    [2, 3] [1, 2] ⟨rfl, rfl⟩ rfl rfl
  exact ⟨⟨rfl, rfl⟩, s', h1, by rw [h2]; decide⟩

/-- C5 (the code at the failing input).  The stream built by eleven appends (extents 2, 3, 4 and
eight times 1) cannot be duplicated: `dsp_stream_copy` replays the appends from
the `sizes` of the source, and of those eleven cells only the first two
hold, in every execution, the extent appended (cell 10 is one that line 127
of `dsp_stream_add_dim` gave up).  A 2 x 3 source is duplicated exactly. -/
theorem copy_eleven_dims :
    (add_dims (dsp_stream_new : dsp_stream Int) eleven_extents).map
        (fun s => (s.dims, rd s.sizes 10)) = some (11, none)
    ∧ (add_dims (dsp_stream_new : dsp_stream Int) eleven_extents).bind dsp_stream_copy = none
    ∧ (dsp_stream_copy grid_2x3).map (fun c => (c.dims, c.len, c.sizes, c.in_, c.out))
        = some (2, 6, grid_2x3.sizes, grid_2x3.in_, grid_2x3.out) := by
  refine ⟨?_, ?_, ?_⟩
  · decide
  · decide
  · rfl

/-- C6.  Multiply on 1-D streams of lengths `n` and `m`: with enough fuel `dsp_stream_mul`
returns; for every `i < min n m` the output cell `i` of both streams holds the
product of the two input cells `i` (the product of their values when both are
determinate); the output cells at `i ≥ min n m` keep their content; no other
field of either stream changes. -/
theorem mul_one_dim [Mul α] (a b : dsp_stream α) (n m : Nat)
    (ha : has_shape a [(n : Int)]) (hb : has_shape b [(m : Int)])
    (hal : a.len = n) (hbl : b.len = m)
    (hai : a.in_.length = n) (hao : a.out.length = n)
    (hbi : b.in_.length = m) (hbo : b.out.length = m)
    (fuel : Nat) (hfuel : min n m < fuel) :
    ∃ a' b', dsp_stream_mul fuel a b = some (a', b')
      ∧ (∀ (i : Nat) (ca cb : Option α), a.in_[i]? = some ca → b.in_[i]? = some cb →
          a'.out[i]? = some (cell_op (fun u v => u * v) ca cb)
          ∧ b'.out[i]? = some (cell_op (fun u v => u * v) ca cb))
      ∧ (∀ (i : Nat) (u v : α), a.in_[i]? = some (some u) → b.in_[i]? = some (some v) →
          a'.out[i]? = some (some (u * v)) ∧ b'.out[i]? = some (some (u * v)))
      ∧ (∀ (i : Nat), min n m ≤ i → a'.out[i]? = a.out[i]? ∧ b'.out[i]? = b.out[i]?)
      ∧ a' = { a with out := a'.out } ∧ b' = { b with out := b'.out } := by
  have hcells : ∀ (i : Nat) (ca cb : Option α), a.in_[i]? = some ca → b.in_[i]? = some cb →
      (List.zipWith (cell_op (fun u v : α => u * v)) a.in_ b.in_ ++ a.out.drop (min n m))[i]?
          = some (cell_op (fun u v : α => u * v) ca cb)
      ∧ (List.zipWith (cell_op (fun u v : α => u * v)) a.in_ b.in_ ++ b.out.drop (min n m))[i]?
          = some (cell_op (fun u v : α => u * v) ca cb) := by
    intro i ca cb h1 h2
    have hi1 : i < a.in_.length := (List.getElem?_eq_some_iff.1 h1).1
    have hi2 : i < b.in_.length := (List.getElem?_eq_some_iff.1 h2).1
    have hz : i < (List.zipWith (cell_op (fun u v : α => u * v)) a.in_ b.in_).length := by
      simp only [List.length_zipWith]; omega
    rw [List.getElem?_append_left hz, List.getElem?_append_left hz, List.getElem?_zipWith, h1, h2]
    exact ⟨rfl, rfl⟩
  refine ⟨_, _, mul_pass_line a b n m ha hb hal hbl hai hao hbi hbo fuel hfuel,
    hcells, fun i u v h1 h2 => hcells i (some u) (some v) h1 h2, ?_, rfl, rfl⟩
  intro i hi
  have hz : (List.zipWith (cell_op (fun u v : α => u * v)) a.in_ b.in_).length = min n m := by
    simp only [List.length_zipWith, hai, hbi]
  constructor
  · show (_ ++ a.out.drop (min n m))[i]? = _
    rw [List.getElem?_append_right (by omega), hz, List.getElem?_drop]
    congr 1
    omega
  · show (_ ++ b.out.drop (min n m))[i]? = _
    rw [List.getElem?_append_right (by omega), hz, List.getElem?_drop]
    congr 1
    omega

/-- Multiply on the 1-D streams of lengths 4 and 6. -/
theorem mul_one_dim_witness :
    has_shape line_4 [4] ∧ has_shape line_6 [6] ∧ min 4 6 < 5 ∧
    (∃ a' b', dsp_stream_mul 5 line_4 line_6 = some (a', b')
      ∧ (∀ (i : Nat) (u v : Int), line_4.in_[i]? = some (some u) →
          line_6.in_[i]? = some (some v) →
          a'.out[i]? = some (some (u * v)) ∧ b'.out[i]? = some (some (u * v)))
      ∧ (∀ (i : Nat), min 4 6 ≤ i →
          a'.out[i]? = line_4.out[i]? ∧ b'.out[i]? = line_6.out[i]?)) := by
  obtain ⟨a', b', h, _, h2, h3, _⟩ :=
    mul_one_dim line_4 line_6 4 6 ⟨rfl, rfl⟩ ⟨rfl, rfl⟩ rfl rfl rfl rfl rfl rfl 5 (by decide)
  exact ⟨⟨rfl, rfl⟩, ⟨rfl, rfl⟩, by decide, a', b', h, h2, h3⟩

/-- C7 (the code at the failing input).  On the 4 x 4 source with the region `{start 1, length 2}`
on both axes, `dsp_stream_crop` returns a 2 x 2 stream whose cell 0 holds the source
element at linear index 1 and whose other three cells were never written (the
sub-block is at the linear indices 5, 6, 9, 10). -/
theorem crop_4x4_writes_one_cell :
    (dsp_stream_crop 10 grid_4x4).map
        (Option.map (fun (r : dsp_stream Int) => (r.dims, r.len, r.in_, r.out)))
      = some (some (2, 4, [some 1, none, none, none], [some 101, none, none, none])) := by
  rfl

/-- C8 (counterexample).  On the stream of 3 dimensions, a function that changes neither
`dims` nor `func` but adds 1 to the `int` that `arg` points to is invoked
twice, not 3 times, with `arg` at the values 0 and 2: `arg` is the address of
the loop variable (line 187). -/
theorem exec_multidim_counter_written :
    (∀ t, (skip_stage 0 t).1.dims = t.dims ∧ (skip_stage 0 t).1.func = t.func)
    ∧ cube_bound.dims = 3
    ∧ (dsp_stream_exec_multidim skip_stage 5 cube_bound).map
        (fun r => (r.returned, r.calls.length, r.calls.map (fun t => t.arg), r.stream.index))
      = some (true, 2, [some 0, some 2], 2) := by
  refine ⟨fun _ => ⟨rfl, rfl⟩, rfl, ?_⟩
  rfl

/-- C8 (amended).  Per-dimension execution: on a stream with `dims = n ≥ 1` bound to a
function that changes neither `dims` nor the binding nor the `int` that `arg`
points to, `dsp_stream_exec_multidim` returns the stream (not `NULL`) after exactly `n`
invocations; the `k`-th invocation (`k = 0 .. n-1`, in this order) receives
the stream as the invocations before it left it, with `arg` referring to the
value `k`; and the stream after the call is the one the `n`-th invocation
left. -/
theorem exec_multidim_calls (code : Nat → dsp_stream α → dsp_stream α × Int) (f : Nat)
    (s : dsp_stream α) (n : Nat) (hn : 1 ≤ n) (hd : s.dims = n) (hf : s.func = some f)
    (hcode : ∀ t, (code f t).1.dims = t.dims ∧ (code f t).1.func = t.func)
    (hkeep : ∀ t d, t.arg = some d → (code f t).2 = d)
    (fuel : Nat) (hfuel : n < fuel) :
    ∃ r, dsp_stream_exec_multidim code fuel s = some r
      ∧ r.returned = true
      ∧ r.calls.length = n
      ∧ (∀ (k : Nat), k < n →
          r.calls[k]? = some { after_calls code f s k with arg := some (k : Int) })
      ∧ (∀ (k : Nat), k < n → (r.calls[k]?).map (fun t => t.arg) = some (some (k : Int)))
      ∧ r.stream = after_calls code f s n := by
  have hrun := exec_multidim_loop_spec code f n s hcode hkeep hd hf n fuel 0 [] (by omega) hfuel
  have hne : ¬ s.dims = 0 := by omega
  have hcalls : ∀ (k : Nat), k < n →
      ((List.range' 0 n).map
        (fun i => { after_calls code f s i with arg := some (i : Int) }))[k]?
        = some { after_calls code f s k with arg := some (k : Int) } := by
    intro k hk
    simp [List.getElem?_map, List.getElem?_range', hk]
  refine ⟨⟨true, after_calls code f s n,
    (List.range' 0 n).map (fun i => { after_calls code f s i with arg := some (i : Int) })⟩,
    ?_, rfl, by simp, hcalls, ?_, rfl⟩
  · have h0 : exec_multidim_loop code fuel 0 s [] = _ := hrun
    simp only [dsp_stream_exec_multidim, hne, if_false, h0, Option.map_some', List.nil_append]
  · intro k hk
    show Option.map _ (((List.range' 0 n).map _)[k]?) = _
    rw [hcalls k hk]
    rfl

/-- Per-dimension execution on a stream of 3 dimensions: three invocations, counted in
`index`. -/
theorem exec_multidim_calls_witness :
    cube_bound.dims = 3 ∧ cube_bound.func = some 0 ∧
    (∃ r, dsp_stream_exec_multidim count_stage 4 cube_bound = some r
      ∧ r.returned = true
      ∧ r.calls.length = 3
      ∧ (∀ (k : Nat), k < 3 → (r.calls[k]?).map (fun t => t.arg) = some (some (k : Int)))
      ∧ r.stream.index = 3) := by
  obtain ⟨r, h, h1, h2, _, h4, h5⟩ :=
    exec_multidim_calls count_stage 0 cube_bound 3 (by decide) rfl rfl
      (fun _ => ⟨rfl, rfl⟩) (fun t d ht => by simp [count_stage, ht]) 4 (by decide)
  exact ⟨rfl, rfl, r, h, h1, h2, h4, by rw [h5]; rfl⟩

/-- C9.  Swapping the buffers twice gives back the stream, field for field. -/
theorem swap_buffers_involution (s : dsp_stream α) :
    dsp_stream_swap_buffers (dsp_stream_swap_buffers s) = s := by
  rfl

/-- C10 (counterexample).  An extent of 0 is accepted: appended to a fresh stream it
yields a stream of one dimension with `len = 0` and buffers without any
sample. -/
theorem fresh_stream_accepts_zero_extent :
    ∃ s, dsp_stream_add_dim (dsp_stream_new : dsp_stream Int) 0 = some s
      ∧ s.dims = 1 ∧ s.len = 0 ∧ s.in_ = [] ∧ s.out = [] :=
  ⟨_, rfl, rfl, rfl, rfl, rfl⟩

/-- C10 (amended).  `dsp_stream_add_dim` does not check the extent: on every stream with room
for one more extent, appending the extent 0 completes and yields a stream with
one more dimension, `len = 0` and `in` / `out` buffers without any sample. -/
theorem add_dim_extent_zero (s : dsp_stream α) (h0 : 0 ≤ s.dims)
    (hroom : s.dims.toNat < s.sizes.length) :
    ∃ s', dsp_stream_add_dim s 0 = some s'
      ∧ s'.dims = s.dims + 1 ∧ s'.len = 0 ∧ s'.in_ = [] ∧ s'.out = [] := by
  have hw : wr s.sizes s.dims (some 0) = some (s.sizes.set s.dims.toNat (some 0)) := by
    simp [wr, h0, hroom]
  have hz : wrap 0 = 0 := by decide
  refine ⟨_, by rw [dsp_stream_add_dim, hw], rfl, ?_, ?_, ?_⟩
  · simp [hz]
  · simp [realloc, hz]
  · simp [realloc, hz]

/-- An extent of 0 appended to the 2 x 3 stream. -/
theorem add_dim_extent_zero_witness :
    0 ≤ grid_2x3.dims ∧ grid_2x3.dims.toNat < grid_2x3.sizes.length ∧
    (∃ s', dsp_stream_add_dim grid_2x3 0 = some s'
      ∧ s'.dims = grid_2x3.dims + 1 ∧ s'.len = 0 ∧ s'.in_ = [] ∧ s'.out = []) :=
  ⟨by decide, by decide, add_dim_extent_zero grid_2x3 (by decide) (by decide)⟩

/-! ## Duplication lemmas -/

theorem Min_eq_min (a b : Int) : Min a b = min a b := by
  unfold Min
  split <;> omega

theorem add_dim_frame (s s' : dsp_stream α) (e : Int) (h : dsp_stream_add_dim s e = some s') :
    s'.location = s.location ∧ s'.target = s.target ∧ s'.parent = s.parent
      ∧ s'.children = s.children ∧ s'.child_count = s.child_count ∧ s'.func = s.func
      ∧ s'.arg = s.arg ∧ s'.lambda = s.lambda ∧ s'.samplerate = s.samplerate
      ∧ s'.starttimeutc = s.starttimeutc ∧ s'.index = s.index := by
  unfold dsp_stream_add_dim at h
  split at h
  · cases h
  · cases h
    exact ⟨rfl, rfl, rfl, rfl, rfl, rfl, rfl, rfl, rfl, rfl, rfl⟩

theorem add_dim_len (s s' : dsp_stream α) (e : Int) (h : dsp_stream_add_dim s e = some s') :
    s'.len = wrap (s.len * e) := by
  unfold dsp_stream_add_dim at h
  split at h
  · cases h
  · cases h
    rfl

theorem add_dims_frame (es : List Int) :
    ∀ (s s' : dsp_stream α), add_dims s es = some s' →
      s'.location = s.location ∧ s'.target = s.target ∧ s'.parent = s.parent
        ∧ s'.children = s.children ∧ s'.child_count = s.child_count ∧ s'.func = s.func
        ∧ s'.arg = s.arg ∧ s'.lambda = s.lambda ∧ s'.samplerate = s.samplerate
        ∧ s'.starttimeutc = s.starttimeutc ∧ s'.index = s.index := by
  induction es with
  | nil =>
    intro s s' h
    simp only [add_dims, List.foldlM_nil, pure, Option.some.injEq] at h
    subst h
    exact ⟨rfl, rfl, rfl, rfl, rfl, rfl, rfl, rfl, rfl, rfl, rfl⟩
  | cons e t ih =>
    intro s s' h
    simp only [add_dims, List.foldlM_cons, Option.bind_eq_bind, Option.bind_eq_some] at h
    obtain ⟨s1, h1, h2⟩ := h
    have f1 := add_dim_frame s s1 e h1
    have f2 := ih s1 s' h2
    obtain ⟨a1, a2, a3, a4, a5, a6, a7, a8, a9, a10, a11⟩ := f1
    obtain ⟨b1, b2, b3, b4, b5, b6, b7, b8, b9, b10, b11⟩ := f2
    exact ⟨b1.trans a1, b2.trans a2, b3.trans a3, b4.trans a4, b5.trans a5, b6.trans a6,
      b7.trans a7, b8.trans a8, b9.trans a9, b10.trans a10, b11.trans a11⟩

theorem add_dims_append (s : dsp_stream α) (l1 l2 : List Int) :
    add_dims s (l1 ++ l2) = (add_dims s l1).bind (fun t => add_dims t l2) := by
  simp only [add_dims, List.foldlM_append, Option.bind_eq_bind]

theorem copy_replay (s d0 : dsp_stream α) (es : List Int) (hs : has_shape s es)
    (k : Nat) (hk : k ≤ es.length) :
    (List.range k).foldlM
        (fun dest (i : Nat) => do
          let size ← rd s.sizes (i : Int)
          dsp_stream_add_dim dest size) d0
      = add_dims d0 (es.take k) := by
  induction k with
  | zero => simp [add_dims]
  | succ k ih =>
    have hsz : rd s.sizes (k : Int) = some es[k] := rd_of_take _ _ hs.2 k (by omega)
    rw [List.range_succ, List.foldlM_append, ih (by omega), List.take_succ,
      List.getElem?_eq_getElem (by omega), add_dims_append]
    simp only [Option.bind_eq_bind, List.foldlM_cons, List.foldlM_nil, hsz, Option.some_bind,
      Option.toList_some, add_dims, pure]

theorem copy_eq [Zero α] (s : dsp_stream α) (es : List Int) (hs : has_shape s es)
    (hlen : s.len = es.prod) (h0 : 0 ≤ s.len) (hfit : s.len ≤ int_max)
    (hin : s.len.toNat ≤ s.in_.length) (hout : s.len.toNat ≤ s.out.length)
    (hloc : 3 ≤ s.location.length) (htgt : 3 ≤ s.target.length) :
    ∃ dest, add_dims (dsp_stream_new : dsp_stream α) es = some dest
      ∧ dsp_stream_copy s = some { dest with
          lambda := s.lambda
          samplerate := s.samplerate
          starttimeutc := s.starttimeutc
          location := s.location.take 3
          target := s.target.take 3
          in_ := s.in_.take s.len.toNat
          out := s.out.take s.len.toNat } := by
  obtain ⟨dest, hd, _, hl, hi, ho, _⟩ :=
    add_dims_fields es (dsp_stream_new : dsp_stream α) (le_refl (0 : Int)) rfl rfl rfl
      wrap_one
  obtain ⟨f1, f2, _⟩ := add_dims_frame es _ _ hd
  have hdl : dest.len = s.len := by
    rw [hl]
    show wrap ((1 : Int) * es.prod) = s.len
    rw [Int.one_mul, ← hlen]
    exact wrap_of_range _ (by unfold int_min; omega) hfit
  rw [hdl] at hi ho
  have hnat : s.dims.toNat = es.length := by rw [hs.1, Int.toNat_ofNat]
  have hfold := copy_replay s (dsp_stream_new : dsp_stream α) es hs es.length (Nat.le_refl _)
  rw [List.take_length, hd] at hfold
  have hm1 : memcpy dest.location s.location 3 = some (s.location.take 3) := by
    have : dest.location.length = 3 := by rw [f1]; rfl
    simp only [memcpy]
    rw [if_pos ⟨by decide, by simp [this], by simpa using hloc⟩]
    rw [List.drop_of_length_le (by simp [this]), List.append_nil]
    rfl
  have hm2 : memcpy dest.target s.target 3 = some (s.target.take 3) := by
    have : dest.target.length = 3 := by rw [f2]; rfl
    simp only [memcpy]
    rw [if_pos ⟨by decide, by simp [this], by simpa using htgt⟩]
    rw [List.drop_of_length_le (by simp [this]), List.append_nil]
    rfl
  have hm3 : memcpy dest.in_ s.in_ s.len = some (s.in_.take s.len.toNat) := by
    simp only [memcpy]
    rw [if_pos ⟨h0, by omega, hin⟩, List.drop_of_length_le (by omega), List.append_nil]
  have hm4 : memcpy dest.out s.out s.len = some (s.out.take s.len.toNat) := by
    simp only [memcpy]
    rw [if_pos ⟨h0, by omega, hout⟩, List.drop_of_length_le (by omega), List.append_nil]
  refine ⟨dest, hd, ?_⟩
  simp only [Option.bind_eq_bind] at hfold
  simp only [dsp_stream_copy, hnat, hfold, hm1, hm2, hm3, hm4, Option.bind_eq_bind,
    Option.some_bind, pure]

/-! ## Crop lemmas -/

theorem cell_at_of_lt {β : Type} (buf : List (Option β)) (x : Int) (h0 : 0 ≤ x)
    (h : x.toNat < buf.length) : cell_at buf x = some (buf.get ⟨x.toNat, h⟩) := by
  simp only [cell_at, h0, if_true, List.get?_eq_getElem?, List.get_eq_getElem]
  exact List.getElem?_eq_getElem h

theorem wr_of_lt {β : Type} (buf : List (Option β)) (x : Int) (v : Option β) (h0 : 0 ≤ x)
    (h : x.toNat < buf.length) : wr buf x v = some (buf.set x.toNat v) := by
  simp only [wr, h0, h, and_self, if_true]

theorem crop_at_fold (src : dsp_stream α) (pairs : List (Int × Int)) :
    ∀ (ret : dsp_stream α),
      (∀ p ∈ pairs, 0 ≤ p.1 ∧ p.1.toNat < src.in_.length ∧ p.1.toNat < src.out.length
        ∧ 0 ≤ p.2 ∧ p.2.toNat < ret.in_.length ∧ p.2.toNat < ret.out.length) →
      ∃ ret', pairs.foldlM (crop_at src) ret = some ret'
        ∧ ret' = { ret with in_ := ret'.in_, out := ret'.out }
        ∧ ret'.in_.length = ret.in_.length ∧ ret'.out.length = ret.out.length := by
  induction pairs with
  | nil =>
    intro ret _
    exact ⟨ret, rfl, rfl, rfl, rfl⟩
  | cons p t ih =>
    intro ret h
    obtain ⟨hx0, hx1, hx2, hy0, hy1, hy2⟩ := h p (List.mem_cons_self _ _)
    have hstep : crop_at src ret p
        = some { ret with
            in_ := ret.in_.set p.2.toNat (src.in_.get ⟨p.1.toNat, hx1⟩)
            out := ret.out.set p.2.toNat (src.out.get ⟨p.1.toNat, hx2⟩) } := by
      simp only [crop_at, cell_at_of_lt _ _ hx0 hx1, cell_at_of_lt _ _ hx0 hx2,
        wr_of_lt _ _ _ hy0 hy1, wr_of_lt _ _ _ hy0 hy2, Option.bind_eq_bind, Option.some_bind,
        pure]
    obtain ⟨ret', h1, h2, h3, h4⟩ := ih
      { ret with
        in_ := ret.in_.set p.2.toNat (src.in_.get ⟨p.1.toNat, hx1⟩)
        out := ret.out.set p.2.toNat (src.out.get ⟨p.1.toNat, hx2⟩) }
      (by
        intro q hq
        obtain ⟨a, b, c, d, e, f⟩ := h q (List.mem_cons_of_mem _ hq)
        refine ⟨a, b, c, d, ?_, ?_⟩
        · simpa using e
        · simpa using f)
    refine ⟨ret', ?_, ?_, ?_, ?_⟩
    · simp only [List.foldlM_cons, hstep, Option.bind_eq_bind, Option.some_bind]
      exact h1
    · rw [h2]
    · rw [h3]; simp
    · rw [h4]; simp

theorem crop_run (fuel : Nat) (src : dsp_stream α) (l : List Nat) :
    ∀ (len : Int) (ret : dsp_stream α) (tr : List (Int × Int × Int)),
      crop_accesses_from fuel src l len ret.len = some tr →
      (∀ a ∈ tr, access_in_bounds src a) →
      0 ≤ ret.dims → ret.sizes.length = ret.dims.toNat + 1 →
      ret.in_.length = ret.len.toNat → ret.out.length = ret.len.toNat →
      wrap ret.len = ret.len →
      ∃ len' ret', l.foldlM (crop_step fuel src) (len, ret) = some (len', ret')
        ∧ ret'.dims = ret.dims + (l.length : Int)
        ∧ ret'.in_.length = ret'.len.toNat ∧ ret'.out.length = ret'.len.toNat
        ∧ ret'.len = wrap (ret.len
            * (l.map (fun (d : Nat) => ((rd src.ROI (d : Int)).map dsp_region.len).getD 1)).prod)
          := by
  induction l with
  | nil =>
    intro len ret tr _ _ _ _ hi ho hw
    exact ⟨len, ret, rfl, by simp, hi, ho, by simp [hw]⟩
  | cons dim rest ih =>
    intro len ret tr h hb hd hsz hi ho _
    simp only [crop_accesses_from, Option.bind_eq_bind, Option.bind_eq_some, pure,
      Option.some.injEq] at h
    obtain ⟨rect, hrect, size, hsize, pairs, hpairs, tail, htail, rfl⟩ := h
    obtain ⟨ret1, h1, hd1, hl1, hi1, ho1, hs1, _⟩ := add_dim_fields ret rect.len hd hsz
    obtain ⟨ret2, h2, he2, hi2, ho2⟩ := crop_at_fold src pairs ret1 (by
      intro p hp
      have hm : (p.1, p.2, wrap (ret.len * rect.len))
          ∈ pairs.map (fun p => (p.1, p.2, wrap (ret.len * rect.len))) ++ tail :=
        List.mem_append_left _ (List.mem_map_of_mem _ hp)
      obtain ⟨a, b, c, d, e⟩ := hb _ hm
      have d1 : 0 ≤ p.2 := d
      have e1 : p.2 < ret1.len := by rw [hl1]; exact e
      refine ⟨a, b, c, d, ?_, ?_⟩
      · rw [hi1]; omega
      · rw [ho1]; omega)
    have hlen2 : ret2.len = ret1.len := by rw [he2]
    have hdim2 : ret2.dims = ret1.dims := by rw [he2]
    have hsz2 : ret2.sizes = ret1.sizes := by rw [he2]
    obtain ⟨len', ret', h3, hd3, hi3, ho3, hl3⟩ := ih size ret2 tail
      (by rw [hlen2, hl1]; exact htail)
      (fun a ha => hb a (List.mem_append_right _ ha))
      (by rw [hdim2, hd1]; omega)
      (by rw [hsz2, hdim2]; exact hs1)
      (by rw [hi2, hi1, hlen2])
      (by rw [ho2, ho1, hlen2])
      (by rw [hlen2, hl1]; exact wrap_wrap _)
    refine ⟨len', ret', ?_, ?_, hi3, ho3, ?_⟩
    · simp only [List.foldlM_cons, crop_step, hrect, h1, hsize, hpairs, h2,
        Option.bind_eq_bind, Option.some_bind, pure]
      exact h3
    · rw [hd3, hdim2, hd1, List.length_cons]
      push_cast
      omega
    · simp only [List.map_cons, List.prod_cons, hrect, Option.map_some', Option.getD_some]
      rw [hl3, hlen2, hl1, wrap_mul_left, Int.mul_assoc]

theorem crop_result_fields [Zero α] (fuel : Nat) (src : dsp_stream α)
    (tr : List (Int × Int × Int)) (hd : src.dims ≠ 0)
    (htr : crop_accesses fuel src = some tr) (hb : ∀ a ∈ tr, access_in_bounds src a) :
    ∃ r, dsp_stream_crop fuel src = some (some r)
      ∧ r.dims = (src.dims.toNat : Int)
      ∧ r.len = wrap ((List.range src.dims.toNat).map
          (fun (d : Nat) => ((rd src.ROI (d : Int)).map dsp_region.len).getD 1)).prod
      ∧ r.in_.length = r.len.toNat ∧ r.out.length = r.len.toNat := by
  simp only [crop_accesses, hd, if_false] at htr
  obtain ⟨len', r, hrun, hdims, hi, ho, hl⟩ :=
    crop_run fuel src (List.range src.dims.toNat) 1 (dsp_stream_new : dsp_stream α) tr htr hb
      (le_refl (0 : Int)) rfl rfl rfl wrap_one
  refine ⟨r, ?_, ?_, ?_, hi, ho⟩
  · simp only [dsp_stream_crop, hd, if_false, hrun, Option.map_some']
  · rw [hdims, List.length_range]
    show (0 : Int) + _ = _
    omega
  · rw [hl]
    show wrap ((1 : Int) * _) = _
    rw [Int.one_mul]

theorem walk_visits (cond : Int → Int → Bool) (sx sy : Int) (hsx : 0 ≤ sx) (fuel : Nat) :
    ∀ (x y : Int) (l : List (Int × Int)), walk cond sx sy fuel x y = some l →
      ∀ p ∈ l, cond p.1 p.2 = true ∧ x ≤ p.1 := by
  induction fuel with
  | zero =>
    intro x y l h
    simp [walk] at h
  | succ fuel ih =>
    intro x y l h
    rw [walk] at h
    split at h
    · next hc =>
      simp only [Option.map_eq_some'] at h
      obtain ⟨t, ht, rfl⟩ := h
      intro p hp
      rcases List.mem_cons.1 hp with rfl | hp
      · exact ⟨hc, le_refl _⟩
      · obtain ⟨h1, h2⟩ := ih _ _ _ ht p hp
        exact ⟨h1, by omega⟩
    · simp only [Option.some.injEq] at h
      subst h
      intro p hp
      simp at hp

/-- The source index of the inner loop of `dsp_stream_crop` stays inside the dimension:
with a start and a stride that are not negative, every `x` visited satisfies
`0 ≤ x < size` (and `x < rect.len`). -/
theorem crop_walk_reads (fuel : Nat) (rect : dsp_region) (size len : Int)
    (hstart : 0 ≤ rect.start) (hlen : 0 ≤ len) (pairs : List (Int × Int))
    (h : crop_walk fuel rect size len = some pairs) :
    ∀ p ∈ pairs, 0 ≤ p.1 ∧ p.1 < size ∧ p.1 < rect.len := by
  intro p hp
  obtain ⟨h1, h2⟩ := walk_visits _ len rect.len hlen fuel rect.start 0 pairs h p hp
  simp only [decide_eq_true_eq] at h1
  exact ⟨by omega, h1.2, h1.1⟩

theorem walk_stuck (cond : Int → Int → Bool) (sy x : Int) (fuel : Nat) :
    ∀ (y : Int), (∀ k : Nat, cond x (y + (k : Int) * sy) = true) →
      walk cond 0 sy fuel x y = none := by
  induction fuel with
  | zero =>
    intro y _
    rfl
  | succ fuel ih =>
    intro y h
    have h0 : cond x y = true := by simpa using h 0
    rw [walk, if_pos h0, Int.add_zero, ih (y + sy)]
    · rfl
    · intro k
      have := h (k + 1)
      rw [← this]
      congr 1
      push_cast
      ring

theorem bind_none_right {β γ : Type} (o : Option β) :
    o.bind (fun _ => (none : Option γ)) = none := by
  cases o <;> rfl

theorem crop_walk_defined (rect : dsp_region) (size len : Int) (hlen : 1 ≤ len) (fuel : Nat) :
    ∀ (x y : Int), (size - x).toNat < fuel →
      ∃ l, walk (fun x _ => decide (x < rect.len ∧ x < size)) len rect.len fuel x y = some l := by
  induction fuel with
  | zero =>
    intro x y h
    omega
  | succ fuel ih =>
    intro x y h
    rw [walk]
    split
    · next hc =>
      simp only [decide_eq_true_eq] at hc
      obtain ⟨l, hl⟩ := ih (x + len) (y + rect.len) (by omega)
      exact ⟨_, by rw [hl]; rfl⟩
    · exact ⟨[], rfl⟩

theorem crop_accesses_defined (src : dsp_stream α) (l : List Nat) :
    (∀ d ∈ l, ∃ r, rd src.ROI ((d : Nat) : Int) = some r) →
    (∀ d ∈ l, ∃ e, rd src.sizes ((d : Nat) : Int) = some e ∧ 1 ≤ e) →
    ∃ N, ∀ fuel, N ≤ fuel → ∀ (len rlen : Int), 1 ≤ len →
      ∃ tr, crop_accesses_from fuel src l len rlen = some tr := by
  induction l with
  | nil =>
    intro _ _
    exact ⟨0, fun _ _ _ _ _ => ⟨[], rfl⟩⟩
  | cons d t ih =>
    intro hroi hsz
    obtain ⟨r, hr⟩ := hroi d (List.mem_cons_self _ _)
    obtain ⟨e, he, hep⟩ := hsz d (List.mem_cons_self _ _)
    obtain ⟨N, hN⟩ := ih (fun x hx => hroi x (List.mem_cons_of_mem _ hx))
      (fun x hx => hsz x (List.mem_cons_of_mem _ hx))
    refine ⟨max N ((e - r.start).toNat + 1), ?_⟩
    intro fuel hfuel len rlen hlen
    obtain ⟨pairs, hpairs⟩ := crop_walk_defined r e len hlen fuel r.start 0
      (by have := le_max_right N ((e - r.start).toNat + 1); omega)
    obtain ⟨tail, htail⟩ := hN fuel (by have := le_max_left N ((e - r.start).toNat + 1); omega)
      e (wrap (rlen * r.len)) hep
    simp only [crop_accesses_from, hr, he, crop_walk, hpairs, htail, Option.bind_eq_bind,
      Option.some_bind, pure]
    exact ⟨_, rfl⟩

theorem crop_accesses_terminate (a : dsp_stream α) (ea : List Int) (ha : has_shape a ea)
    (hpa : ∀ e ∈ ea, 1 ≤ e)
    (hroi : ∀ d, d < ea.length → ∃ r, rd a.ROI ((d : Nat) : Int) = some r) :
    ∃ N, ∀ fuel, N ≤ fuel → ∃ tr, crop_accesses fuel a = some tr := by
  have hd : a.dims.toNat = ea.length := by rw [ha.1, Int.toNat_ofNat]
  obtain ⟨N, hN⟩ := crop_accesses_defined a (List.range a.dims.toNat)
    (fun d hd' => hroi d (by have := List.mem_range.1 hd'; omega))
    (fun d hd' => by
      have hlt : d < ea.length := by have := List.mem_range.1 hd'; omega
      exact ⟨ea[d], rd_of_take _ _ ha.2 d hlt, hpa _ (List.getElem_mem hlt)⟩)
  refine ⟨N, fun fuel hfuel => ?_⟩
  unfold crop_accesses
  split
  · exact ⟨[], rfl⟩
  · exact hN fuel hfuel 1 1 (le_refl _)

theorem crop_returns_of_accesses [Zero α] (fuel : Nat) (src : dsp_stream α)
    (tr : List (Int × Int × Int)) (htr : crop_accesses fuel src = some tr)
    (hb : ∀ x ∈ tr, access_in_bounds src x) : ∃ r, dsp_stream_crop fuel src = some r := by
  by_cases hd : src.dims = 0
  · exact ⟨none, by simp only [dsp_stream_crop, hd, if_true]⟩
  · obtain ⟨r, hr, _⟩ := crop_result_fields fuel src tr hd htr hb
    exact ⟨_, hr⟩

theorem flat_crop_diverges (fuel : Nat) : crop_accesses fuel flat_0x5 = none := by
  have hw : walk (fun x _ => decide (x < (2 : Int) ∧ x < (5 : Int))) 0 2 fuel 0 0 = none :=
    walk_stuck _ 2 0 fuel 0 (fun k => by simp)
  have hd : ¬ (flat_0x5.dims = 0) := by decide
  have hr : List.range flat_0x5.dims.toNat = [0, 1] := by decide
  have h0 : rd flat_0x5.sizes ((0 : Nat) : Int) = some 0 := by decide
  have h1 : rd flat_0x5.sizes ((1 : Nat) : Int) = some 5 := by decide
  have r0 : rd flat_0x5.ROI ((0 : Nat) : Int) = some ⟨0, 0⟩ := by decide
  have r1 : rd flat_0x5.ROI ((1 : Nat) : Int) = some ⟨0, 2⟩ := by decide
  simp only [crop_accesses, hd, if_false, hr, crop_accesses_from, h0, h1, r0, r1, crop_walk,
    Option.bind_eq_bind, Option.some_bind, hw, Option.none_bind]
  simp [bind_none_right]

theorem flat_crop_no_result (fuel : Nat) : dsp_stream_crop fuel flat_0x5 = none := by
  have hw : walk (fun x _ => decide (x < (2 : Int) ∧ x < (5 : Int))) 0 2 fuel 0 0 = none :=
    walk_stuck _ 2 0 fuel 0 (fun k => by simp)
  have hd : ¬ (flat_0x5.dims = 0) := by decide
  have hr : List.range flat_0x5.dims.toNat = [0, 1] := by decide
  have h0 : rd flat_0x5.sizes ((0 : Nat) : Int) = some 0 := by decide
  have h1 : rd flat_0x5.sizes ((1 : Nat) : Int) = some 5 := by decide
  have r0 : rd flat_0x5.ROI ((0 : Nat) : Int) = some ⟨0, 0⟩ := by decide
  have r1 : rd flat_0x5.ROI ((1 : Nat) : Int) = some ⟨0, 2⟩ := by decide
  cases fuel with
  | zero => rfl
  | succ g =>
    have hw0 : walk (fun x _ => decide (x < (0 : Int) ∧ x < (0 : Int))) 1 0 (g + 1) 0 0
        = some [] := rfl
    have ha0 : ∃ t, dsp_stream_add_dim (dsp_stream_new : dsp_stream Int) 0 = some t
        ∧ ∃ u, dsp_stream_add_dim t 2 = some u := ⟨_, rfl, _, rfl⟩
    obtain ⟨t, ht, u, hu⟩ := ha0
    simp only [dsp_stream_crop, hd, if_false, hr, List.foldlM_cons, List.foldlM_nil, crop_step,
      r0, r1, h0, h1, ht, hu, crop_walk, hw0, hw, Option.bind_eq_bind, Option.some_bind,
      Option.none_bind, pure, Option.map_none']

/-! ## Cropping on both records: the source is carried along unchanged -/

theorem crop_store_fold (src : dsp_stream α) (pairs : List (Int × Int)) :
    ∀ (ret : dsp_stream α),
      pairs.foldlM crop_store (src, ret)
        = (pairs.foldlM (crop_at src) ret).map (fun r => (src, r)) := by
  induction pairs with
  | nil =>
    intro ret
    rfl
  | cons p t ih =>
    intro ret
    have hstep : crop_store (src, ret) p = (crop_at src ret p).map (fun r => (src, r)) := by
      simp only [crop_store, crop_at, Option.bind_eq_bind, pure]
      cases cell_at src.in_ p.1 with
      | none => rfl
      | some a =>
        simp only [Option.some_bind]
        cases wr ret.in_ p.2 a with
        | none => rfl
        | some i =>
          simp only [Option.some_bind]
          cases cell_at src.out p.1 with
          | none => rfl
          | some b =>
            simp only [Option.some_bind]
            cases wr ret.out p.2 b with
            | none => rfl
            | some o => rfl
    simp only [List.foldlM_cons, hstep, Option.bind_eq_bind]
    cases crop_at src ret p with
    | none => rfl
    | some r => exact ih r

theorem crop_pass_fold (fuel : Nat) (src : dsp_stream α) (l : List Nat) :
    ∀ (len : Int) (ret : dsp_stream α),
      l.foldlM (crop_pass fuel) (len, src, ret)
        = (l.foldlM (crop_step fuel src) (len, ret)).map (fun r => (r.1, src, r.2)) := by
  induction l with
  | nil =>
    intro len ret
    rfl
  | cons d t ih =>
    intro len ret
    have hstep : crop_pass fuel (len, src, ret) d
        = (crop_step fuel src (len, ret) d).map (fun r => (r.1, src, r.2)) := by
      simp only [crop_pass, crop_step, Option.bind_eq_bind, pure]
      cases rd src.ROI (d : Int) with
      | none => rfl
      | some rect =>
        simp only [Option.some_bind]
        cases dsp_stream_add_dim ret rect.len with
        | none => rfl
        | some r1 =>
          simp only [Option.some_bind]
          cases rd src.sizes (d : Int) with
          | none => rfl
          | some size =>
            simp only [Option.some_bind]
            cases crop_walk fuel rect size len with
            | none => rfl
            | some pairs =>
              simp only [Option.some_bind, crop_store_fold]
              cases pairs.foldlM (crop_at src) r1 with
              | none => rfl
              | some r2 => rfl
    simp only [List.foldlM_cons, hstep, Option.bind_eq_bind]
    cases crop_step fuel src (len, ret) d with
    | none => rfl
    | some r => exact ih r.1 r.2

theorem crop_effect_eq [Zero α] (fuel : Nat) (src : dsp_stream α) :
    dsp_stream_crop_effect fuel src = (dsp_stream_crop fuel src).map (fun r => (src, r)) := by
  unfold dsp_stream_crop_effect dsp_stream_crop
  split
  · rfl
  · rw [crop_pass_fold]
    simp only [Option.map_map]
    rfl

/-! ## Claims C11 to C20 -/

/-- C11.  The stream returned by `dsp_stream_new` is the base case: `dims = 0`, `len = 1`,
`index = 0`, `in` and `out` one sample each, equal to 0, `location` and `target`
three zeros each, `lambda = 0`, `samplerate = 0`, `child_count = 0` with no
child recorded, and no parent. -/
theorem new_is_base_case [Zero α] :
    (dsp_stream_new : dsp_stream α).dims = 0
    ∧ (dsp_stream_new : dsp_stream α).len = 1
    ∧ (dsp_stream_new : dsp_stream α).index = 0
    ∧ (dsp_stream_new : dsp_stream α).in_ = [some 0]
    ∧ (dsp_stream_new : dsp_stream α).out = [some 0]
    ∧ (dsp_stream_new : dsp_stream α).location = [some 0, some 0, some 0]
    ∧ (dsp_stream_new : dsp_stream α).target = [some 0, some 0, some 0]
    ∧ (dsp_stream_new : dsp_stream α).lambda = 0
    ∧ (dsp_stream_new : dsp_stream α).samplerate = 0
    ∧ (dsp_stream_new : dsp_stream α).child_count = 0
    ∧ (dsp_stream_new : dsp_stream α).children = [none]
    ∧ (dsp_stream_new : dsp_stream α).parent = none :=
  ⟨rfl, rfl, rfl, rfl, rfl, rfl, rfl, rfl, rfl, rfl, rfl, rfl⟩

/-- C12.  Combine with a zero-dimension operand: when `min(a.dims, b.dims) = 0`, both
`dsp_stream_mul` and `dsp_stream_sum` return, whatever the fuel, with `a` and `b` unchanged
in every field. -/
theorem combine_zero_dims [Mul α] [Add α] (a b : dsp_stream α) (fuel : Nat)
    (h : min a.dims b.dims = 0) :
    dsp_stream_mul fuel a b = some (a, b) ∧ dsp_stream_sum fuel a b = some (a, b) := by
  have hm : Min a.dims b.dims = 0 := by rw [Min_eq_min]; exact h
  constructor
  · simp only [dsp_stream_mul, hm, if_true]
  · simp only [dsp_stream_sum, hm, if_true]

/-- Combine of a fresh (zero-dimension) stream with the 1-D stream of 4 samples. -/
theorem combine_zero_dims_witness :
    min (dsp_stream_new : dsp_stream Int).dims line_4.dims = 0
    ∧ dsp_stream_mul 0 (dsp_stream_new : dsp_stream Int) line_4 = some (dsp_stream_new, line_4)
    ∧ dsp_stream_sum 0 (dsp_stream_new : dsp_stream Int) line_4 = some (dsp_stream_new, line_4) :=
  ⟨by decide, combine_zero_dims (dsp_stream_new : dsp_stream Int) line_4 0 (by decide)⟩

/-- C13.  On a stream with `dims = 0`, `dsp_stream_exec_multidim` returns the `NULL` result
without any invocation of `func` and leaves the stream, `arg` included, as it
was; and whenever the call returns, the result is `NULL` exactly when
`dims = 0`. -/
theorem exec_multidim_zero_dims (code : Nat → dsp_stream α → dsp_stream α × Int) (fuel : Nat)
    (s : dsp_stream α) :
    (s.dims = 0 → dsp_stream_exec_multidim code fuel s = some ⟨false, s, []⟩)
    ∧ (∀ r, dsp_stream_exec_multidim code fuel s = some r → (r.returned = false ↔ s.dims = 0)) := by
  constructor
  · intro h
    simp only [dsp_stream_exec_multidim, h, if_true]
  · intro r hr
    by_cases h : s.dims = 0
    · simp only [dsp_stream_exec_multidim, h, if_true, Option.some.injEq] at hr
      subst hr
      simp [h]
    · simp only [dsp_stream_exec_multidim, h, if_false, Option.map_eq_some'] at hr
      obtain ⟨x, _, hx⟩ := hr
      subst hx
      simp [h]

/-- A fresh stream has no dimension, so nothing is executed. -/
theorem exec_multidim_zero_dims_witness :
    (dsp_stream_new : dsp_stream Int).dims = 0
    ∧ dsp_stream_exec_multidim count_stage 0 (dsp_stream_new : dsp_stream Int)
        = some ⟨false, dsp_stream_new, []⟩ :=
  ⟨rfl, (exec_multidim_zero_dims count_stage 0 (dsp_stream_new : dsp_stream Int)).1 rfl⟩

/-- C14 (counterexample).  The source of two dimensions whose first extent is 0 (regions
`{start 0, length 0}` and `{start 0, length 2}`) has `dims ≥ 1`, yet its
crop returns nothing: the second pass steps the source index by the first
extent, 0, and its loop never ends, whatever the fuel. -/
theorem crop_zero_extent_no_result :
    flat_0x5.dims = 2
    ∧ (∀ fuel, crop_accesses fuel flat_0x5 = none)
    ∧ (∀ fuel, dsp_stream_crop fuel flat_0x5 = none) :=
  ⟨rfl, flat_crop_diverges, flat_crop_no_result⟩

/-- C14 (amended).  The result of `dsp_stream_crop` is `NULL` exactly when the source has no
dimension: with `dims = 0` the call returns `NULL`, and whenever the call
returns, its result is `NULL` if and only if `dims = 0`.  For a source with
`dims ≥ 1` whose extents are all at least 1 (their product within the range
of an `int`) and whose regions exist, the loops end from some amount of fuel
on, and the call returns a stream provided every copy is inside the
blocks. -/
theorem crop_null_iff_zero_dims [Zero α] (src : dsp_stream α) :
    (∀ fuel, src.dims = 0 → dsp_stream_crop fuel src = some none)
    ∧ (∀ fuel r, dsp_stream_crop fuel src = some r → (r = none ↔ src.dims = 0))
    ∧ (∀ es, src.dims ≠ 0 → has_shape src es → (∀ e ∈ es, 1 ≤ e) → es.prod ≤ int_max →
        (∀ d, d < es.length → ∃ r, rd src.ROI ((d : Nat) : Int) = some r) →
        ∃ N, ∀ fuel, N ≤ fuel → ∃ tr, crop_accesses fuel src = some tr
          ∧ ((∀ a ∈ tr, access_in_bounds src a) →
              ∃ r, dsp_stream_crop fuel src = some (some r))) := by
  refine ⟨?_, ?_, ?_⟩
  · intro fuel h
    simp only [dsp_stream_crop, h, if_true]
  · intro fuel r hr
    by_cases h : src.dims = 0
    · simp only [dsp_stream_crop, h, if_true, Option.some.injEq] at hr
      subst hr
      simp [h]
    · simp only [dsp_stream_crop, h, if_false, Option.map_eq_some'] at hr
      obtain ⟨x, _, hx⟩ := hr
      subst hx
      simp [h]
  · intro es hd hs hpos _ hroi
    obtain ⟨N, hN⟩ := crop_accesses_terminate src es hs hpos hroi
    refine ⟨N, fun fuel hfuel => ?_⟩
    obtain ⟨tr, htr⟩ := hN fuel hfuel
    refine ⟨tr, htr, fun hb => ?_⟩
    obtain ⟨r, hr, _⟩ := crop_result_fields fuel src tr hd htr hb
    exact ⟨r, hr⟩

/-- A fresh stream is cropped to `NULL`; on the 4 x 4 stream with its two regions the
loops end, and the call returns a stream. -/
theorem crop_null_iff_zero_dims_witness :
    dsp_stream_crop 10 (dsp_stream_new : dsp_stream Int) = some none
    ∧ has_shape grid_4x4 [4, 4]
    ∧ (∃ N, ∀ fuel, N ≤ fuel → ∃ tr, crop_accesses fuel grid_4x4 = some tr)
    ∧ (∃ r, dsp_stream_crop 10 grid_4x4 = some (some r)) := by
  obtain ⟨h1, _, h3⟩ := crop_null_iff_zero_dims grid_4x4
  obtain ⟨N, hN⟩ := h3 [4, 4] (by decide) (by decide) (by decide) (by decide)
    (fun d hd => by
      have hd2 : d < 2 := hd
      interval_cases d
      · exact ⟨_, rfl⟩
      · exact ⟨_, rfl⟩)
  refine ⟨(crop_null_iff_zero_dims (dsp_stream_new : dsp_stream Int)).1 10 rfl, by decide,
    ⟨N, fun fuel hfuel => ?_⟩, ⟨_, rfl⟩⟩
  obtain ⟨tr, htr, _⟩ := hN fuel hfuel
  exact ⟨tr, htr⟩

/-- C15 (the code at the failing input).  The source of eleven dimensions of extent 1 with the
region `{start 0, length 1}` on each axis is cropped to a stream with
`dims = 11`, `len = 1` and buffers of one sample, holding the sample of the
source, and a `sizes` block of 12 cells, but cell 10 of `sizes` is not left
with the length of the region: the result is built with `dsp_stream_add_dim`, whose
line 127 keeps, in every execution, the first two extents only. -/
theorem crop_extents_not_kept :
    (dsp_stream_crop 3 deep_roi).map
        (Option.map (fun (r : dsp_stream Int) => (r.dims, r.len, r.in_, r.out)))
      = some (some (11, 1, [some 7], [some 9]))
    ∧ (dsp_stream_crop 3 deep_roi).map
        (Option.map (fun (r : dsp_stream Int) =>
          (r.sizes.length, r.sizes.take 2, cell_at r.sizes 10)))
      = some (some (12, [some 1, some 1], some none)) := by
  constructor
  · rfl
  · rfl

/-- C16 (the code at the failing input).  On the 1-D source of 4 samples with the region
`{start 0, length 2}` the inner loop runs twice: its second turn reads the
source at 1 and writes the result at 2 while the result has 2 samples.  The
write is outside the block and the call has no defined result. -/
theorem crop_writes_past_result :
    crop_accesses 10 line_4_roi = some [(0, 0, 2), (1, 2, 2)]
    ∧ ¬ access_in_bounds line_4_roi (1, 2, 2)
    ∧ dsp_stream_crop 10 line_4_roi = none := by
  refine ⟨?_, ?_, ?_⟩
  · decide
  · decide
  · decide

/-- C17.  Adding a child: on a stream `p` (at address `paddr`) with `k` children and
room for one more reference, `dsp_stream_add_child` returns; afterwards `p` has `k + 1`
children, the first `k` references are the same in the same order, the
reference at position `k` is the address of `c`, the parent of `c` is the
address of `p`, and no other field of `p` or `c` has changed. -/
theorem add_child_appends (paddr caddr : Nat) (p c : dsp_stream α) (k : Nat)
    (hk : p.child_count = k) (hroom : k < p.children.length) :
    ∃ p' c', dsp_stream_add_child paddr p caddr c = some (p', c')
      ∧ p'.child_count = (k : Int) + 1
      ∧ p'.children.take k = p.children.take k
      ∧ p'.children[k]? = some (some caddr)
      ∧ c'.parent = some paddr
      ∧ p' = { p with children := p'.children, child_count := p'.child_count }
      ∧ c' = { c with parent := c'.parent } := by
  have hw : wr p.children p.child_count (some caddr) = some (p.children.set k (some caddr)) := by
    rw [hk]
    exact wr_natCast _ _ _ hroom
  have heq : dsp_stream_add_child paddr p caddr c
      = some ({ p with
                children := realloc (p.children.set k (some caddr)) (p.child_count + 1 + 1)
                child_count := p.child_count + 1 },
              { c with parent := some paddr }) := by
    simp only [dsp_stream_add_child, hw, Option.bind_eq_bind, Option.some_bind, pure]
  refine ⟨_, _, heq, ?_, ?_, ?_, rfl, rfl, rfl⟩
  · show p.child_count + 1 = (k : Int) + 1
    rw [hk]
  · show (realloc (p.children.set k (some caddr)) (p.child_count + 1 + 1)).take k = _
    have h2 : (p.child_count + 1 + 1).toNat = k + 2 := by rw [hk]; omega
    simp only [realloc, h2]
    rw [List.take_append_of_le_length (by simp; omega), List.take_take,
      Nat.min_eq_left (by omega), List.set_take, List.set_eq_of_length_le (by simp)]
  · show (realloc (p.children.set k (some caddr)) (p.child_count + 1 + 1))[k]? = _
    have h2 : (p.child_count + 1 + 1).toNat = k + 2 := by rw [hk]; omega
    simp only [realloc, h2]
    rw [List.getElem?_append_left (by simp; omega), List.getElem?_take]
    simp [hroom]

/-- The 1-D stream of 4 samples (address 2) added to a stream (address 1)
that has one child. -/
theorem add_child_appends_witness :
    parent_stream.child_count = (1 : Nat) ∧
    (∃ p' c', dsp_stream_add_child 1 parent_stream 2 line_4 = some (p', c')
      ∧ p'.child_count = ((1 : Nat) : Int) + 1
      ∧ p'.children.take 1 = parent_stream.children.take 1
      ∧ p'.children[1]? = some (some 2)
      ∧ c'.parent = some 1
      ∧ p' = { parent_stream with children := p'.children, child_count := p'.child_count }
      ∧ c' = { line_4 with parent := c'.parent }) :=
  ⟨rfl, add_child_appends 1 2 parent_stream line_4 1 rfl (by decide)⟩

/-- C18.  Binding an external buffer `B` of length `n`: `dsp_stream_set_input_buffer` makes `in`
equal to `B` and `len` equal to `n`, returns `B`, and leaves every other field
(`out`, `dims`, `sizes`, `pos`, `index`, ...) as it was; `dsp_stream_set_output_buffer`
does the same with `out` in the place of `in`. -/
theorem set_buffer_binds (s : dsp_stream α) (B : List (Option α)) (n : Int) :
    (dsp_stream_set_input_buffer s B n).1 = { s with in_ := B, len := n }
    ∧ (dsp_stream_set_input_buffer s B n).2 = B
    ∧ (dsp_stream_set_input_buffer s B n).1.in_ = B
    ∧ (dsp_stream_set_input_buffer s B n).1.len = n
    ∧ (dsp_stream_set_input_buffer s B n).1.out = s.out
    ∧ (dsp_stream_set_input_buffer s B n).1.dims = s.dims
    ∧ (dsp_stream_set_input_buffer s B n).1.sizes = s.sizes
    ∧ (dsp_stream_set_input_buffer s B n).1.pos = s.pos
    ∧ (dsp_stream_set_input_buffer s B n).1.index = s.index
    ∧ (dsp_stream_set_output_buffer s B n).1 = { s with out := B, len := n }
    ∧ (dsp_stream_set_output_buffer s B n).2 = B
    ∧ (dsp_stream_set_output_buffer s B n).1.out = B
    ∧ (dsp_stream_set_output_buffer s B n).1.len = n
    ∧ (dsp_stream_set_output_buffer s B n).1.in_ = s.in_
    ∧ (dsp_stream_set_output_buffer s B n).1.dims = s.dims
    ∧ (dsp_stream_set_output_buffer s B n).1.sizes = s.sizes
    ∧ (dsp_stream_set_output_buffer s B n).1.pos = s.pos
    ∧ (dsp_stream_set_output_buffer s B n).1.index = s.index :=
  ⟨rfl, rfl, rfl, rfl, rfl, rfl, rfl, rfl, rfl, rfl, rfl, rfl, rfl, rfl, rfl, rfl, rfl, rfl⟩

/-- C19.  The duplicate is a clone of shape and data only: for every source whose
first `dims` cells of `sizes` hold extents, with `len` (an `int`) their
product and blocks of the sizes the record announces, `dsp_stream_copy` returns a stream that,
whatever `children`, `parent`, `func` and `arg` of the source are, has
`child_count = 0` with no child recorded, no parent, no function and no
argument bound. -/
theorem copy_is_shape_data_clone [Zero α] (s : dsp_stream α) (es : List Int)
    (hs : has_shape s es) (hlen : s.len = es.prod) (h0 : 0 ≤ s.len) (hfit : s.len ≤ int_max)
    (hin : s.len.toNat ≤ s.in_.length) (hout : s.len.toNat ≤ s.out.length)
    (hloc : 3 ≤ s.location.length) (htgt : 3 ≤ s.target.length) :
    ∃ c, dsp_stream_copy s = some c
      ∧ c.child_count = 0 ∧ c.children = [none] ∧ c.parent = none
      ∧ c.func = none ∧ c.arg = none := by
  obtain ⟨dest, hd, hc⟩ := copy_eq s es hs hlen h0 hfit hin hout hloc htgt
  obtain ⟨_, _, f3, f4, f5, f6, f7, _⟩ := add_dims_frame es _ _ hd
  exact ⟨_, hc, f5, f4, f3, f6, f7⟩

/-- The duplicate of the 3-D stream bound to the function at address 0. -/
theorem copy_is_shape_data_clone_witness :
    has_shape cube_bound [2, 2, 2] ∧ cube_bound.func = some 0 ∧
    (∃ c, dsp_stream_copy cube_bound = some c
      ∧ c.child_count = 0 ∧ c.children = [none] ∧ c.parent = none
      ∧ c.func = none ∧ c.arg = none) :=
  ⟨by decide, rfl,
   copy_is_shape_data_clone cube_bound [2, 2, 2] (by decide) rfl (by decide) (by decide)
     (by decide) (by decide) (by decide) (by decide)⟩

/-- C20.  The duplicate carries the metadata by value: for every source whose first
`dims` cells of `sizes` hold extents, with `len` (an `int`) their product and
blocks of the sizes the record announces, `dsp_stream_copy` returns a stream whose `lambda`,
`samplerate` and start time (seconds and nanoseconds) are those of the source
and whose `location` and `target` are three cells equal, one by one, to the
first three of the source. -/
theorem copy_metadata [Zero α] (s : dsp_stream α) (es : List Int)
    (hs : has_shape s es) (hlen : s.len = es.prod) (h0 : 0 ≤ s.len) (hfit : s.len ≤ int_max)
    (hin : s.len.toNat ≤ s.in_.length) (hout : s.len.toNat ≤ s.out.length)
    (hloc : 3 ≤ s.location.length) (htgt : 3 ≤ s.target.length) :
    ∃ c, dsp_stream_copy s = some c
      ∧ c.lambda = s.lambda ∧ c.samplerate = s.samplerate
      ∧ c.starttimeutc.1 = s.starttimeutc.1 ∧ c.starttimeutc.2 = s.starttimeutc.2
      ∧ c.location.length = 3 ∧ c.target.length = 3
      ∧ (∀ (i : Nat), i < 3 → c.location[i]? = s.location[i]? ∧ c.target[i]? = s.target[i]?) := by
  obtain ⟨dest, _, hc⟩ := copy_eq s es hs hlen h0 hfit hin hout hloc htgt
  refine ⟨_, hc, rfl, rfl, rfl, rfl, ?_, ?_, ?_⟩
  · show (s.location.take 3).length = 3
    rw [List.length_take]
    omega
  · show (s.target.take 3).length = 3
    rw [List.length_take]
    omega
  · intro i hi
    constructor
    · show (s.location.take 3)[i]? = _
      rw [List.getElem?_take]
      simp [hi]
    · show (s.target.take 3)[i]? = _
      rw [List.getElem?_take]
      simp [hi]

/-- The duplicate of the 2 x 3 stream carrying metadata. -/
theorem copy_metadata_witness :
    has_shape tagged_grid [2, 3] ∧
    (∃ c, dsp_stream_copy tagged_grid = some c
      ∧ c.lambda = tagged_grid.lambda ∧ c.samplerate = tagged_grid.samplerate
      ∧ c.starttimeutc.1 = tagged_grid.starttimeutc.1
      ∧ c.starttimeutc.2 = tagged_grid.starttimeutc.2
      ∧ c.location.length = 3 ∧ c.target.length = 3
      ∧ (∀ (i : Nat), i < 3 →
          c.location[i]? = tagged_grid.location[i]? ∧ c.target[i]? = tagged_grid.target[i]?)) :=
  ⟨by decide,
   copy_metadata tagged_grid [2, 3] (by decide) rfl (by decide) (by decide) (by decide)
     (by decide) (by decide) (by decide)⟩

/-! ## Mixed-radix, frame and walk lemmas -/

theorem compose_bound (es ps : List Int) (hpos : ∀ e ∈ es, 1 ≤ e)
    (hin : ∀ d, d < es.length → 0 ≤ ps.getD d 0 ∧ ps.getD d 0 < es.getD d 1)
    (k : Nat) (hk : k ≤ es.length) :
    0 ≤ compose es ps k ∧ compose es ps k < stride es k := by
  induction k with
  | zero => simp [compose, stride]
  | succ k ih =>
    have hk1 : k < es.length := by omega
    obtain ⟨i1, i2⟩ := ih (by omega)
    obtain ⟨p1, p2⟩ := hin k hk1
    have hg : es.getD k 1 = es[k] := by simp [List.getD_eq_getElem?_getD, hk1]
    rw [hg] at p2
    have hS : 1 ≤ stride es k := stride_pos es hpos k
    rw [compose_succ, stride_succ es k hk1]
    constructor
    · have := Int.mul_nonneg p1 (by omega : (0 : Int) ≤ stride es k)
      omega
    · nlinarith

theorem stride_factor (es : List Int) (d k : Nat) (hdk : d ≤ k) :
    ∃ M, stride es k = stride es d * M := by
  refine ⟨((es.take k).drop d).prod, ?_⟩
  unfold stride
  have h1 : (es.take k).take d = es.take d := by
    rw [List.take_take, Nat.min_eq_left hdk]
  rw [← h1, ← List.prod_append, List.take_append_drop]

theorem compose_digit (es ps : List Int) (hpos : ∀ e ∈ es, 1 ≤ e)
    (hin : ∀ d, d < es.length → 0 ≤ ps.getD d 0 ∧ ps.getD d 0 < es.getD d 1)
    (d : Nat) (hd : d < es.length) (j : Nat) (hj : d + 1 + j ≤ es.length) :
    (compose es ps (d + 1 + j) / stride es d) % es.getD d 1 = ps.getD d 0 := by
  have hS : 1 ≤ stride es d := stride_pos es hpos d
  have hg : es.getD d 1 = es[d] := by simp [List.getD_eq_getElem?_getD, hd]
  obtain ⟨p1, p2⟩ := hin d hd
  induction j with
  | zero =>
    obtain ⟨b1, b2⟩ := compose_bound es ps hpos hin d (by omega)
    rw [Nat.add_zero, compose_succ, Int.mul_comm (ps.getD d 0),
      Int.add_mul_ediv_left _ _ (by omega : stride es d ≠ 0),
      Int.ediv_eq_zero_of_lt b1 b2, Int.zero_add]
    exact Int.emod_eq_of_lt p1 p2
  | succ j ih =>
    obtain ⟨M, hM⟩ := stride_factor es (d + 1) (d + 1 + j) (by omega)
    rw [stride_succ es d hd] at hM
    have e1 : compose es ps (d + 1 + (j + 1))
        = compose es ps (d + 1 + j)
          + stride es d * (es.getD d 1 * (M * ps.getD (d + 1 + j) 0)) := by
      rw [← Nat.add_assoc, compose_succ, hM, hg]
      ring
    rw [e1, Int.add_mul_ediv_left _ _ (by omega : stride es d ≠ 0),
      Int.add_mul_emod_self_left]
    exact ih (by omega)

theorem getD_range_of_getElem (es ps : List Int) (hlen : ps.length = es.length)
    (hrange : ∀ d (h1 : d < ps.length) (h2 : d < es.length), 0 ≤ ps[d] ∧ ps[d] < es[d]) :
    ∀ d, d < es.length → 0 ≤ ps.getD d 0 ∧ ps.getD d 0 < es.getD d 1 := by
  intro d hd
  have h1 : d < ps.length := by omega
  have := hrange d h1 hd
  simpa [List.getD_eq_getElem?_getD, hd, h1] using this

theorem coords_compose (es ps : List Int) (hpos : ∀ e ∈ es, 1 ≤ e)
    (hlen : ps.length = es.length)
    (hin : ∀ d, d < es.length → 0 ≤ ps.getD d 0 ∧ ps.getD d 0 < es.getD d 1) :
    coords es (compose es ps es.length) es.length = ps.map some := by
  apply List.ext_getElem
  · simp [coords, hlen]
  · intro d h1 h2
    have hd : d < es.length := by simpa [coords] using h1
    have hdp : d < ps.length := by omega
    have hj : d + 1 + (es.length - d - 1) = es.length := by omega
    have := compose_digit es ps hpos hin d hd (es.length - d - 1) (by omega)
    rw [hj] at this
    simp only [coords, List.getElem_map, List.getElem_range, this]
    simp [List.getD_eq_getElem?_getD, hdp]

theorem sum_pass_line [Add α] (a b : dsp_stream α) (n m : Nat)
    (ha : has_shape a [(n : Int)]) (hb : has_shape b [(m : Int)])
    (hai : a.in_.length = n) (hao : a.out.length = n)
    (hbi : b.in_.length = m) (hbo : b.out.length = m)
    (fuel : Nat) (hfuel : min n m < fuel) :
    dsp_stream_sum fuel a b = some
      ({ a with out := List.zipWith (cell_op (fun u v => u + v)) a.in_ b.in_
                        ++ a.out.drop (min n m) },
       { b with out := List.zipWith (cell_op (fun u v => u + v)) a.in_ b.in_
                        ++ b.out.drop (min n m) }) := by
  have hmin : Min a.dims b.dims = 1 := by
    have hda : a.dims = 1 := by simpa using ha.1
    have hdb : b.dims = 1 := by simpa using hb.1
    rw [hda, hdb]
    rfl
  have hr : List.range 1 = [0] := rfl
  have hsa : rd a.sizes ((0 : Nat) : Int) = some (n : Int) :=
    rd_of_take a.sizes [(n : Int)] ha.2 0 (by simp)
  have hsb : rd b.sizes ((0 : Nat) : Int) = some (m : Int) :=
    rd_of_take b.sizes [(m : Int)] hb.2 0 (by simp)
  have hw := walk_diag (n : Int) (m : Int) (min n m) fuel 0 (by push_cast; simp) hfuel
  have hf := combine_fold (fun u v : α => u + v) a b (min n m)
    (by omega) (by omega) (by omega) (by omega) (min n m) (Nat.le_refl _)
  have hz : (List.zipWith (cell_op (fun u v : α => u + v)) a.in_ b.in_).take (min n m)
      = List.zipWith (cell_op (fun u v : α => u + v)) a.in_ b.in_ := by
    apply List.take_of_length_le
    simp only [List.length_zipWith, hai, hbi]
    exact Nat.le_refl _
  rw [hz] at hf
  unfold dsp_stream_sum
  simp only [hmin, one_ne_zero, if_false, Int.toNat_one, hr,
    List.foldlM_cons, List.foldlM_nil, sum_step, hw, hf, hsa, hsb, Option.bind_eq_bind,
    Option.some_bind, pure, Option.map_some']

theorem combined_out_cells (op : α → α → α) (ain bin out : List (Option α)) (k : Nat)
    (hk : (List.zipWith (cell_op op) ain bin).length = k) :
    (∀ (i : Nat) (ca cb : Option α), ain[i]? = some ca → bin[i]? = some cb →
        (List.zipWith (cell_op op) ain bin ++ out.drop k)[i]? = some (cell_op op ca cb))
    ∧ (∀ (i : Nat), k ≤ i →
        (List.zipWith (cell_op op) ain bin ++ out.drop k)[i]? = out[i]?) := by
  constructor
  · intro i ca cb h1 h2
    have hi1 : i < ain.length := (List.getElem?_eq_some_iff.1 h1).1
    have hi2 : i < bin.length := (List.getElem?_eq_some_iff.1 h2).1
    have hz : i < (List.zipWith (cell_op op) ain bin).length := by
      simp only [List.length_zipWith]; omega
    rw [List.getElem?_append_left hz, List.getElem?_zipWith, h1, h2]
  · intro i hi
    rw [List.getElem?_append_right (by omega), hk, List.getElem?_drop]
    congr 1
    omega

theorem add_dim_roi_length (s s' : dsp_stream α) (e : Int)
    (h : dsp_stream_add_dim s e = some s') : s'.ROI.length = 1 := by
  unfold dsp_stream_add_dim at h
  split at h
  · cases h
  · cases h
    show (region_view _).length = 1
    unfold region_view
    split <;> rfl

theorem foldlM_rel {σ ι : Type} (f : σ → ι → Option σ) (R : σ → σ → Prop)
    (hrefl : ∀ x, R x x) (htrans : ∀ x y z, R x y → R y z → R x z)
    (hstep : ∀ x i y, f x i = some y → R x y) :
    ∀ (l : List ι) (x y : σ), l.foldlM f x = some y → R x y := by
  intro l
  induction l with
  | nil =>
    intro x y h
    simp only [List.foldlM_nil, pure, Option.some.injEq] at h
    subst h
    exact hrefl x
  | cons i t ih =>
    intro x y h
    simp only [List.foldlM_cons, Option.bind_eq_bind, Option.bind_eq_some] at h
    obtain ⟨z, h1, h2⟩ := h
    exact htrans x z y (hstep x i z h1) (ih z y h2)

theorem same_but_out_refl (s : dsp_stream α) : same_but_out s s :=
  ⟨rfl, rfl⟩

theorem same_but_out_trans (s t u : dsp_stream α) (h1 : same_but_out s t)
    (h2 : same_but_out t u) : same_but_out s u := by
  obtain ⟨a1, a2⟩ := h1
  obtain ⟨b1, b2⟩ := h2
  refine ⟨?_, by rw [b2, a2]⟩
  rw [b1, a1]

theorem wr_length {β : Type} (buf buf' : List (Option β)) (i : Int) (v : Option β)
    (h : wr buf i v = some buf') : buf'.length = buf.length := by
  unfold wr at h
  split at h
  · simp only [Option.some.injEq] at h
    subst h
    simp
  · cases h

theorem combine_at_frame (op : α → α → α) (st st' : dsp_stream α × dsp_stream α)
    (xy : Int × Int) (h : combine_at op st xy = some st') :
    same_but_out st.1 st'.1 ∧ same_but_out st.2 st'.2 := by
  simp only [combine_at, Option.bind_eq_bind, Option.bind_eq_some, pure,
    Option.some.injEq] at h
  obtain ⟨ca, _, cb, _, o1, h1, o2, h2, rfl⟩ := h
  exact ⟨⟨rfl, wr_length _ _ _ _ h1⟩, ⟨rfl, wr_length _ _ _ _ h2⟩⟩

theorem combine_fold_frame (op : α → α → α) (pairs : List (Int × Int))
    (st st' : dsp_stream α × dsp_stream α)
    (h : pairs.foldlM (combine_at op) st = some st') :
    same_but_out st.1 st'.1 ∧ same_but_out st.2 st'.2 :=
  foldlM_rel (combine_at op)
    (fun x y => same_but_out x.1 y.1 ∧ same_but_out x.2 y.2)
    (fun _ => ⟨same_but_out_refl _, same_but_out_refl _⟩)
    (fun _ _ _ h1 h2 => ⟨same_but_out_trans _ _ _ h1.1 h2.1, same_but_out_trans _ _ _ h1.2 h2.2⟩)
    (fun x i y hxy => combine_at_frame op x y i hxy) pairs st st' h

theorem mul_step_frame [Mul α] (fuel : Nat)
    (st st' : Int × Int × dsp_stream α × dsp_stream α) (dim : Nat)
    (h : mul_step fuel st dim = some st') :
    same_but_out st.2.2.1 st'.2.2.1 ∧ same_but_out st.2.2.2 st'.2.2.2 := by
  simp only [mul_step, Option.bind_eq_bind, Option.bind_eq_some, pure,
    Option.some.injEq] at h
  obtain ⟨pairs, _, r, hr, s1, _, s2, _, rfl⟩ := h
  exact combine_fold_frame _ pairs _ r hr

theorem sum_step_frame [Add α] (fuel : Nat)
    (st st' : Int × Int × dsp_stream α × dsp_stream α) (dim : Nat)
    (h : sum_step fuel st dim = some st') :
    same_but_out st.2.2.1 st'.2.2.1 ∧ same_but_out st.2.2.2 st'.2.2.2 := by
  simp only [sum_step, Option.bind_eq_bind, Option.bind_eq_some, pure,
    Option.some.injEq] at h
  obtain ⟨s1, _, s2, _, pairs, _, r, hr, rfl⟩ := h
  exact combine_fold_frame _ pairs _ r hr

theorem mul_frame [Mul α] (fuel : Nat) (a b a' b' : dsp_stream α)
    (h : dsp_stream_mul fuel a b = some (a', b')) :
    same_but_out a a' ∧ same_but_out b b' := by
  unfold dsp_stream_mul at h
  simp only at h
  split at h
  · simp only [Option.some.injEq, Prod.mk.injEq] at h
    obtain ⟨rfl, rfl⟩ := h
    exact ⟨same_but_out_refl _, same_but_out_refl _⟩
  · simp only [Option.map_eq_some', Prod.mk.injEq] at h
    obtain ⟨r, hr, rfl, rfl⟩ := h
    exact foldlM_rel (mul_step fuel)
      (fun x y => same_but_out x.2.2.1 y.2.2.1 ∧ same_but_out x.2.2.2 y.2.2.2)
      (fun _ => ⟨same_but_out_refl _, same_but_out_refl _⟩)
      (fun _ _ _ h1 h2 =>
        ⟨same_but_out_trans _ _ _ h1.1 h2.1, same_but_out_trans _ _ _ h1.2 h2.2⟩)
      (fun x i y hxy => mul_step_frame fuel x y i hxy) _ _ r hr

theorem sum_frame [Add α] (fuel : Nat) (a b a' b' : dsp_stream α)
    (h : dsp_stream_sum fuel a b = some (a', b')) :
    same_but_out a a' ∧ same_but_out b b' := by
  unfold dsp_stream_sum at h
  simp only at h
  split at h
  · simp only [Option.some.injEq, Prod.mk.injEq] at h
    obtain ⟨rfl, rfl⟩ := h
    exact ⟨same_but_out_refl _, same_but_out_refl _⟩
  · simp only [Option.map_eq_some', Prod.mk.injEq] at h
    obtain ⟨r, hr, rfl, rfl⟩ := h
    exact foldlM_rel (sum_step fuel)
      (fun x y => same_but_out x.2.2.1 y.2.2.1 ∧ same_but_out x.2.2.2 y.2.2.2)
      (fun _ => ⟨same_but_out_refl _, same_but_out_refl _⟩)
      (fun _ _ _ h1 h2 =>
        ⟨same_but_out_trans _ _ _ h1.1 h2.1, same_but_out_trans _ _ _ h1.2 h2.2⟩)
      (fun x i y hxy => sum_step_frame fuel x y i hxy) _ _ r hr

theorem get_position_keeps (s s' : dsp_stream α) (h : dsp_stream_get_position s = some s') :
    s'.len = s.len ∧ s'.dims = s.dims ∧ s'.sizes = s.sizes ∧ s'.in_ = s.in_
      ∧ s'.out = s.out := by
  unfold dsp_stream_get_position at h
  simp only [Option.map_eq_some'] at h
  obtain ⟨r, hr, rfl⟩ := h
  exact foldlM_rel get_position_step
    (fun x y => y.2.len = x.2.len ∧ y.2.dims = x.2.dims ∧ y.2.sizes = x.2.sizes
      ∧ y.2.in_ = x.2.in_ ∧ y.2.out = x.2.out)
    (fun _ => ⟨rfl, rfl, rfl, rfl, rfl⟩)
    (fun _ _ _ h1 h2 => ⟨h2.1.trans h1.1, h2.2.1.trans h1.2.1, h2.2.2.1.trans h1.2.2.1,
      h2.2.2.2.1.trans h1.2.2.2.1, h2.2.2.2.2.trans h1.2.2.2.2⟩)
    (fun x i y hxy => by
      simp only [get_position_step, Option.bind_eq_bind, Option.bind_eq_some] at hxy
      obtain ⟨size, _, hxy⟩ := hxy
      split at hxy
      · cases hxy
      · simp only [Option.bind_eq_some, pure, Option.some.injEq] at hxy
        obtain ⟨pos, _, rfl⟩ := hxy
        exact ⟨rfl, rfl, rfl, rfl, rfl⟩)
    _ _ r hr

theorem set_position_keeps (s s' : dsp_stream α) (h : dsp_stream_set_position s = some s') :
    s'.len = s.len ∧ s'.dims = s.dims ∧ s'.sizes = s.sizes ∧ s'.in_ = s.in_
      ∧ s'.out = s.out := by
  unfold dsp_stream_set_position at h
  simp only [Option.map_eq_some'] at h
  obtain ⟨r, hr, rfl⟩ := h
  exact foldlM_rel set_position_step
    (fun x y => y.2.len = x.2.len ∧ y.2.dims = x.2.dims ∧ y.2.sizes = x.2.sizes
      ∧ y.2.in_ = x.2.in_ ∧ y.2.out = x.2.out)
    (fun _ => ⟨rfl, rfl, rfl, rfl, rfl⟩)
    (fun _ _ _ h1 h2 => ⟨h2.1.trans h1.1, h2.2.1.trans h1.2.1, h2.2.2.1.trans h1.2.2.1,
      h2.2.2.2.1.trans h1.2.2.2.1, h2.2.2.2.2.trans h1.2.2.2.2⟩)
    (fun x i y hxy => by
      simp only [set_position_step, Option.bind_eq_bind, Option.bind_eq_some, pure,
        Option.some.injEq] at hxy
      obtain ⟨p, _, size, _, rfl⟩ := hxy
      exact ⟨rfl, rfl, rfl, rfl, rfl⟩)
    _ (1, { s with index := 0 }) r hr

theorem add_child_keeps (pa ca : Nat) (p c p' c' : dsp_stream α)
    (h : dsp_stream_add_child pa p ca c = some (p', c')) :
    (p'.len = p.len ∧ p'.dims = p.dims ∧ p'.sizes = p.sizes ∧ p'.in_ = p.in_
      ∧ p'.out = p.out)
    ∧ (c'.len = c.len ∧ c'.dims = c.dims ∧ c'.sizes = c.sizes ∧ c'.in_ = c.in_
      ∧ c'.out = c.out) := by
  simp only [dsp_stream_add_child, Option.bind_eq_bind, Option.bind_eq_some, pure,
    Option.some.injEq, Prod.mk.injEq] at h
  obtain ⟨ch, _, rfl, rfl⟩ := h
  exact ⟨⟨rfl, rfl, rfl, rfl, rfl⟩, ⟨rfl, rfl, rfl, rfl, rfl⟩⟩

theorem same_but_out_fields (s s' : dsp_stream α) (h : same_but_out s s') :
    s'.len = s.len ∧ s'.dims = s.dims ∧ s'.sizes = s.sizes ∧ s'.in_ = s.in_
      ∧ s'.pos = s.pos ∧ s'.index = s.index ∧ s'.out.length = s.out.length := by
  obtain ⟨h1, h2⟩ := h
  refine ⟨?_, ?_, ?_, ?_, ?_, ?_, h2⟩ <;> rw [h1]

theorem reachable_add_dims [Zero α] [Mul α] [Add α] (es : List Int) :
    ∀ (s s' : dsp_stream α) (es0 : List Int), reachable s es0 → (∀ e ∈ es, 1 ≤ e) →
      1 ≤ s.len → s.len * es.prod ≤ int_max →
      add_dims s es = some s' → reachable s' (es0 ++ es) := by
  induction es with
  | nil =>
    intro s s' es0 hr _ _ _ h
    simp only [add_dims, List.foldlM_nil, pure, Option.some.injEq] at h
    subst h
    simpa using hr
  | cons e t ih =>
    intro s s' es0 hr hpos hlen hfit h
    simp only [add_dims, List.foldlM_cons, Option.bind_eq_bind, Option.bind_eq_some] at h
    obtain ⟨s1, h1, h2⟩ := h
    have he : 1 ≤ e := hpos e (by simp)
    have ht : 1 ≤ t.prod := one_le_prod t (fun x hx => hpos x (by simp [hx]))
    rw [List.prod_cons, ← Int.mul_assoc] at hfit
    have hse : 1 ≤ s.len * e := by nlinarith
    have hfit1 : s.len * e ≤ int_max := by nlinarith
    have hl1 : s1.len = s.len * e := by
      rw [add_dim_len s s1 e h1]
      exact wrap_of_range _ (by unfold int_min; omega) hfit1
    have hr1 := reachable.add_dim s s1 es0 e hr he hfit1 h1
    have := ih s1 s' (es0 ++ [e]) hr1 (fun x hx => hpos x (by simp [hx]))
      (by rw [hl1]; exact hse) (by rw [hl1]; exact hfit) h2
    simpa using this

theorem walk_defined (bx by_ sx sy : Int) (hsx : 1 ≤ sx) (fuel : Nat) :
    ∀ (x y : Int), (bx - x).toNat < fuel →
      ∃ l, walk (fun x y => decide (x < bx ∧ y < by_)) sx sy fuel x y = some l := by
  induction fuel with
  | zero =>
    intro x y h
    omega
  | succ fuel ih =>
    intro x y h
    rw [walk]
    split
    · next hc =>
      simp only [decide_eq_true_eq] at hc
      obtain ⟨l, hl⟩ := ih (x + sx) (y + sy) (by omega)
      exact ⟨_, by rw [hl]; rfl⟩
    · exact ⟨[], rfl⟩

theorem walk_visits_both (cond : Int → Int → Bool) (sx sy : Int) (hsx : 0 ≤ sx) (hsy : 0 ≤ sy)
    (fuel : Nat) :
    ∀ (x y : Int) (l : List (Int × Int)), walk cond sx sy fuel x y = some l →
      ∀ p ∈ l, cond p.1 p.2 = true ∧ x ≤ p.1 ∧ y ≤ p.2 := by
  induction fuel with
  | zero =>
    intro x y l h
    simp [walk] at h
  | succ fuel ih =>
    intro x y l h
    rw [walk] at h
    split at h
    · next hc =>
      simp only [Option.map_eq_some'] at h
      obtain ⟨t, ht, rfl⟩ := h
      intro p hp
      rcases List.mem_cons.1 hp with rfl | hp
      · exact ⟨hc, le_refl _, le_refl _⟩
      · obtain ⟨h1, h2, h3⟩ := ih _ _ _ ht p hp
        exact ⟨h1, by omega, by omega⟩
    · simp only [Option.some.injEq] at h
      subst h
      intro p hp
      simp at hp

theorem walk_on_diagonal (cond : Int → Int → Bool) (s : Int) (fuel : Nat) :
    ∀ (x : Int) (l : List (Int × Int)), walk cond s s fuel x x = some l →
      ∀ p ∈ l, p.1 = p.2 := by
  induction fuel with
  | zero =>
    intro x l h
    simp [walk] at h
  | succ fuel ih =>
    intro x l h
    rw [walk] at h
    split at h
    · simp only [Option.map_eq_some'] at h
      obtain ⟨t, ht, rfl⟩ := h
      intro p hp
      rcases List.mem_cons.1 hp with rfl | hp
      · rfl
      · exact ih _ _ ht p hp
    · simp only [Option.some.injEq] at h
      subst h
      intro p hp
      simp at hp

theorem combine_at_defined (op : α → α → α) (st : dsp_stream α × dsp_stream α)
    (p : Int × Int) (h : pair_in_bounds st.1 st.2 p) :
    ∃ st', combine_at op st p = some st' := by
  obtain ⟨x0, x1, x2, y0, y1, y2⟩ := h
  simp only [combine_at, cell_at_of_lt _ _ x0 x1, cell_at_of_lt _ _ y0 y1,
    wr_of_lt _ _ _ x0 x2, wr_of_lt _ _ _ y0 y2, Option.bind_eq_bind, Option.some_bind, pure]
  exact ⟨_, rfl⟩

theorem pair_in_bounds_of_frame (a b a' b' : dsp_stream α) (p : Int × Int)
    (ha : same_but_out a a') (hb : same_but_out b b') (h : pair_in_bounds a b p) :
    pair_in_bounds a' b' p := by
  obtain ⟨a1, _, _, a4, _, _, a7⟩ := same_but_out_fields a a' ha
  obtain ⟨b1, _, _, b4, _, _, b7⟩ := same_but_out_fields b b' hb
  unfold pair_in_bounds at h ⊢
  rw [a4, a7, b4, b7]
  exact h

theorem combine_fold_defined (op : α → α → α) (pairs : List (Int × Int)) :
    ∀ (st : dsp_stream α × dsp_stream α), (∀ p ∈ pairs, pair_in_bounds st.1 st.2 p) →
      ∃ st', pairs.foldlM (combine_at op) st = some st' := by
  induction pairs with
  | nil =>
    intro st _
    exact ⟨st, rfl⟩
  | cons p t ih =>
    intro st h
    obtain ⟨st1, h1⟩ := combine_at_defined op st p (h p (List.mem_cons_self _ _))
    obtain ⟨f1, f2⟩ := combine_at_frame op st st1 p h1
    obtain ⟨st2, h2⟩ := ih st1
      (fun q hq => pair_in_bounds_of_frame _ _ _ _ q f1 f2 (h q (List.mem_cons_of_mem _ hq)))
    exact ⟨st2, by simp only [List.foldlM_cons, h1, Option.bind_eq_bind, Option.some_bind, h2]⟩

theorem mul_accesses_from_congr (fuel : Nat) (a b a' b' : dsp_stream α)
    (h1 : a'.len = a.len) (h2 : a'.sizes = a.sizes) (h3 : b'.len = b.len)
    (h4 : b'.sizes = b.sizes) (l : List Nat) :
    ∀ (len1 len2 : Int),
      mul_accesses_from fuel a' b' l len1 len2 = mul_accesses_from fuel a b l len1 len2 := by
  induction l with
  | nil => intro _ _; rfl
  | cons d t ih =>
    intro len1 len2
    simp only [mul_accesses_from, h1, h2, h3, h4, ih]

theorem sum_accesses_from_congr (fuel : Nat) (a b a' b' : dsp_stream α)
    (h2 : a'.sizes = a.sizes) (h4 : b'.sizes = b.sizes) (l : List Nat) :
    ∀ (len1 len2 : Int),
      sum_accesses_from fuel a' b' l len1 len2 = sum_accesses_from fuel a b l len1 len2 := by
  induction l with
  | nil => intro _ _; rfl
  | cons d t ih =>
    intro len1 len2
    simp only [sum_accesses_from, h2, h4, ih]

theorem mul_run [Mul α] (fuel : Nat) (l : List Nat) :
    ∀ (len1 len2 : Int) (a b : dsp_stream α) (tr : List (Int × Int)),
      mul_accesses_from fuel a b l len1 len2 = some tr →
      (∀ p ∈ tr, pair_in_bounds a b p) →
      ∃ st', l.foldlM (mul_step fuel) (len1, len2, a, b) = some st' := by
  induction l with
  | nil =>
    intro len1 len2 a b tr _ _
    exact ⟨_, rfl⟩
  | cons d t ih =>
    intro len1 len2 a b tr h hb
    simp only [mul_accesses_from, Option.bind_eq_bind, Option.bind_eq_some, pure,
      Option.some.injEq] at h
    obtain ⟨pairs, hpairs, s1, hs1, s2, hs2, tail, htail, rfl⟩ := h
    obtain ⟨r, hr⟩ := combine_fold_defined (fun u v : α => u * v) pairs (a, b)
      (fun p hp => hb p (List.mem_append_left _ hp))
    obtain ⟨f1, f2⟩ := combine_fold_frame _ pairs (a, b) r hr
    obtain ⟨a1, _, a3, _⟩ := same_but_out_fields a r.1 f1
    obtain ⟨b1, _, b3, _⟩ := same_but_out_fields b r.2 f2
    obtain ⟨st', h'⟩ := ih (wrap (len1 * s1)) (wrap (len2 * s2)) r.1 r.2 tail
      (by rw [mul_accesses_from_congr fuel a b r.1 r.2 a1 a3 b1 b3]; exact htail)
      (fun p hp => pair_in_bounds_of_frame _ _ _ _ p f1 f2 (hb p (List.mem_append_right _ hp)))
    refine ⟨st', ?_⟩
    simp only [List.foldlM_cons, mul_step, hpairs, hr, a3, b3, hs1, hs2, Option.bind_eq_bind,
      Option.some_bind, pure]
    exact h'

theorem sum_run [Add α] (fuel : Nat) (l : List Nat) :
    ∀ (len1 len2 : Int) (a b : dsp_stream α) (tr : List (Int × Int)),
      sum_accesses_from fuel a b l len1 len2 = some tr →
      (∀ p ∈ tr, pair_in_bounds a b p) →
      ∃ st', l.foldlM (sum_step fuel) (len1, len2, a, b) = some st' := by
  induction l with
  | nil =>
    intro len1 len2 a b tr _ _
    exact ⟨_, rfl⟩
  | cons d t ih =>
    intro len1 len2 a b tr h hb
    simp only [sum_accesses_from, Option.bind_eq_bind, Option.bind_eq_some, pure,
      Option.some.injEq] at h
    obtain ⟨s1, hs1, s2, hs2, pairs, hpairs, tail, htail, rfl⟩ := h
    obtain ⟨r, hr⟩ := combine_fold_defined (fun u v : α => u + v) pairs (a, b)
      (fun p hp => hb p (List.mem_append_left _ hp))
    obtain ⟨f1, f2⟩ := combine_fold_frame _ pairs (a, b) r hr
    obtain ⟨_, _, a3, _⟩ := same_but_out_fields a r.1 f1
    obtain ⟨_, _, b3, _⟩ := same_but_out_fields b r.2 f2
    obtain ⟨st', h'⟩ := ih s1 s2 r.1 r.2 tail
      (by rw [sum_accesses_from_congr fuel a b r.1 r.2 a3 b3]; exact htail)
      (fun p hp => pair_in_bounds_of_frame _ _ _ _ p f1 f2 (hb p (List.mem_append_right _ hp)))
    refine ⟨st', ?_⟩
    simp only [List.foldlM_cons, sum_step, hs1, hs2, hpairs, hr, Option.bind_eq_bind,
      Option.some_bind, pure]
    exact h'

theorem mul_accesses_defined (fuel : Nat) (a b : dsp_stream α) (ea eb : List Int)
    (hsa : has_shape a ea) (hsb : has_shape b eb)
    (hpa : ∀ e ∈ ea, 1 ≤ e) (hpb : ∀ e ∈ eb, 1 ≤ e)
    (hfa : ea.prod ≤ int_max) (hfb : eb.prod ≤ int_max)
    (hfuel : a.len.toNat < fuel) (r : Nat) :
    ∀ (k : Nat), k + r ≤ ea.length → k + r ≤ eb.length →
      ∃ tr, mul_accesses_from fuel a b (List.range' k r) (stride ea k) (stride eb k) = some tr
        ∧ ∀ p ∈ tr, 0 ≤ p.1 ∧ p.1 < a.len ∧ 0 ≤ p.2 ∧ p.2 < b.len := by
  induction r with
  | zero =>
    intro k _ _
    exact ⟨[], rfl, by simp⟩
  | succ r ih =>
    intro k hka hkb
    have h1 : 1 ≤ stride ea k := stride_pos ea hpa k
    have h2 : 1 ≤ stride eb k := stride_pos eb hpb k
    obtain ⟨pairs, hpairs⟩ := walk_defined a.len b.len (stride ea k) (stride eb k) h1 fuel 0 0
      (by simpa using hfuel)
    have hv := walk_visits_both _ (stride ea k) (stride eb k) (by omega) (by omega) fuel 0 0
      pairs hpairs
    have hs1 : rd a.sizes ((k : Nat) : Int) = some ea[k] := rd_of_take _ _ hsa.2 k (by omega)
    have hs2 : rd b.sizes ((k : Nat) : Int) = some eb[k] := rd_of_take _ _ hsb.2 k (by omega)
    have hw1 : wrap (stride ea k * ea[k]) = stride ea (k + 1) := by
      rw [← stride_succ ea k (by omega)]
      exact wrap_stride ea hpa hfa (k + 1)
    have hw2 : wrap (stride eb k * eb[k]) = stride eb (k + 1) := by
      rw [← stride_succ eb k (by omega)]
      exact wrap_stride eb hpb hfb (k + 1)
    obtain ⟨tail, htail, hbt⟩ := ih (k + 1) (by omega) (by omega)
    refine ⟨pairs ++ tail, ?_, ?_⟩
    · simp only [List.range'_succ, mul_accesses_from, hpairs, hs1, hs2, hw1, hw2, htail,
        Option.bind_eq_bind, Option.some_bind, pure]
    · intro p hp
      rcases List.mem_append.1 hp with hp | hp
      · obtain ⟨c, x0, y0⟩ := hv p hp
        simp only [decide_eq_true_eq] at c
        exact ⟨x0, c.1, y0, c.2⟩
      · exact hbt p hp

theorem sum_accesses_defined (fuel : Nat) (a b : dsp_stream α) (hfuel : a.len.toNat < fuel)
    (l : List Nat) :
    ∀ (len1 len2 : Int), 1 ≤ len1 → 1 ≤ len2 →
      (∀ d ∈ l, ∃ e, rd a.sizes ((d : Nat) : Int) = some e ∧ 1 ≤ e ∧ e ≤ a.len) →
      (∀ d ∈ l, ∃ e, rd b.sizes ((d : Nat) : Int) = some e ∧ 1 ≤ e ∧ e ≤ b.len) →
      ∃ tr, sum_accesses_from fuel a b l len1 len2 = some tr
        ∧ ∀ p ∈ tr, 0 ≤ p.1 ∧ p.1 < a.len ∧ 0 ≤ p.2 ∧ p.2 < b.len := by
  induction l with
  | nil =>
    intro _ _ _ _ _ _
    exact ⟨[], rfl, by simp⟩
  | cons d t ih =>
    intro len1 len2 h1 h2 ha hb
    obtain ⟨s1, hs1, hs1p, hs1l⟩ := ha d (List.mem_cons_self _ _)
    obtain ⟨s2, hs2, hs2p, hs2l⟩ := hb d (List.mem_cons_self _ _)
    obtain ⟨pairs, hpairs⟩ := walk_defined s1 s2 len1 len2 h1 fuel 0 0 (by omega)
    have hv := walk_visits_both _ len1 len2 (by omega) (by omega) fuel 0 0 pairs hpairs
    obtain ⟨tail, htail, hbt⟩ := ih s1 s2 hs1p hs2p
      (fun x hx => ha x (List.mem_cons_of_mem _ hx))
      (fun x hx => hb x (List.mem_cons_of_mem _ hx))
    refine ⟨pairs ++ tail, ?_, ?_⟩
    · simp only [sum_accesses_from, hpairs, hs1, hs2, htail, Option.bind_eq_bind,
        Option.some_bind, pure]
    · intro p hp
      rcases List.mem_append.1 hp with hp | hp
      · obtain ⟨c, x0, y0⟩ := hv p hp
        simp only [decide_eq_true_eq] at c
        exact ⟨x0, by omega, y0, by omega⟩
      · exact hbt p hp

theorem well_formed_sizes (s : dsp_stream α) (es : List Int) (h : well_formed s es)
    (n : Nat) (hn : n ≤ es.length) :
    ∀ d ∈ List.range n, ∃ e, rd s.sizes ((d : Nat) : Int) = some e ∧ 1 ≤ e ∧ e ≤ s.len := by
  intro d hd
  have hd' : d < es.length := by
    have := List.mem_range.1 hd
    omega
  obtain ⟨hs, hpos, hlen, _, _, _⟩ := h
  refine ⟨es[d], rd_of_take _ _ hs.2 d hd', hpos _ (List.getElem_mem hd'), ?_⟩
  rw [hlen]
  exact le_prod_of_mem es hpos _ (List.getElem_mem hd')

theorem well_formed_bounds (a b : dsp_stream α) (ea eb : List Int) (ha : well_formed a ea)
    (hb : well_formed b eb) (p : Int × Int)
    (h : 0 ≤ p.1 ∧ p.1 < a.len ∧ 0 ≤ p.2 ∧ p.2 < b.len) : pair_in_bounds a b p := by
  obtain ⟨_, _, _, a4, a5, _⟩ := ha
  obtain ⟨_, _, _, b4, b5, _⟩ := hb
  obtain ⟨h1, h2, h3, h4⟩ := h
  unfold pair_in_bounds
  rw [a4, a5, b4, b5]
  omega

theorem Min_dims_le (a b : dsp_stream α) (ea eb : List Int) (ha : has_shape a ea)
    (hb : has_shape b eb) :
    (Min a.dims b.dims).toNat ≤ ea.length ∧ (Min a.dims b.dims).toNat ≤ eb.length := by
  rw [Min_eq_min, ha.1, hb.1]
  omega

theorem well_formed_fit (s : dsp_stream α) (es : List Int) (h : well_formed s es) :
    es.prod ≤ int_max := by
  obtain ⟨_, _, hl, _, _, hf⟩ := h
  rw [← hl]
  exact hf

theorem mul_accesses_terminate (a b : dsp_stream α) (ea eb : List Int)
    (ha : has_shape a ea) (hb : has_shape b eb)
    (hpa : ∀ e ∈ ea, 1 ≤ e) (hpb : ∀ e ∈ eb, 1 ≤ e)
    (hfa : ea.prod ≤ int_max) (hfb : eb.prod ≤ int_max)
    (fuel : Nat) (hfuel : a.len.toNat < fuel) :
    ∃ tr, mul_accesses fuel a b = some tr
      ∧ ∀ p ∈ tr, 0 ≤ p.1 ∧ p.1 < a.len ∧ 0 ≤ p.2 ∧ p.2 < b.len := by
  unfold mul_accesses
  simp only
  split
  · exact ⟨[], rfl, by simp⟩
  · obtain ⟨m1, m2⟩ := Min_dims_le a b ea eb ha hb
    have h := mul_accesses_defined fuel a b ea eb ha hb hpa hpb hfa hfb hfuel
      (Min a.dims b.dims).toNat 0 (by omega) (by omega)
    have h1 : stride ea 0 = 1 := by simp [stride]
    have h2 : stride eb 0 = 1 := by simp [stride]
    rw [h1, h2, ← List.range_eq_range'] at h
    exact h

theorem mul_returns_of_accesses [Mul α] (fuel : Nat) (a b : dsp_stream α)
    (tr : List (Int × Int)) (htr : mul_accesses fuel a b = some tr)
    (hb : ∀ p ∈ tr, pair_in_bounds a b p) : ∃ r, dsp_stream_mul fuel a b = some r := by
  unfold mul_accesses at htr
  unfold dsp_stream_mul
  simp only at htr ⊢
  split
  · exact ⟨_, rfl⟩
  · next hz =>
    rw [if_neg hz] at htr
    obtain ⟨st', h'⟩ := mul_run fuel _ 1 1 a b tr htr hb
    exact ⟨_, by rw [h']; rfl⟩

theorem mul_defined [Mul α] (a b : dsp_stream α) (ea eb : List Int) (ha : well_formed a ea)
    (hb : well_formed b eb) (fuel : Nat) (hfuel : a.len.toNat < fuel) :
    ∃ a' b', dsp_stream_mul fuel a b = some (a', b') := by
  obtain ⟨tr, htr, hbt⟩ := mul_accesses_terminate a b ea eb ha.1 hb.1 ha.2.1 hb.2.1
    (well_formed_fit a ea ha) (well_formed_fit b eb hb) fuel hfuel
  obtain ⟨r, hr⟩ := mul_returns_of_accesses fuel a b tr htr
    (fun p hp => well_formed_bounds a b ea eb ha hb p (hbt p hp))
  exact ⟨r.1, r.2, hr⟩

theorem sum_defined [Add α] (a b : dsp_stream α) (ea eb : List Int) (ha : well_formed a ea)
    (hb : well_formed b eb) (fuel : Nat) (hfuel : a.len.toNat < fuel) :
    ∃ a' b', dsp_stream_sum fuel a b = some (a', b') := by
  unfold dsp_stream_sum
  simp only
  split
  · exact ⟨a, b, rfl⟩
  · obtain ⟨m1, m2⟩ := Min_dims_le a b ea eb ha.1 hb.1
    obtain ⟨tr, htr, hbt⟩ := sum_accesses_defined fuel a b hfuel
      (List.range (Min a.dims b.dims).toNat) 1 1 (le_refl _) (le_refl _)
      (well_formed_sizes a ea ha _ m1) (well_formed_sizes b eb hb _ m2)
    obtain ⟨st', h'⟩ := sum_run fuel _ 1 1 a b tr htr
      (fun p hp => well_formed_bounds a b ea eb ha hb p (hbt p hp))
    exact ⟨st'.2.2.1, st'.2.2.2, by rw [h']; rfl⟩

theorem combine_at_fixed (op : α → α → α) (a b : dsp_stream α)
    (hza : a.out = List.zipWith (cell_op op) a.in_ b.in_)
    (hzb : b.out = List.zipWith (cell_op op) a.in_ b.in_)
    (x : Int) (h0 : 0 ≤ x) (h1 : x.toNat < a.in_.length) (h2 : x.toNat < b.in_.length) :
    combine_at op (a, b) (x, x) = some (a, b) := by
  have hz : x.toNat < (List.zipWith (cell_op op) a.in_ b.in_).length := by
    simp only [List.length_zipWith]; omega
  have ho1 : x.toNat < a.out.length := by rw [hza]; exact hz
  have ho2 : x.toNat < b.out.length := by rw [hzb]; exact hz
  have hcell : (List.zipWith (cell_op op) a.in_ b.in_)[x.toNat]?
      = some (cell_op op (a.in_.get ⟨x.toNat, h1⟩) (b.in_.get ⟨x.toNat, h2⟩)) := by
    rw [List.getElem?_zipWith, List.getElem?_eq_getElem h1, List.getElem?_eq_getElem h2]
    rfl
  have hs1 : a.out.set x.toNat (cell_op op (a.in_.get ⟨x.toNat, h1⟩) (b.in_.get ⟨x.toNat, h2⟩))
      = a.out := by
    apply List.ext_getElem?
    intro i
    by_cases hi : i = x.toNat
    · subst hi
      rw [List.getElem?_set_self ho1, hza, hcell]
    · rw [List.getElem?_set_ne (Ne.symm hi)]
  have hs2 : b.out.set x.toNat (cell_op op (a.in_.get ⟨x.toNat, h1⟩) (b.in_.get ⟨x.toNat, h2⟩))
      = b.out := by
    apply List.ext_getElem?
    intro i
    by_cases hi : i = x.toNat
    · subst hi
      rw [List.getElem?_set_self ho2, hzb, hcell]
    · rw [List.getElem?_set_ne (Ne.symm hi)]
  simp only [combine_at, cell_at_of_lt _ _ h0 h1, cell_at_of_lt _ _ h0 h2,
    wr_of_lt _ _ _ h0 ho1, wr_of_lt _ _ _ h0 ho2, Option.bind_eq_bind, Option.some_bind, pure,
    hs1, hs2]

theorem combine_fold_fixed (op : α → α → α) (a b : dsp_stream α)
    (hza : a.out = List.zipWith (cell_op op) a.in_ b.in_)
    (hzb : b.out = List.zipWith (cell_op op) a.in_ b.in_)
    (pairs : List (Int × Int))
    (h : ∀ p ∈ pairs, p.1 = p.2 ∧ 0 ≤ p.1 ∧ p.1.toNat < a.in_.length
      ∧ p.1.toNat < b.in_.length) :
    pairs.foldlM (combine_at op) (a, b) = some (a, b) := by
  induction pairs with
  | nil => rfl
  | cons p t ih =>
    obtain ⟨e, h0, h1, h2⟩ := h p (List.mem_cons_self _ _)
    have hp : p = (p.1, p.1) := by
      cases p
      simp only at e
      subst e
      rfl
    rw [List.foldlM_cons, hp, combine_at_fixed op a b hza hzb p.1 h0 h1 h2]
    exact ih (fun q hq => h q (List.mem_cons_of_mem _ hq))

theorem mul_passes_fixed [Mul α] (fuel : Nat) (a b : dsp_stream α) (es : List Int)
    (hsa : has_shape a es) (hsb : has_shape b es) (hpos : ∀ e ∈ es, 1 ≤ e)
    (hfit : es.prod ≤ int_max)
    (hza : a.out = List.zipWith (cell_op (fun u v : α => u * v)) a.in_ b.in_)
    (hzb : b.out = List.zipWith (cell_op (fun u v : α => u * v)) a.in_ b.in_)
    (hlen : a.len = b.len) (hai : a.in_.length = a.len.toNat) (hbi : b.in_.length = b.len.toNat)
    (hfuel : a.len.toNat < fuel) (r : Nat) :
    ∀ (k : Nat), k + r ≤ es.length →
      (List.range' k r).foldlM (mul_step fuel) (stride es k, stride es k, a, b)
        = some (stride es (k + r), stride es (k + r), a, b) := by
  induction r with
  | zero =>
    intro k _
    rfl
  | succ r ih =>
    intro k hk
    have hS : 1 ≤ stride es k := stride_pos es hpos k
    obtain ⟨pairs, hpairs⟩ := walk_defined a.len b.len (stride es k) (stride es k) hS fuel 0 0
      (by simpa using hfuel)
    have hv := walk_visits_both _ (stride es k) (stride es k) (by omega) (by omega) fuel 0 0
      pairs hpairs
    have hd := walk_on_diagonal _ (stride es k) fuel 0 pairs hpairs
    have hfold := combine_fold_fixed (fun u v : α => u * v) a b hza hzb pairs (by
      intro p hp
      obtain ⟨c, x0, _⟩ := hv p hp
      simp only [decide_eq_true_eq] at c
      refine ⟨hd p hp, x0, ?_, ?_⟩
      · rw [hai]; omega
      · rw [hbi, ← hlen]; omega)
    have he1 : rd a.sizes ((k : Nat) : Int) = some es[k] := rd_of_take _ _ hsa.2 k (by omega)
    have he2 : rd b.sizes ((k : Nat) : Int) = some es[k] := rd_of_take _ _ hsb.2 k (by omega)
    have hw : wrap (stride es k * es[k]) = stride es (k + 1) := by
      rw [← stride_succ es k (by omega)]
      exact wrap_stride es hpos hfit (k + 1)
    have h' := ih (k + 1) (by omega)
    rw [show k + 1 + r = k + (r + 1) by omega] at h'
    simp only [List.range'_succ, List.foldlM_cons, mul_step, hpairs, hfold, he1, he2, hw,
      Option.bind_eq_bind, Option.some_bind, pure]
    exact h'

theorem mul_first_pass [Mul α] (fuel : Nat) (a b : dsp_stream α) (es : List Int)
    (hne : 0 < es.length) (ha : well_formed a es) (hb : well_formed b es)
    (hfuel : a.len.toNat < fuel) :
    mul_step fuel ((1 : Int), (1 : Int), a, b) 0
      = some (stride es 1, stride es 1,
          { a with out := List.zipWith (cell_op (fun u v : α => u * v)) a.in_ b.in_ },
          { b with out := List.zipWith (cell_op (fun u v : α => u * v)) a.in_ b.in_ }) := by
  have hfit := well_formed_fit a es ha
  obtain ⟨hsa, hpa, hla, hia, hoa, _⟩ := ha
  obtain ⟨hsb, _, hlb, hib, hob, _⟩ := hb
  have hlen : b.len = a.len := by rw [hla, hlb]
  have h1 : 1 ≤ a.len := by rw [hla]; exact one_le_prod es hpa
  have hL : ((a.len.toNat : Nat) : Int) = a.len := Int.toNat_of_nonneg (by omega)
  have hw := walk_diag a.len b.len a.len.toNat fuel 0
    (by rw [hlen, min_self, hL]; omega) hfuel
  have hf := combine_fold (fun u v : α => u * v) a b a.len.toNat
    (by omega) (by rw [hib, hlen]) (by omega) (by rw [hob, hlen]) a.len.toNat (Nat.le_refl _)
  have hz : (List.zipWith (cell_op (fun u v : α => u * v)) a.in_ b.in_).take a.len.toNat
      = List.zipWith (cell_op (fun u v : α => u * v)) a.in_ b.in_ := by
    apply List.take_of_length_le
    simp only [List.length_zipWith, hia, hib, hlen]
    omega
  rw [hz, List.drop_of_length_le (by omega), List.drop_of_length_le (by rw [hob, hlen]),
    List.append_nil] at hf
  have hs1 : rd a.sizes ((0 : Nat) : Int) = some es[0] := rd_of_take _ _ hsa.2 0 hne
  have hs2 : rd b.sizes ((0 : Nat) : Int) = some es[0] := rd_of_take _ _ hsb.2 0 hne
  have hst : wrap ((1 : Int) * es[0]) = stride es 1 := by
    have h0 : stride es 0 = 1 := by simp [stride]
    rw [← h0, ← stride_succ es 0 hne]
    exact wrap_stride es hpa hfit 1
  simp only [mul_step, hw, hf, hs1, hs2, hst, Option.bind_eq_bind, Option.some_bind, pure]

theorem mul_same_extents_eq [Mul α] (a b : dsp_stream α) (es : List Int)
    (hne : 0 < es.length) (ha : well_formed a es) (hb : well_formed b es)
    (fuel : Nat) (hfuel : a.len.toNat < fuel) :
    dsp_stream_mul fuel a b = some
      ({ a with out := List.zipWith (cell_op (fun u v : α => u * v)) a.in_ b.in_ },
       { b with out := List.zipWith (cell_op (fun u v : α => u * v)) a.in_ b.in_ }) := by
  have hfirst := mul_first_pass fuel a b es hne ha hb hfuel
  have hfit := well_formed_fit a es ha
  obtain ⟨hsa, hpa, hla, hia, hoa, _⟩ := ha
  obtain ⟨hsb, _, hlb, hib, hob, _⟩ := hb
  have hdims : Min a.dims b.dims = (es.length : Int) := by
    rw [Min_eq_min, hsa.1, hsb.1, min_self]
  obtain ⟨m, hm⟩ : ∃ m, es.length = m + 1 := ⟨es.length - 1, by omega⟩
  have hnz : ¬ (((m + 1 : Nat) : Int) = 0) := by omega
  have hrest := mul_passes_fixed fuel
    { a with out := List.zipWith (cell_op (fun u v : α => u * v)) a.in_ b.in_ }
    { b with out := List.zipWith (cell_op (fun u v : α => u * v)) a.in_ b.in_ } es
    ⟨hsa.1, hsa.2⟩ ⟨hsb.1, hsb.2⟩ hpa hfit
    rfl rfl (by show a.len = b.len; rw [hla, hlb]) hia hib hfuel m 1 (by omega)
  unfold dsp_stream_mul
  simp only [hdims, hnz, if_false, Int.toNat_ofNat, hm, List.range_eq_range', List.range'_succ,
    List.foldlM_cons, hfirst, Option.bind_eq_bind, Option.some_bind, hrest, Option.map_some']

theorem set_position_exact (s : dsp_stream α) (es ps : List Int)
    (hs : has_shape s es) (hps : s.pos.take ps.length = ps.map some)
    (hlen : ps.length = es.length) (hpos : ∀ e ∈ es, 1 ≤ e) (hfit : es.prod ≤ int_max)
    (hrange : ∀ d (h1 : d < ps.length) (h2 : d < es.length), 0 ≤ ps[d] ∧ ps[d] < es[d]) :
    dsp_stream_set_position s = some { s with index := compose es ps es.length }
      ∧ 0 ≤ compose es ps es.length ∧ compose es ps es.length < es.prod := by
  have hin := getD_range_of_getElem es ps hlen hrange
  have hset := set_position_eq s es ps hs hps (by omega)
  have hb := compose_bound es ps hpos hin es.length (Nat.le_refl _)
  have hst : stride es es.length = es.prod := by simp [stride]
  rw [hst] at hb
  rw [wrap_of_range _ (by unfold int_min; omega) (by omega)] at hset
  exact ⟨hset, hb⟩

/-- Whenever a crop returns, the source it leaves is the source it received. -/
theorem crop_source_kept [Zero α] (fuel : Nat) (src src' : dsp_stream α)
    (r : Option (dsp_stream α)) (h : dsp_stream_crop_effect fuel src = some (src', r)) :
    src' = src := by
  rw [crop_effect_eq] at h
  simp only [Option.map_eq_some', Prod.mk.injEq] at h
  obtain ⟨x, _, hx, _⟩ := h
  exact hx.symm

theorem crop_at_outside (src ret : dsp_stream α) (p : Int × Int)
    (h : ret.in_.length ≤ p.2.toNat) : crop_at src ret p = none := by
  simp only [crop_at, Option.bind_eq_bind, pure]
  cases cell_at src.in_ p.1 with
  | none => rfl
  | some a =>
    have hw : wr ret.in_ p.2 a = none := by
      simp only [wr]
      rw [if_neg]
      omega
    simp only [Option.some_bind, hw, Option.none_bind]

theorem crop_at_length (src ret ret' : dsp_stream α) (p : Int × Int)
    (h : crop_at src ret p = some ret') : ret'.in_.length = ret.in_.length := by
  simp only [crop_at, Option.bind_eq_bind, pure] at h
  cases ha : cell_at src.in_ p.1 with
  | none => simp [ha] at h
  | some a =>
    cases hi : wr ret.in_ p.2 a with
    | none => simp [ha, hi] at h
    | some i =>
      cases hb : cell_at src.out p.1 with
      | none => simp [ha, hi, hb] at h
      | some b =>
        cases ho : wr ret.out p.2 b with
        | none => simp [ha, hi, hb, ho] at h
        | some o =>
          simp only [ha, hi, hb, ho, Option.some_bind, Option.some.injEq] at h
          subst h
          exact wr_length _ _ _ _ hi

theorem long_line_walk (fuel : Nat) (pairs : List (Int × Int))
    (h : crop_walk fuel ⟨16381, 16384⟩ 32768 1 = some pairs) :
    pairs = [(16381, 0), (16382, 16384), (16383, 32768)] := by
  match fuel, h with
  | 0, h => simp [crop_walk, walk] at h
  | 1, h => simp [crop_walk, walk] at h
  | 2, h => simp [crop_walk, walk] at h
  | 3, h => simp [crop_walk, walk] at h
  | f + 4, h =>
    simp [crop_walk, walk] at h
    exact h.symm

theorem line_crop_outside (src : dsp_stream Int) (hdims : src.dims = 1)
    (h0 : rd src.ROI ((0 : Nat) : Int) = some ⟨16381, 16384⟩)
    (h1 : rd src.sizes ((0 : Nat) : Int) = some 32768) (fuel : Nat) :
    dsp_stream_crop fuel src = none := by
  obtain ⟨ret, hadd, _, hl, hi, _⟩ :=
    add_dim_fields (dsp_stream_new : dsp_stream Int) 16384 (by decide) rfl
  have hlen : ret.in_.length = 16384 := by
    rw [hi, hl]
    rfl
  have hd : ¬ src.dims = 0 := by omega
  have hr : List.range src.dims.toNat = [0] := by rw [hdims]; rfl
  simp only [dsp_stream_crop, hd, if_false, hr, List.foldlM_cons, List.foldlM_nil, crop_step, h0,
    h1, hadd, Option.bind_eq_bind, Option.some_bind]
  cases hw : crop_walk fuel ⟨16381, 16384⟩ 32768 1 with
  | none => rfl
  | some pairs =>
    rw [long_line_walk fuel pairs hw]
    simp only [Option.some_bind, List.foldlM_cons, Option.bind_eq_bind]
    cases h2 : crop_at src ret (16381, 0) with
    | none => rfl
    | some ret1 =>
      have hl1 := crop_at_length src ret ret1 _ h2
      have h3 : crop_at src ret1 (16382, 16384) = none :=
        crop_at_outside src ret1 _ (by rw [hl1, hlen]; decide)
      simp only [Option.some_bind, h3, Option.none_bind, Option.map_none']

/-! ## Claims C21 to C30 -/

/-- C21 (the code at the failing input).  After two appends (extents 2 and 3) to a fresh stream,
`dims = 2` and `sizes` and `pos` have three cells each, but `ROI` has one
entry only: `ROI[1]` does not exist.  Line 127 of `dsp_stream_add_dim` gives `ROI`
the size of a single `dsp_region`, whatever `dims` is. -/
theorem add_dims_roi_single_entry :
    (add_dims (dsp_stream_new : dsp_stream Int) [2, 3]).map
        (fun s => (s.dims, s.sizes.length, s.pos.length, s.ROI.length, cell_at s.ROI 1))
      = some (2, 3, 3, 1, none) := by
  rfl

/-- C22 (counterexample).  Each of the four buffer setters, called with length 5 on a
fresh stream (for the two binding ones with a buffer of 5 samples), leaves
`len = 5` with no dimension (the product of no extent is 1) and the other
buffer with 1 sample.  And the appends 65536 and 65536 to a fresh stream
leave `len = 0` with empty buffers: the product of line 130 is an `int`. -/
theorem length_invariant_broken :
    ((dsp_stream_set_input_buffer_len (dsp_stream_new : dsp_stream Int) 5).1.len = 5
      ∧ (dsp_stream_set_input_buffer_len (dsp_stream_new : dsp_stream Int) 5).1.dims = 0
      ∧ (dsp_stream_set_input_buffer_len (dsp_stream_new : dsp_stream Int) 5).1.in_.length = 5
      ∧ (dsp_stream_set_input_buffer_len (dsp_stream_new : dsp_stream Int) 5).1.out.length = 1)
    ∧ ((dsp_stream_set_output_buffer_len (dsp_stream_new : dsp_stream Int) 5).1.len = 5
      ∧ (dsp_stream_set_output_buffer_len (dsp_stream_new : dsp_stream Int) 5).1.dims = 0
      ∧ (dsp_stream_set_output_buffer_len (dsp_stream_new : dsp_stream Int) 5).1.in_.length = 1
      ∧ (dsp_stream_set_output_buffer_len (dsp_stream_new : dsp_stream Int) 5).1.out.length = 5)
    ∧ ((dsp_stream_set_input_buffer (dsp_stream_new : dsp_stream Int)
          (List.replicate 5 (some 0)) 5).1.len = 5
      ∧ (dsp_stream_set_input_buffer (dsp_stream_new : dsp_stream Int)
          (List.replicate 5 (some 0)) 5).1.dims = 0
      ∧ (dsp_stream_set_input_buffer (dsp_stream_new : dsp_stream Int)
          (List.replicate 5 (some 0)) 5).1.out.length = 1)
    ∧ ((dsp_stream_set_output_buffer (dsp_stream_new : dsp_stream Int)
          (List.replicate 5 (some 0)) 5).1.len = 5
      ∧ (dsp_stream_set_output_buffer (dsp_stream_new : dsp_stream Int)
          (List.replicate 5 (some 0)) 5).1.dims = 0
      ∧ (dsp_stream_set_output_buffer (dsp_stream_new : dsp_stream Int)
          (List.replicate 5 (some 0)) 5).1.in_.length = 1)
    ∧ (∃ s, add_dims (dsp_stream_new : dsp_stream Int) [65536, 65536] = some s
        ∧ s.dims = 2 ∧ s.len = 0 ∧ s.in_ = [] ∧ s.out = []) := by
  refine ⟨by decide, by decide, by decide, by decide, ?_⟩
  obtain ⟨s, hs, hd, hl, hi, ho, _⟩ :=
    add_dims_fields [65536, 65536] (dsp_stream_new : dsp_stream Int) (by decide) rfl rfl rfl
      (by decide)
  have hlen : s.len = 0 := by rw [hl]; decide
  refine ⟨s, hs, by rw [hd]; decide, hlen, ?_, ?_⟩
  · apply List.eq_nil_of_length_eq_zero
    rw [hi, hlen]
    rfl
  · apply List.eq_nil_of_length_eq_zero
    rw [ho, hlen]
    rfl

/-- C22 (amended).  In every state reachable from `dsp_stream_new` by `dsp_stream_add_dim` with
extents of at least 1 whose product stays within the range of an `int`,
`dsp_stream_swap_buffers`, `dsp_stream_add_child`, the two position conversions, `dsp_stream_mul` and
`dsp_stream_sum`, `dims` is the number of extents appended, `len` is their
product, `len ≥ 1`, and `in` and `out` each hold exactly `len` samples (and
`sizes` has room for one more extent). -/
theorem reachable_length_invariant [Zero α] [Mul α] [Add α] (s : dsp_stream α)
    (es : List Int) (h : reachable s es) :
    s.dims = (es.length : Int) ∧ s.len = es.prod ∧ 1 ≤ s.len
      ∧ s.in_.length = s.len.toNat ∧ s.out.length = s.len.toNat
      ∧ s.sizes.length = es.length + 1 := by
  induction h with
  | new => exact ⟨rfl, rfl, le_refl _, rfl, rfl, rfl⟩
  | add_dim s s' es e _ he hfit hadd ih =>
    obtain ⟨i1, i2, i3, _, _, i6⟩ := ih
    obtain ⟨t, ht, hd, hl, hi, ho, hs, _⟩ := add_dim_fields s e (by omega)
      (by rw [i6, i1, Int.toNat_ofNat])
    rw [hadd, Option.some.injEq] at ht
    subst ht
    have hpos : 1 ≤ s.len * e := by nlinarith
    have hl' : s'.len = s.len * e := by
      rw [hl]
      exact wrap_of_range _ (by unfold int_min; omega) hfit
    refine ⟨?_, ?_, ?_, hi, ho, ?_⟩
    · rw [hd, i1, List.length_append, List.length_singleton]
      push_cast
      rfl
    · rw [hl', i2, List.prod_append, List.prod_singleton]
    · rw [hl']
      exact hpos
    · rw [hs, hd, i1, List.length_append, List.length_singleton]
      omega
  | swap_buffers s es _ ih =>
    obtain ⟨i1, i2, i3, i4, i5, i6⟩ := ih
    exact ⟨i1, i2, i3, i5, i4, i6⟩
  | add_child_parent p c p' c' ep ec pa ca _ _ hc ihp _ =>
    obtain ⟨⟨k1, k2, k3, k4, k5⟩, _⟩ := add_child_keeps pa ca p c p' c' hc
    rw [k1, k2, k3, k4, k5]
    exact ihp
  | add_child_child p c p' c' ep ec pa ca _ _ hc _ ihc =>
    obtain ⟨_, ⟨k1, k2, k3, k4, k5⟩⟩ := add_child_keeps pa ca p c p' c' hc
    rw [k1, k2, k3, k4, k5]
    exact ihc
  | get_position s s' es _ hg ih =>
    obtain ⟨k1, k2, k3, k4, k5⟩ := get_position_keeps s s' hg
    rw [k1, k2, k3, k4, k5]
    exact ih
  | set_position s s' es _ hg ih =>
    obtain ⟨k1, k2, k3, k4, k5⟩ := set_position_keeps s s' hg
    rw [k1, k2, k3, k4, k5]
    exact ih
  | mul_first a b a' b' ea eb fuel _ _ hm iha _ =>
    obtain ⟨k1, k2, k3, k4, _, _, k7⟩ := same_but_out_fields a a' (mul_frame fuel a b a' b' hm).1
    rw [k1, k2, k3, k4, k7]
    exact iha
  | mul_second a b a' b' ea eb fuel _ _ hm _ ihb =>
    obtain ⟨k1, k2, k3, k4, _, _, k7⟩ := same_but_out_fields b b' (mul_frame fuel a b a' b' hm).2
    rw [k1, k2, k3, k4, k7]
    exact ihb
  | sum_first a b a' b' ea eb fuel _ _ hm iha _ =>
    obtain ⟨k1, k2, k3, k4, _, _, k7⟩ := same_but_out_fields a a' (sum_frame fuel a b a' b' hm).1
    rw [k1, k2, k3, k4, k7]
    exact iha
  | sum_second a b a' b' ea eb fuel _ _ hm _ ihb =>
    obtain ⟨k1, k2, k3, k4, _, _, k7⟩ := same_but_out_fields b b' (sum_frame fuel a b a' b' hm).2
    rw [k1, k2, k3, k4, k7]
    exact ihb

/-- The stream built by the appends 2 and 3, with its buffers swapped, satisfies the
invariant. -/
theorem reachable_length_invariant_witness :
    ∃ s, add_dims (dsp_stream_new : dsp_stream Int) [2, 3] = some s
      ∧ reachable (dsp_stream_swap_buffers s) [2, 3]
      ∧ (dsp_stream_swap_buffers s).len = 6
      ∧ (dsp_stream_swap_buffers s).in_.length = 6
      ∧ (dsp_stream_swap_buffers s).out.length = 6 := by
  obtain ⟨s, hs, _⟩ := add_dims_fields [2, 3] (dsp_stream_new : dsp_stream Int)
    (le_refl _) rfl rfl rfl (by decide)
  have hr : reachable (dsp_stream_swap_buffers s) [2, 3] :=
    reachable.swap_buffers s [2, 3]
      (reachable_add_dims [2, 3] dsp_stream_new s [] reachable.new (by decide) (by decide)
        (by decide) hs)
  obtain ⟨_, h2, _, h4, h5, _⟩ :=
    reachable_length_invariant (dsp_stream_swap_buffers s) [2, 3] hr
  have h6 : (dsp_stream_swap_buffers s).len = 6 := by rw [h2]; rfl
  exact ⟨s, hs, hr, h6, by rw [h4, h6]; rfl, by rw [h5, h6]; rfl⟩

/-- C23.  Sum on 1-D streams of lengths `n` and `m`: with enough fuel `dsp_stream_sum`
returns; for every `i < min n m` the output cell `i` of both streams holds the
sum of the two input cells `i` (the sum of their values when both are
determinate); the output cells at `i ≥ min n m` keep their content; no other
field of either stream changes. -/
theorem sum_one_dim [Add α] (a b : dsp_stream α) (n m : Nat)
    (ha : has_shape a [(n : Int)]) (hb : has_shape b [(m : Int)])
    (hai : a.in_.length = n) (hao : a.out.length = n)
    (hbi : b.in_.length = m) (hbo : b.out.length = m)
    (fuel : Nat) (hfuel : min n m < fuel) :
    ∃ a' b', dsp_stream_sum fuel a b = some (a', b')
      ∧ (∀ (i : Nat) (ca cb : Option α), a.in_[i]? = some ca → b.in_[i]? = some cb →
          a'.out[i]? = some (cell_op (fun u v => u + v) ca cb)
          ∧ b'.out[i]? = some (cell_op (fun u v => u + v) ca cb))
      ∧ (∀ (i : Nat) (u v : α), a.in_[i]? = some (some u) → b.in_[i]? = some (some v) →
          a'.out[i]? = some (some (u + v)) ∧ b'.out[i]? = some (some (u + v)))
      ∧ (∀ (i : Nat), min n m ≤ i → a'.out[i]? = a.out[i]? ∧ b'.out[i]? = b.out[i]?)
      ∧ a' = { a with out := a'.out } ∧ b' = { b with out := b'.out } := by
  have hz : (List.zipWith (cell_op (fun u v : α => u + v)) a.in_ b.in_).length = min n m := by
    simp only [List.length_zipWith, hai, hbi]
  obtain ⟨c1, c2⟩ := combined_out_cells (fun u v : α => u + v) a.in_ b.in_ a.out (min n m) hz
  obtain ⟨d1, d2⟩ := combined_out_cells (fun u v : α => u + v) a.in_ b.in_ b.out (min n m) hz
  exact ⟨_, _, sum_pass_line a b n m ha hb hai hao hbi hbo fuel hfuel,
    fun i ca cb h1 h2 => ⟨c1 i ca cb h1 h2, d1 i ca cb h1 h2⟩,
    fun i u v h1 h2 => ⟨c1 i (some u) (some v) h1 h2, d1 i (some u) (some v) h1 h2⟩,
    fun i hi => ⟨c2 i hi, d2 i hi⟩, rfl, rfl⟩

/-- Sum on the 1-D streams of lengths 4 and 6. -/
theorem sum_one_dim_witness :
    has_shape line_4 [4] ∧ has_shape line_6 [6] ∧ min 4 6 < 5 ∧
    (∃ a' b', dsp_stream_sum 5 line_4 line_6 = some (a', b')
      ∧ (∀ (i : Nat) (u v : Int), line_4.in_[i]? = some (some u) →
          line_6.in_[i]? = some (some v) →
          a'.out[i]? = some (some (u + v)) ∧ b'.out[i]? = some (some (u + v)))
      ∧ (∀ (i : Nat), min 4 6 ≤ i →
          a'.out[i]? = line_4.out[i]? ∧ b'.out[i]? = line_6.out[i]?)) := by
  obtain ⟨a', b', h, _, h2, h3, _⟩ :=
    sum_one_dim line_4 line_6 4 6 (by decide) (by decide) rfl rfl rfl rfl 5 (by decide)
  exact ⟨by decide, by decide, by decide, a', b', h, h2, h3⟩

/-- C24.  `dsp_stream_swap_buffers` exchanges the two bindings and nothing else: afterwards `in`
is the former `out` and `out` the former `in`, contents included, and `len`,
`dims`, `sizes`, `pos`, `index`, `children`, `parent` (every other field) are
as before. -/
theorem swap_buffers_frame (s : dsp_stream α) :
    (dsp_stream_swap_buffers s).in_ = s.out
    ∧ (dsp_stream_swap_buffers s).out = s.in_
    ∧ (dsp_stream_swap_buffers s).len = s.len
    ∧ (dsp_stream_swap_buffers s).dims = s.dims
    ∧ (dsp_stream_swap_buffers s).sizes = s.sizes
    ∧ (dsp_stream_swap_buffers s).pos = s.pos
    ∧ (dsp_stream_swap_buffers s).index = s.index
    ∧ (dsp_stream_swap_buffers s).children = s.children
    ∧ (dsp_stream_swap_buffers s).parent = s.parent
    ∧ dsp_stream_swap_buffers s = { s with in_ := s.out, out := s.in_ } :=
  ⟨rfl, rfl, rfl, rfl, rfl, rfl, rfl, rfl, rfl, rfl⟩

/-- C25 (the code at the failing input).  On the 1-D source of 32768 samples with the region
`{start 16381, length 16384}`, which lies inside the source, the inner loop
of `dsp_stream_crop` runs three times: its second and third turns store at 16384 and at
32768 in a result of 16384 samples.  The stores of lines 240-241 are outside
the blocks of the result, in whatever object lies there, and the call has no
defined result: nothing is left to say about the source. -/
theorem crop_stores_outside_result :
    has_shape long_line [32768]
    ∧ long_line.len = 32768 ∧ long_line.in_.length = 32768 ∧ long_line.out.length = 32768
    ∧ crop_accesses 4 long_line
        = some [(16381, 0, 16384), (16382, 16384, 16384), (16383, 32768, 16384)]
    ∧ ¬ access_in_bounds long_line (16382, 16384, 16384)
    ∧ ¬ access_in_bounds long_line (16383, 32768, 16384)
    ∧ (∀ fuel, dsp_stream_crop_effect fuel long_line = none) := by
  refine ⟨by decide, rfl, ?_, ?_, by decide, fun h => absurd h.2.2.2.2 (by decide),
    fun h => absurd h.2.2.2.2 (by decide), fun fuel => ?_⟩
  · exact List.length_replicate _ _
  · exact List.length_replicate _ _
  · rw [crop_effect_eq, line_crop_outside long_line rfl (by decide) (by decide) fuel]
    rfl

/-- C26.  The walks of multiply and sum: on 1-D operands (extents `n` and `m`, `len`
equal to the extent) `dsp_stream_mul` and `dsp_stream_sum` visit the same index pairs in the
same order; on the two 2 x 2 streams they do not: multiply visits the pairs
(0,0), (1,1), (2,2), (3,3), (0,0), (2,2), sum the pairs (0,0), (1,1), (0,0),
so multiply writes output indices (2 and 3) that sum does not write. -/
theorem mul_sum_walks (a b : dsp_stream α) (n m : Int)
    (ha : has_shape a [n]) (hb : has_shape b [m]) (hal : a.len = n) (hbl : b.len = m)
    (fuel : Nat) :
    mul_accesses fuel a b = sum_accesses fuel a b
    ∧ mul_accesses 10 square_a square_b = some [(0, 0), (1, 1), (2, 2), (3, 3), (0, 0), (2, 2)]
    ∧ sum_accesses 10 square_a square_b = some [(0, 0), (1, 1), (0, 0)]
    ∧ (∃ tm ts, mul_accesses 10 square_a square_b = some tm
        ∧ sum_accesses 10 square_a square_b = some ts
        ∧ (∃ x, x ∈ tm.map Prod.fst ∧ x ∉ ts.map Prod.fst)
        ∧ (∃ y, y ∈ tm.map Prod.snd ∧ y ∉ ts.map Prod.snd)) := by
  have hmin : Min a.dims b.dims = 1 := by
    have hda : a.dims = 1 := by simpa using ha.1
    have hdb : b.dims = 1 := by simpa using hb.1
    rw [hda, hdb]
    rfl
  have hr : List.range 1 = [0] := rfl
  have hsa : rd a.sizes ((0 : Nat) : Int) = some n := rd_of_take a.sizes [n] ha.2 0 (by simp)
  have hsb : rd b.sizes ((0 : Nat) : Int) = some m := rd_of_take b.sizes [m] hb.2 0 (by simp)
  refine ⟨?_, by decide, by decide, ?_⟩
  · simp only [mul_accesses, sum_accesses, hmin, one_ne_zero, if_false, Int.toNat_one, hr,
      mul_accesses_from, sum_accesses_from, hsa, hsb, hal, hbl, Option.bind_eq_bind,
      Option.some_bind, pure]
  · exact ⟨[(0, 0), (1, 1), (2, 2), (3, 3), (0, 0), (2, 2)], [(0, 0), (1, 1), (0, 0)],
      by decide, by decide, ⟨2, by decide, by decide⟩, ⟨2, by decide, by decide⟩⟩

/-- The walks of multiply and sum on the 1-D streams of lengths 4 and 6. -/
theorem mul_sum_walks_witness :
    has_shape line_4 [4] ∧ has_shape line_6 [6] ∧
    mul_accesses 5 line_4 line_6 = sum_accesses 5 line_4 line_6 :=
  ⟨by decide, by decide,
   (mul_sum_walks line_4 line_6 4 6 (by decide) (by decide) rfl rfl 5).1⟩

/-- C27 (counterexample).  On the stream of extents 65536 and 65536 at the coordinates
(1, 65535), each within its extent, `dsp_stream_set_position` leaves `index = -65535`
and `dsp_stream_get_position` then leaves the coordinates (-65535, 0): the sum of line
173 is an `int`, and `1 + 65535 * 65536` does not fit in one. -/
theorem position_inverse_wraps :
    wide_grid.pos.take 2 = [some 1, some 65535]
    ∧ ((dsp_stream_set_position wide_grid).bind dsp_stream_get_position).map
        (fun s => s.pos.take 2) = some [some (-65535), some 0] := by
  constructor
  · rfl
  · rfl

/-- C27 (amended).  Compose is inverted by decompose: on a stream whose extents are all at
least 1, with a product within the range of an `int`, and whose coordinates
satisfy `0 ≤ pos[d] < sizes[d]` for every dimension, `dsp_stream_set_position` followed
by `dsp_stream_get_position` both return and leave `pos` as it was (and `index` as
composed). -/
theorem position_inverse (s : dsp_stream α) (es ps : List Int)
    (hs : has_shape s es) (hps : s.pos.take ps.length = ps.map some)
    (hlen : ps.length = es.length) (hpos : ∀ e ∈ es, 1 ≤ e) (hfit : es.prod ≤ int_max)
    (hrange : ∀ d (h1 : d < ps.length) (h2 : d < es.length), 0 ≤ ps[d] ∧ ps[d] < es[d]) :
    ∃ s1 s2, dsp_stream_set_position s = some s1 ∧ dsp_stream_get_position s1 = some s2
      ∧ s2.pos = s.pos ∧ s2.index = s1.index := by
  have hin := getD_range_of_getElem es ps hlen hrange
  obtain ⟨hset, hb⟩ := set_position_exact s es ps hs hps hlen hpos hfit hrange
  have hcap : es.length ≤ s.pos.length := by
    have h1 : (s.pos.take ps.length).length = ps.length := by rw [hps, List.length_map]
    rw [List.length_take] at h1
    omega
  have hget := get_position_eq { s with index := compose es ps es.length } es
    ⟨hs.1, hs.2⟩ hpos hfit hb.1 hcap
  refine ⟨_, _, hset, hget, ?_, rfl⟩
  show coords es (compose es ps es.length) es.length ++ s.pos.drop es.length = s.pos
  rw [coords_compose es ps hpos hlen hin, ← hps, hlen, List.take_append_drop]

/-- Compose then decompose on the 2 x 3 stream at the coordinates (1, 2). -/
theorem position_inverse_witness :
    has_shape grid_2x3 [2, 3] ∧
    (∃ s1 s2, dsp_stream_set_position { grid_2x3 with pos := [some 1, some 2, none] } = some s1
      ∧ dsp_stream_get_position s1 = some s2
      ∧ s2.pos = [some 1, some 2, none] ∧ s2.index = s1.index) :=
  ⟨by decide,
   position_inverse { grid_2x3 with pos := [some 1, some 2, none] } [2, 3] [1, 2]
     (by decide) rfl rfl (by decide) (by decide) (by decide)⟩

/-- C28.  Multiply and sum write only to the output buffers: on two streams that
satisfy the length invariant, each call returns (with enough fuel), and
afterwards `in`, `dims`, `sizes`, `len`, `pos` and `index` of both streams
(every field but `out`, whose size is kept) are as before. -/
theorem combine_writes_only_out [Mul α] [Add α] (a b : dsp_stream α) (ea eb : List Int)
    (ha : well_formed a ea) (hb : well_formed b eb) (fuel : Nat)
    (hfuel : a.len.toNat < fuel) :
    (∃ a' b', dsp_stream_mul fuel a b = some (a', b')
      ∧ (a'.in_ = a.in_ ∧ a'.dims = a.dims ∧ a'.sizes = a.sizes ∧ a'.len = a.len
          ∧ a'.pos = a.pos ∧ a'.index = a.index ∧ a' = { a with out := a'.out })
      ∧ (b'.in_ = b.in_ ∧ b'.dims = b.dims ∧ b'.sizes = b.sizes ∧ b'.len = b.len
          ∧ b'.pos = b.pos ∧ b'.index = b.index ∧ b' = { b with out := b'.out }))
    ∧ (∃ a' b', dsp_stream_sum fuel a b = some (a', b')
      ∧ (a'.in_ = a.in_ ∧ a'.dims = a.dims ∧ a'.sizes = a.sizes ∧ a'.len = a.len
          ∧ a'.pos = a.pos ∧ a'.index = a.index ∧ a' = { a with out := a'.out })
      ∧ (b'.in_ = b.in_ ∧ b'.dims = b.dims ∧ b'.sizes = b.sizes ∧ b'.len = b.len
          ∧ b'.pos = b.pos ∧ b'.index = b.index ∧ b' = { b with out := b'.out })) := by
  constructor
  · obtain ⟨a', b', h⟩ := mul_defined a b ea eb ha hb fuel hfuel
    obtain ⟨f1, f2⟩ := mul_frame fuel a b a' b' h
    obtain ⟨p1, p2, p3, p4, p5, p6, _⟩ := same_but_out_fields a a' f1
    obtain ⟨q1, q2, q3, q4, q5, q6, _⟩ := same_but_out_fields b b' f2
    exact ⟨a', b', h, ⟨p4, p2, p3, p1, p5, p6, f1.1⟩, ⟨q4, q2, q3, q1, q5, q6, f2.1⟩⟩
  · obtain ⟨a', b', h⟩ := sum_defined a b ea eb ha hb fuel hfuel
    obtain ⟨f1, f2⟩ := sum_frame fuel a b a' b' h
    obtain ⟨p1, p2, p3, p4, p5, p6, _⟩ := same_but_out_fields a a' f1
    obtain ⟨q1, q2, q3, q4, q5, q6, _⟩ := same_but_out_fields b b' f2
    exact ⟨a', b', h, ⟨p4, p2, p3, p1, p5, p6, f1.1⟩, ⟨q4, q2, q3, q1, q5, q6, f2.1⟩⟩

/-- Multiply and sum of the 2 x 3 stream with a 2 x 2 stream. -/
theorem combine_writes_only_out_witness :
    well_formed grid_2x3 [2, 3] ∧ well_formed square_a [2, 2] ∧
    (∃ a' b', dsp_stream_mul 7 grid_2x3 square_a = some (a', b')
      ∧ a'.in_ = grid_2x3.in_ ∧ b'.in_ = square_a.in_)
    ∧ (∃ a' b', dsp_stream_sum 7 grid_2x3 square_a = some (a', b')
      ∧ a'.in_ = grid_2x3.in_ ∧ b'.in_ = square_a.in_) := by
  obtain ⟨⟨a1, b1, h1, p1, q1⟩, ⟨a2, b2, h2, p2, q2⟩⟩ :=
    combine_writes_only_out grid_2x3 square_a [2, 3] [2, 2] (by decide) (by decide) 7
      (by decide)
  exact ⟨by decide, by decide, ⟨a1, b1, h1, p1.1, q1.1⟩, ⟨a2, b2, h2, p2.1, q2.1⟩⟩

/-- C29.  Multiply on equal shapes is the full elementwise product: on two streams
with the same extents (at least one dimension, every extent at least 1) that
satisfy the length invariant, `dsp_stream_mul` returns (with enough fuel) and every
output cell `i < len` of both streams holds the product of the two input
cells `i`; no other field changes. -/
theorem mul_equal_shapes [Mul α] (a b : dsp_stream α) (es : List Int)
    (hne : 0 < es.length) (ha : well_formed a es) (hb : well_formed b es)
    (fuel : Nat) (hfuel : a.len.toNat < fuel) :
    ∃ a' b', dsp_stream_mul fuel a b = some (a', b')
      ∧ a'.out = List.zipWith (cell_op (fun u v => u * v)) a.in_ b.in_
      ∧ b'.out = List.zipWith (cell_op (fun u v => u * v)) a.in_ b.in_
      ∧ a'.out.length = a.len.toNat ∧ b'.out.length = a.len.toNat
      ∧ (∀ (i : Nat) (u v : α), a.in_[i]? = some (some u) → b.in_[i]? = some (some v) →
          a'.out[i]? = some (some (u * v)) ∧ b'.out[i]? = some (some (u * v)))
      ∧ a' = { a with out := a'.out } ∧ b' = { b with out := b'.out } := by
  have hlen : (List.zipWith (cell_op (fun u v : α => u * v)) a.in_ b.in_).length
      = a.len.toNat := by
    obtain ⟨_, _, hla, hia, _⟩ := ha
    obtain ⟨_, _, hlb, hib, _⟩ := hb
    simp only [List.length_zipWith, hia, hib, hla, hlb, min_self]
  refine ⟨_, _, mul_same_extents_eq a b es hne ha hb fuel hfuel, rfl, rfl, hlen, hlen, ?_,
    rfl, rfl⟩
  intro i u v h1 h2
  have : (List.zipWith (cell_op (fun u v : α => u * v)) a.in_ b.in_)[i]?
      = some (some (u * v)) := by
    rw [List.getElem?_zipWith, h1, h2]
    rfl
  exact ⟨this, this⟩

/-- Multiply of the two 2 x 2 streams. -/
theorem mul_equal_shapes_witness :
    well_formed square_a [2, 2] ∧ well_formed square_b [2, 2] ∧
    (∃ a' b', dsp_stream_mul 5 square_a square_b = some (a', b')
      ∧ a'.out = [some 10, some 40, some 90, some 160]
      ∧ b'.out = [some 10, some 40, some 90, some 160]) := by
  obtain ⟨a', b', h, h1, h2, _⟩ :=
    mul_equal_shapes square_a square_b [2, 2] (by decide) (by decide) (by decide) 5
      (by decide)
  exact ⟨by decide, by decide, a', b', h, by rw [h1]; rfl, by rw [h2]; rfl⟩

/-- C30 (counterexample).  On the stream of extents 65536 and 65536 at the coordinates
(1, 65535), each within its extent, `dsp_stream_set_position` leaves a negative
`index`, -65535: the sum of line 173 is an `int`. -/
theorem set_position_negative_index :
    has_shape wide_grid [65536, 65536]
    ∧ wide_grid.pos.take 2 = [some 1, some 65535]
    ∧ (∃ s', dsp_stream_set_position wide_grid = some s' ∧ s'.index < 0) :=
  ⟨by decide, rfl, _, rfl, by decide⟩

/-- C30 (amended).  Compose stays inside the buffer: on a stream whose extents are all at
least 1, with a product within the range of an `int`, and whose coordinates
satisfy `0 ≤ pos[d] < sizes[d]` for every dimension, `dsp_stream_set_position` returns
with `0 ≤ index < product(sizes)`, hence `index < len` when `len` is that
product. -/
theorem set_position_in_range (s : dsp_stream α) (es ps : List Int)
    (hs : has_shape s es) (hps : s.pos.take ps.length = ps.map some)
    (hlen : ps.length = es.length) (hpos : ∀ e ∈ es, 1 ≤ e) (hfit : es.prod ≤ int_max)
    (hrange : ∀ d (h1 : d < ps.length) (h2 : d < es.length), 0 ≤ ps[d] ∧ ps[d] < es[d]) :
    ∃ s', dsp_stream_set_position s = some s'
      ∧ 0 ≤ s'.index ∧ s'.index < es.prod ∧ (s.len = es.prod → s'.index < s'.len) := by
  obtain ⟨hset, hb⟩ := set_position_exact s es ps hs hps hlen hpos hfit hrange
  refine ⟨_, hset, hb.1, hb.2, ?_⟩
  intro hl
  show compose es ps es.length < s.len
  rw [hl]
  exact hb.2

/-- Compose on the 2 x 3 stream at the coordinates (1, 2): the index is below 6. -/
theorem set_position_in_range_witness :
    has_shape grid_2x3 [2, 3] ∧
    (∃ s', dsp_stream_set_position { grid_2x3 with pos := [some 1, some 2, none] } = some s'
      ∧ 0 ≤ s'.index ∧ s'.index < [(2 : Int), 3].prod
      ∧ (grid_2x3.len = [(2 : Int), 3].prod → s'.index < s'.len)) :=
  ⟨by decide,
   set_position_in_range { grid_2x3 with pos := [some 1, some 2, none] } [2, 3] [1, 2]
     (by decide) rfl rfl (by decide) (by decide) (by decide)⟩

/-! ## Termination lemmas -/

theorem shape_sizes (s : dsp_stream α) (es : List Int) (hs : has_shape s es)
    (hpos : ∀ e ∈ es, 1 ≤ e) (n : Nat) (hn : n ≤ es.length) :
    ∀ d ∈ List.range n, ∃ e, rd s.sizes ((d : Nat) : Int) = some e ∧ 1 ≤ e ∧ e ≤ es.prod := by
  intro d hd
  have hd' : d < es.length := by
    have := List.mem_range.1 hd
    omega
  exact ⟨es[d], rd_of_take _ _ hs.2 d hd', hpos _ (List.getElem_mem hd'),
    le_prod_of_mem es hpos _ (List.getElem_mem hd')⟩

theorem sum_accesses_terminate (a b : dsp_stream α) (ea eb : List Int)
    (ha : has_shape a ea) (hb : has_shape b eb)
    (hpa : ∀ e ∈ ea, 1 ≤ e) (hpb : ∀ e ∈ eb, 1 ≤ e) (fuel : Nat)
    (hfuel : ea.prod.toNat < fuel) :
    ∃ tr, sum_accesses fuel a b = some tr
      ∧ ∀ p ∈ tr, 0 ≤ p.1 ∧ p.1 < ea.prod ∧ 0 ≤ p.2 ∧ p.2 < eb.prod := by
  unfold sum_accesses
  simp only
  split
  · exact ⟨[], rfl, by simp⟩
  · obtain ⟨m1, m2⟩ := Min_dims_le a b ea eb ha hb
    have h := sum_accesses_defined fuel { a with len := ea.prod } { b with len := eb.prod }
      hfuel (List.range (Min a.dims b.dims).toNat) 1 1 (le_refl _) (le_refl _)
      (shape_sizes a ea ha hpa _ m1) (shape_sizes b eb hb hpb _ m2)
    rw [sum_accesses_from_congr fuel a b { a with len := ea.prod } { b with len := eb.prod }
      rfl rfl] at h
    exact h

theorem sum_returns_of_accesses [Add α] (fuel : Nat) (a b : dsp_stream α)
    (tr : List (Int × Int)) (htr : sum_accesses fuel a b = some tr)
    (hb : ∀ p ∈ tr, pair_in_bounds a b p) : ∃ r, dsp_stream_sum fuel a b = some r := by
  unfold sum_accesses at htr
  unfold dsp_stream_sum
  simp only at htr ⊢
  split
  · exact ⟨_, rfl⟩
  · next hz =>
    rw [if_neg hz] at htr
    obtain ⟨st', h'⟩ := sum_run fuel _ 1 1 a b tr htr hb
    exact ⟨_, by rw [h']; rfl⟩

theorem flat_mul_diverges (fuel : Nat) : mul_accesses fuel flat_0x5 flat_0x5 = none := by
  have hw : walk (fun x y => decide (x < flat_0x5.len ∧ y < flat_0x5.len)) 0 0 fuel 0 0 = none :=
    walk_stuck _ 0 0 fuel 0 (fun k => by simp [flat_0x5])
  have hd : Min flat_0x5.dims flat_0x5.dims = 2 := by decide
  have hr : List.range (2 : Int).toNat = [0, 1] := by decide
  have h0 : rd flat_0x5.sizes ((0 : Nat) : Int) = some 0 := by decide
  have hz : wrap (1 * 0) = 0 := by decide
  simp only [mul_accesses, hd, hr, mul_accesses_from, h0, Option.bind_eq_bind, Option.some_bind,
    hz, hw, Option.none_bind]
  simp [bind_none_right]

theorem flat_sum_diverges (fuel : Nat) : sum_accesses fuel flat_0x5 flat_0x5 = none := by
  have hw : walk (fun x y => decide (x < (5 : Int) ∧ y < (5 : Int))) 0 0 fuel 0 0 = none :=
    walk_stuck _ 0 0 fuel 0 (fun k => by simp)
  have hd : Min flat_0x5.dims flat_0x5.dims = 2 := by decide
  have hr : List.range (2 : Int).toNat = [0, 1] := by decide
  have h0 : rd flat_0x5.sizes ((0 : Nat) : Int) = some 0 := by decide
  have h1 : rd flat_0x5.sizes ((1 : Nat) : Int) = some 5 := by decide
  simp only [sum_accesses, hd, hr, sum_accesses_from, h0, h1, Option.bind_eq_bind,
    Option.some_bind, hw, Option.none_bind]
  simp [bind_none_right]

/-! ## Claims C31 to C33 -/

/-- C31 (counterexample).  On the stream of extents 65536, 65537 and 2 at index 65536,
`dsp_stream_get_position` followed by `dsp_stream_set_position` leaves `index = 131072`,
where the index modulo the product of the extents is 65536: the running
product of lines 162 and 174 is an `int`, and `65536 * 65537` wraps to
65536. -/
theorem round_trip_stride_wraps :
    wide_cube.index % [(65536 : Int), 65537, 2].prod = 65536
    ∧ ((dsp_stream_get_position wide_cube).bind dsp_stream_set_position).map
        (fun s => s.index) = some 131072 := by
  constructor
  · rfl
  · rfl

/-- C31 (amended).  Round trip outside the valid range wraps: on a stream whose extents are
all at least 1, with a product within the range of an `int`, at any index
that is not negative (also one at or beyond `len`), `dsp_stream_get_position` followed
by `dsp_stream_set_position` both return and leave `index` equal to the original index
modulo the product of the extents. -/
theorem index_wraps_mod_product (s : dsp_stream α) (es : List Int)
    (hs : has_shape s es) (hp : es.length ≤ s.pos.length)
    (hpos : ∀ e ∈ es, 1 ≤ e) (hfit : es.prod ≤ int_max) (h0 : 0 ≤ s.index) :
    ∃ s1 s2, dsp_stream_get_position s = some s1 ∧ dsp_stream_set_position s1 = some s2
      ∧ s2.index = s.index % es.prod := by
  have hg := get_position_eq s es hs hpos hfit h0 hp
  have hset := set_position_eq
    { s with pos := coords es s.index es.length ++ s.pos.drop es.length } es
    ((List.range es.length).map (fun d => (s.index / stride es d) % es.getD d 1))
    ⟨hs.1, hs.2⟩
    (by
      simp only [List.length_map, List.length_range]
      rw [List.take_left']
      · simp [coords]
      · simp [coords])
    (by simp)
  have hst : stride es es.length = es.prod := by simp [stride]
  have hprod : 1 ≤ es.prod := one_le_prod es hpos
  have hc := compose_coords es hpos s.index es.length es.length (Nat.le_refl _) (Nat.le_refl _)
  rw [hst] at hc
  have hm0 : 0 ≤ s.index % es.prod := Int.emod_nonneg _ (by omega)
  have hm1 : s.index % es.prod < es.prod := Int.emod_lt_of_pos _ (by omega)
  rw [hc, wrap_of_range _ (by unfold int_min; omega) (by omega)] at hset
  exact ⟨_, _, hg, hset, rfl⟩

/-- The round trip on the 2 x 3 stream at index 17, beyond `len = 6`: the index
becomes 5. -/
theorem index_wraps_mod_product_witness :
    has_shape grid_2x3_far [2, 3] ∧ grid_2x3_far.len ≤ grid_2x3_far.index ∧
    (∃ s1 s2, dsp_stream_get_position grid_2x3_far = some s1
      ∧ dsp_stream_set_position s1 = some s2 ∧ s2.index = 5) := by
  obtain ⟨s1, s2, h1, h2, h3⟩ :=
    index_wraps_mod_product grid_2x3_far [2, 3] (by decide) (by decide) (by decide)
      (by decide) (by decide)
  exact ⟨by decide, by decide, s1, s2, h1, h2, by rw [h3]; rfl⟩

/-- C32.  The combine walks stay in bounds: on two streams that satisfy the length
invariant (extents at least 1, `len` their product, `in` and `out` of exactly
`len` samples), with enough fuel, the walks of `dsp_stream_mul` and of `dsp_stream_sum` end,
every index pair `(x, y)` they visit has `0 ≤ x < a.len` and `0 ≤ y < b.len`,
hence lies inside `in` and `out` of its stream, and both calls return. -/
theorem combine_walks_in_bounds [Mul α] [Add α] (a b : dsp_stream α) (ea eb : List Int)
    (ha : well_formed a ea) (hb : well_formed b eb) (fuel : Nat)
    (hfuel : a.len.toNat < fuel) :
    (∃ tr, mul_accesses fuel a b = some tr
      ∧ (∀ p ∈ tr, (0 ≤ p.1 ∧ p.1 < a.len) ∧ (0 ≤ p.2 ∧ p.2 < b.len) ∧ pair_in_bounds a b p)
      ∧ ∃ r, dsp_stream_mul fuel a b = some r)
    ∧ (∃ tr, sum_accesses fuel a b = some tr
      ∧ (∀ p ∈ tr, (0 ≤ p.1 ∧ p.1 < a.len) ∧ (0 ≤ p.2 ∧ p.2 < b.len) ∧ pair_in_bounds a b p)
      ∧ ∃ r, dsp_stream_sum fuel a b = some r) := by
  constructor
  · obtain ⟨tr, htr, hbt⟩ := mul_accesses_terminate a b ea eb ha.1 hb.1 ha.2.1 hb.2.1
      (well_formed_fit a ea ha) (well_formed_fit b eb hb) fuel hfuel
    have hin : ∀ p ∈ tr, pair_in_bounds a b p :=
      fun p hp => well_formed_bounds a b ea eb ha hb p (hbt p hp)
    refine ⟨tr, htr, ?_, mul_returns_of_accesses fuel a b tr htr hin⟩
    intro p hp
    obtain ⟨h1, h2, h3, h4⟩ := hbt p hp
    exact ⟨⟨h1, h2⟩, ⟨h3, h4⟩, hin p hp⟩
  · have hla : a.len = ea.prod := ha.2.2.1
    have hlb : b.len = eb.prod := hb.2.2.1
    obtain ⟨tr, htr, hbt⟩ := sum_accesses_terminate a b ea eb ha.1 hb.1 ha.2.1 hb.2.1 fuel
      (by rw [← hla]; exact hfuel)
    rw [← hla, ← hlb] at hbt
    have hin : ∀ p ∈ tr, pair_in_bounds a b p :=
      fun p hp => well_formed_bounds a b ea eb ha hb p (hbt p hp)
    refine ⟨tr, htr, ?_, sum_returns_of_accesses fuel a b tr htr hin⟩
    intro p hp
    obtain ⟨h1, h2, h3, h4⟩ := hbt p hp
    exact ⟨⟨h1, h2⟩, ⟨h3, h4⟩, hin p hp⟩

/-- The walks of multiply and sum on the 2 x 3 stream and a 2 x 2 stream. -/
theorem combine_walks_in_bounds_witness :
    well_formed grid_2x3 [2, 3] ∧ well_formed square_a [2, 2] ∧
    (∃ tr, mul_accesses 7 grid_2x3 square_a = some tr
      ∧ ∀ p ∈ tr, (0 ≤ p.1 ∧ p.1 < 6) ∧ (0 ≤ p.2 ∧ p.2 < 4))
    ∧ (∃ tr, sum_accesses 7 grid_2x3 square_a = some tr
      ∧ ∀ p ∈ tr, (0 ≤ p.1 ∧ p.1 < 6) ∧ (0 ≤ p.2 ∧ p.2 < 4)) := by
  obtain ⟨⟨t1, h1, b1, _⟩, ⟨t2, h2, b2, _⟩⟩ :=
    combine_walks_in_bounds grid_2x3 square_a [2, 3] [2, 2] (by decide) (by decide) 7
      (by decide)
  exact ⟨by decide, by decide, ⟨t1, h1, fun p hp => ⟨(b1 p hp).1, (b1 p hp).2.1⟩⟩,
    ⟨t2, h2, fun p hp => ⟨(b2 p hp).1, (b2 p hp).2.1⟩⟩⟩

/-- C33 (counterexample).  On the stream of extents 65536, 65536 and 2, all at least 1, with
`len = 1`, the walk of `dsp_stream_mul` does not end, whatever the fuel: the stride of
the third pass is the `int` product `65536 * 65536`, which is 0 (lines
206-207), and the loop of line 201 stays at `x = 0 < len`. -/
theorem mul_walk_stride_wraps :
    has_shape wide_walk [65536, 65536, 2]
    ∧ (∀ e ∈ [(65536 : Int), 65536, 2], 1 ≤ e)
    ∧ wrap (wrap (1 * 65536) * 65536) = 0
    ∧ (∀ fuel, mul_accesses fuel wide_walk wide_walk = none) := by
  refine ⟨by decide, by decide, by decide, fun fuel => ?_⟩
  have hw : walk (fun x y => decide (x < wide_walk.len ∧ y < wide_walk.len)) 0 0 fuel 0 0
      = none :=
    walk_stuck _ 0 0 fuel 0 (fun k => by simp [wide_walk, dsp_stream_new])
  have hd : Min wide_walk.dims wide_walk.dims = 3 := by decide
  have hr : List.range (3 : Int).toNat = [0, 1, 2] := by decide
  have h0 : rd wide_walk.sizes ((0 : Nat) : Int) = some 65536 := by decide
  have h1 : rd wide_walk.sizes ((1 : Nat) : Int) = some 65536 := by decide
  have hs1 : wrap (1 * 65536) = 65536 := by decide
  have hs2 : wrap (65536 * 65536) = 0 := by decide
  simp only [mul_accesses, hd, hr, mul_accesses_from, h0, h1, hs1, hs2, Option.bind_eq_bind,
    Option.some_bind, hw, Option.none_bind]
  simp [bind_none_right]

/-- C33 (amended).  The dimension walks terminate when the extents are positive and the
arithmetic stays within an `int`: on streams whose extents are all at least
1, with a product within the range of an `int` and a `len` not above that
product (and whose region cells exist, for the crop), from some amount of
fuel on the walks of `dsp_stream_mul`, `dsp_stream_sum` and `dsp_stream_crop` all end, every index
that multiply and sum visit is at least 0 and below the product of the
extents of its stream, and each call returns as soon as its accesses are
inside the blocks.  The precondition on the extents is needed: on the stream
of extents 0 and 5 the stride of the second pass is 0 and none of the three
walks ends, whatever the fuel. -/
theorem dimension_walks_terminate [Zero α] [Mul α] [Add α] (a b : dsp_stream α)
    (ea eb : List Int) (ha : has_shape a ea) (hb : has_shape b eb)
    (hpa : ∀ e ∈ ea, 1 ≤ e) (hpb : ∀ e ∈ eb, 1 ≤ e)
    (hfa : ea.prod ≤ int_max) (hfb : eb.prod ≤ int_max)
    (hla : a.len ≤ ea.prod) (hlb : b.len ≤ eb.prod)
    (hroi : ∀ d, d < ea.length → ∃ r, rd a.ROI ((d : Nat) : Int) = some r) :
    (∃ N, ∀ fuel, N ≤ fuel →
      (∃ tr, mul_accesses fuel a b = some tr
        ∧ (∀ p ∈ tr, 0 ≤ p.1 ∧ p.1 < ea.prod ∧ 0 ≤ p.2 ∧ p.2 < eb.prod)
        ∧ ((∀ p ∈ tr, pair_in_bounds a b p) → ∃ r, dsp_stream_mul fuel a b = some r))
      ∧ (∃ tr, sum_accesses fuel a b = some tr
        ∧ (∀ p ∈ tr, 0 ≤ p.1 ∧ p.1 < ea.prod ∧ 0 ≤ p.2 ∧ p.2 < eb.prod)
        ∧ ((∀ p ∈ tr, pair_in_bounds a b p) → ∃ r, dsp_stream_sum fuel a b = some r))
      ∧ (∃ tr, crop_accesses fuel a = some tr
        ∧ ((∀ x ∈ tr, access_in_bounds a x) → ∃ r, dsp_stream_crop fuel a = some r)))
    ∧ (∀ fuel, mul_accesses fuel flat_0x5 flat_0x5 = none
        ∧ sum_accesses fuel flat_0x5 flat_0x5 = none
        ∧ crop_accesses fuel flat_0x5 = none) := by
  refine ⟨?_, fun fuel => ⟨flat_mul_diverges fuel, flat_sum_diverges fuel,
    flat_crop_diverges fuel⟩⟩
  obtain ⟨N, hN⟩ := crop_accesses_terminate a ea ha hpa hroi
  refine ⟨max (a.len.toNat + 1) (max (ea.prod.toNat + 1) N), ?_⟩
  intro fuel hfuel
  have f1 : a.len.toNat < fuel := by
    have := le_max_left (a.len.toNat + 1) (max (ea.prod.toNat + 1) N)
    omega
  have f23 : max (ea.prod.toNat + 1) N ≤ fuel :=
    le_trans (le_max_right (a.len.toNat + 1) _) hfuel
  have f2 : ea.prod.toNat < fuel := by
    have := le_max_left (ea.prod.toNat + 1) N
    omega
  have f3 : N ≤ fuel := le_trans (le_max_right (ea.prod.toNat + 1) N) f23
  obtain ⟨t1, h1, b1⟩ := mul_accesses_terminate a b ea eb ha hb hpa hpb hfa hfb fuel f1
  obtain ⟨t2, h2, b2⟩ := sum_accesses_terminate a b ea eb ha hb hpa hpb fuel f2
  obtain ⟨t3, h3⟩ := hN fuel f3
  refine ⟨⟨t1, h1, fun p hp => ?_, mul_returns_of_accesses fuel a b t1 h1⟩,
    ⟨t2, h2, b2, sum_returns_of_accesses fuel a b t2 h2⟩,
    ⟨t3, h3, crop_returns_of_accesses fuel a t3 h3⟩⟩
  obtain ⟨x0, x1, y0, y1⟩ := b1 p hp
  exact ⟨x0, by omega, y0, by omega⟩

/-- The walks on the 4 x 4 stream with its two regions, paired with a 2 x 2 stream,
and the walks that do not end on the stream of extents 0 and 5. -/
theorem dimension_walks_terminate_witness :
    has_shape grid_4x4 [4, 4] ∧ has_shape square_a [2, 2] ∧
    (∃ N, ∀ fuel, N ≤ fuel →
      (∃ tr, mul_accesses fuel grid_4x4 square_a = some tr)
      ∧ (∃ tr, sum_accesses fuel grid_4x4 square_a = some tr)
      ∧ (∃ tr, crop_accesses fuel grid_4x4 = some tr))
    ∧ (∀ fuel, sum_accesses fuel flat_0x5 flat_0x5 = none) := by
  obtain ⟨⟨N, hN⟩, hdiv⟩ :=
    dimension_walks_terminate grid_4x4 square_a [4, 4] [2, 2] (by decide) (by decide)
      (by decide) (by decide) (by decide) (by decide) (by decide) (by decide)
      (fun d hd => by
        have hd2 : d < 2 := hd
        interval_cases d
        · exact ⟨_, rfl⟩
        · exact ⟨_, rfl⟩)
  refine ⟨by decide, by decide, ⟨N, fun fuel hfuel => ?_⟩, fun fuel => (hdiv fuel).2.1⟩
  obtain ⟨⟨t1, h1, _⟩, ⟨t2, h2, _⟩, ⟨t3, h3, _⟩⟩ := hN fuel hfuel
  exact ⟨⟨t1, h1⟩, ⟨t2, h2⟩, ⟨t3, h3⟩⟩

end Dsp
